import Mathlib

/-!
DbList: a doubly linked list over an explicit node heap

Shallow embedding of `src/DbList.hpp`.

* A `Node*` is a natural number; `nullptr` is `0`.
* The free store is a partial map from addresses to nodes (`Heap`); a freed or never
  allocated address maps to `none`.
* The `Allocator` template parameter is a parameter of the model: any function choosing a
  free, non-null, 64-bit address (or failing, which is `std::bad_alloc`).
* `size_t` is 64 bits wide: `++size_` and `--size_` are computed modulo `2 ^ 64`.
* Dereferencing `nullptr`, or a pointer to a freed node, is undefined behaviour in C++; the
  model turns it into the faults `null_pointer` / `dangling_pointer`.
* A mutating call returns an `Outcome`: the new state, or a fault with the state in which
  it was raised, so that the state left behind by an exception can be inspected.
* List objects live in numbered slots of a `World`, so that `this != &other` is a
  comparison of slot numbers.
* Loops (`clear`, range-`for`) take a fuel argument and stop with `out_of_fuel` at zero;
  the theorems show which fuel is enough.
* Copying or moving an element value is assumed not to throw.
-/

namespace DbListModel

/-- Ways in which a call can end other than by returning normally. -/
inductive Fault where
  /-- The exception `std::out_of_range("List is empty")`. -/
  | out_of_range
  /-- The allocator could not provide a node. -/
  | bad_alloc
  /-- Undefined behaviour: `nullptr` was dereferenced. -/
  | null_pointer
  /-- Undefined behaviour: a pointer to a freed or never allocated node was used. -/
  | dangling_pointer
  /-- A member function was called on a slot holding no constructed list. -/
  | no_object
  /-- The loop budget of the model was exhausted. -/
  | out_of_fuel
deriving DecidableEq, Repr

/-- What a mutating call on a state of type `σ` produces: the state on normal return, or a
fault together with the state in which it was raised (immaterial when the fault stands for
undefined behaviour). -/
abbrev Outcome (σ : Type) := Except (Fault × σ) σ

/-- Width modulus of `size_t`. -/
def SIZE_MOD : Nat := 2 ^ 64

/-- The struct `Node`: one element and the two links. -/
structure Node (α : Type) where
  data : α
  prev : Nat
  next : Nat

/-- The free store: which node, if any, is allocated at each address. -/
abbrev Heap (α : Type) := Nat → Option (Node α)

/-- The private fields `head_`, `tail_`, `size_` of a list object. -/
structure DbList where
  head_ : Nat
  tail_ : Nat
  size_ : Nat
deriving DecidableEq, Repr

/-- The allocation strategy: `allocate(1)` either fails or returns a non-null address that
fits a 64-bit pointer and is not currently allocated. -/
structure Allocator (α : Type) where
  allocate : Heap α → Option Nat
  fresh : ∀ h p, allocate h = some p → 0 < p ∧ p < SIZE_MOD ∧ h p = none

/-- Read through a pointer (`p->...`). -/
def Heap.read {α : Type} (h : Heap α) (p : Nat) : Except Fault (Node α) :=
  if p = 0 then .error .null_pointer
  else match h p with
    | none => .error .dangling_pointer
    | some n => .ok n

/-- Store a node at an address. -/
def Heap.write {α : Type} (h : Heap α) (p : Nat) (n : Node α) : Heap α :=
  fun q => if q = p then some n else h q

/-- Remove the node at an address. -/
def Heap.erase {α : Type} (h : Heap α) (p : Nat) : Heap α :=
  fun q => if q = p then none else h q

/-- Assignment `p->next = q`. -/
def Heap.set_next {α : Type} (h : Heap α) (p q : Nat) : Except Fault (Heap α) :=
  match h.read p with
  | .error e => .error e
  | .ok n => .ok (h.write p ⟨n.data, n.prev, q⟩)

/-- Assignment `p->prev = q`. -/
def Heap.set_prev {α : Type} (h : Heap α) (p q : Nat) : Except Fault (Heap α) :=
  match h.read p with
  | .error e => .error e
  | .ok n => .ok (h.write p ⟨n.data, q, n.next⟩)

/-- The pair `destroy(temp)`, `deallocate(temp, 1)`: the node must be live. -/
def Heap.free {α : Type} (h : Heap α) (p : Nat) : Except Fault (Heap α) :=
  match h.read p with
  | .error e => .error e
  | .ok _ => .ok (h.erase p)

/-- The class `Iterator`: a bare node pointer. -/
structure Iterator where
  current_ : Nat
deriving DecidableEq, Repr

/-- Dereference `operator*`: `current_->data`. -/
def Iterator.deref {α : Type} (h : Heap α) (it : Iterator) : Except Fault α :=
  match h.read it.current_ with
  | .error e => .error e
  | .ok n => .ok n.data

/-- Pre-increment `operator++`: `current_ = current_->next`. -/
def Iterator.inc {α : Type} (h : Heap α) (it : Iterator) : Except Fault Iterator :=
  match h.read it.current_ with
  | .error e => .error e
  | .ok n => .ok ⟨n.next⟩

/-- Pre-decrement `operator--`: `current_ = current_->prev`. -/
def Iterator.dec {α : Type} (h : Heap α) (it : Iterator) : Except Fault Iterator :=
  match h.read it.current_ with
  | .error e => .error e
  | .ok n => .ok ⟨n.prev⟩

/-- Comparison `operator==`: `current_ == other.current_`. -/
def Iterator.eq (a b : Iterator) : Bool := a.current_ == b.current_

/-- Comparison `operator!=`: `current_ != other.current_`. -/
def Iterator.ne (a b : Iterator) : Bool := a.current_ != b.current_

/-- The default constructor: `head_(nullptr), tail_(nullptr), size_(0)`. -/
def DbList.init : DbList := ⟨0, 0, 0⟩

/-- Member `begin()`: `iterator(head_)`. -/
def DbList.begin (l : DbList) : Iterator := ⟨l.head_⟩

/-- Member `end()`: `iterator(nullptr)`. -/
def DbList.end (_l : DbList) : Iterator := ⟨0⟩

/-- Member `size()`. -/
def DbList.size (l : DbList) : Nat := l.size_

/-- Member `empty()`: `size_ == 0`. -/
def DbList.empty (l : DbList) : Bool := l.size_ == 0

/-- Member `push_back(value)`. -/
def DbList.push_back {α : Type} (A : Allocator α) (value : α) (h : Heap α) (l : DbList) :
    Outcome (Heap α × DbList) :=
  match A.allocate h with
  | none => .error (.bad_alloc, h, l)
  | some new_node =>
    let h1 := h.write new_node ⟨value, 0, 0⟩
    if l.tail_ ≠ 0 then
      match h1.set_next l.tail_ new_node with
      | .error e => .error (e, h1, l)
      | .ok h2 =>
        match h2.set_prev new_node l.tail_ with
        | .error e => .error (e, h2, l)
        | .ok h3 => .ok (h3, ⟨l.head_, new_node, (l.size_ + 1) % SIZE_MOD⟩)
    else
      .ok (h1, ⟨new_node, new_node, (l.size_ + 1) % SIZE_MOD⟩)

/-- Member `push_front(value)`. -/
def DbList.push_front {α : Type} (A : Allocator α) (value : α) (h : Heap α) (l : DbList) :
    Outcome (Heap α × DbList) :=
  match A.allocate h with
  | none => .error (.bad_alloc, h, l)
  | some new_node =>
    let h1 := h.write new_node ⟨value, 0, 0⟩
    if l.head_ ≠ 0 then
      match h1.set_prev l.head_ new_node with
      | .error e => .error (e, h1, l)
      | .ok h2 =>
        match h2.set_next new_node l.head_ with
        | .error e => .error (e, h2, l)
        | .ok h3 => .ok (h3, ⟨new_node, l.tail_, (l.size_ + 1) % SIZE_MOD⟩)
    else
      .ok (h1, ⟨new_node, new_node, (l.size_ + 1) % SIZE_MOD⟩)

/-- Member `pop_back()`. -/
def DbList.pop_back {α : Type} (h : Heap α) (l : DbList) : Outcome (Heap α × DbList) :=
  if l.tail_ ≠ 0 then
    let temp := l.tail_
    match h.read l.tail_ with
    | .error e => .error (e, h, l)
    | .ok n =>
      let tail1 := n.prev
      if tail1 ≠ 0 then
        match h.set_next tail1 0 with
        | .error e => .error (e, h, ⟨l.head_, tail1, l.size_⟩)
        | .ok h1 =>
          match h1.free temp with
          | .error e => .error (e, h1, ⟨l.head_, tail1, l.size_⟩)
          | .ok h2 => .ok (h2, ⟨l.head_, tail1, (l.size_ + SIZE_MOD - 1) % SIZE_MOD⟩)
      else
        match h.free temp with
        | .error e => .error (e, h, ⟨0, tail1, l.size_⟩)
        | .ok h2 => .ok (h2, ⟨0, tail1, (l.size_ + SIZE_MOD - 1) % SIZE_MOD⟩)
  else .ok (h, l)

/-- Member `pop_front()`. -/
def DbList.pop_front {α : Type} (h : Heap α) (l : DbList) : Outcome (Heap α × DbList) :=
  if l.head_ ≠ 0 then
    let temp := l.head_
    match h.read l.head_ with
    | .error e => .error (e, h, l)
    | .ok n =>
      let head1 := n.next
      if head1 ≠ 0 then
        match h.set_prev head1 0 with
        | .error e => .error (e, h, ⟨head1, l.tail_, l.size_⟩)
        | .ok h1 =>
          match h1.free temp with
          | .error e => .error (e, h1, ⟨head1, l.tail_, l.size_⟩)
          | .ok h2 => .ok (h2, ⟨head1, l.tail_, (l.size_ + SIZE_MOD - 1) % SIZE_MOD⟩)
      else
        match h.free temp with
        | .error e => .error (e, h, ⟨head1, 0, l.size_⟩)
        | .ok h2 => .ok (h2, ⟨head1, 0, (l.size_ + SIZE_MOD - 1) % SIZE_MOD⟩)
  else .ok (h, l)

/-- The loop of `clear()`: `while (head_) { temp = head_; head_ = head_->next; free temp }`. -/
def clear_loop {α : Type} : Nat → Heap α → Nat → Outcome (Heap α × Nat)
  | 0, h, head => .error (.out_of_fuel, h, head)
  | fuel + 1, h, head =>
    if head ≠ 0 then
      match h.read head with
      | .error e => .error (e, h, head)
      | .ok n =>
        match h.free head with
        | .error e => .error (e, h, n.next)
        | .ok h1 => clear_loop fuel h1 n.next
    else .ok (h, head)

/-- Member `clear()`. -/
def DbList.clear {α : Type} (fuel : Nat) (h : Heap α) (l : DbList) :
    Outcome (Heap α × DbList) :=
  match clear_loop fuel h l.head_ with
  | .error (e, h1, head1) => .error (e, h1, ⟨head1, l.tail_, l.size_⟩)
  | .ok (h1, head1) => .ok (h1, ⟨head1, 0, 0⟩)

/-- Member `front()`. -/
def DbList.front {α : Type} (h : Heap α) (l : DbList) : Except Fault α :=
  if l.empty then .error .out_of_range
  else match h.read l.head_ with
    | .error e => .error e
    | .ok n => .ok n.data

/-- Member `back()`. -/
def DbList.back {α : Type} (h : Heap α) (l : DbList) : Except Fault α :=
  if l.empty then .error .out_of_range
  else match h.read l.tail_ with
    | .error e => .error e
    | .ok n => .ok n.data

/-- Forward traversal `for (it = first; it != last; ++it) yield *it`. -/
def traverse {α : Type} (h : Heap α) : Nat → Iterator → Iterator → Except Fault (List α)
  | 0, _, _ => .error .out_of_fuel
  | fuel + 1, it, last =>
    if it.ne last then
      match it.deref h with
      | .error e => .error e
      | .ok v =>
        match it.inc h with
        | .error e => .error e
        | .ok it1 =>
          match traverse h fuel it1 last with
          | .error e => .error e
          | .ok vs => .ok (v :: vs)
    else .ok []

/-- The elements seen by a forward traversal from `begin()` to `end()`. -/
def DbList.to_list {α : Type} (fuel : Nat) (h : Heap α) (l : DbList) : Except Fault (List α) :=
  traverse h fuel l.begin l.end

/-- The adaptor `std::reverse_iterator<Iterator>` of the C++ standard library: it wraps a
forward cursor `current`. -/
structure ReverseIterator where
  current : Iterator
deriving DecidableEq, Repr

/-- Dereference of a reverse cursor: `Iterator tmp = current; return *--tmp;`. -/
def ReverseIterator.deref {α : Type} (h : Heap α) (r : ReverseIterator) : Except Fault α :=
  match r.current.dec h with
  | .error e => .error e
  | .ok tmp => tmp.deref h

/-- Increment of a reverse cursor: `--current`. -/
def ReverseIterator.inc {α : Type} (h : Heap α) (r : ReverseIterator) :
    Except Fault ReverseIterator :=
  match r.current.dec h with
  | .error e => .error e
  | .ok it => .ok ⟨it⟩

/-- Inequality of reverse cursors: inequality of the wrapped cursors. -/
def ReverseIterator.ne (a b : ReverseIterator) : Bool := a.current.ne b.current

/-- Member `rbegin()`: `reverse_iterator(end())`. -/
def DbList.rbegin (l : DbList) : ReverseIterator := ⟨l.end⟩

/-- Member `rend()`: `reverse_iterator(begin())`. -/
def DbList.rend (l : DbList) : ReverseIterator := ⟨l.begin⟩

/-- Reverse traversal `for (r = first; r != last; ++r) yield *r`. -/
def rtraverse {α : Type} (h : Heap α) :
    Nat → ReverseIterator → ReverseIterator → Except Fault (List α)
  | 0, _, _ => .error .out_of_fuel
  | fuel + 1, r, last =>
    if r.ne last then
      match r.deref h with
      | .error e => .error e
      | .ok v =>
        match r.inc h with
        | .error e => .error e
        | .ok r1 =>
          match rtraverse h fuel r1 last with
          | .error e => .error e
          | .ok vs => .ok (v :: vs)
    else .ok []

/-- The elements seen by a reverse traversal from `rbegin()` to `rend()`. -/
def DbList.to_rlist {α : Type} (fuel : Nat) (h : Heap α) (l : DbList) :
    Except Fault (List α) :=
  rtraverse h fuel l.rbegin l.rend

/-- The node addresses met by following `next` from `first` until `nullptr`. -/
def chain {α : Type} (h : Heap α) : Nat → Nat → Except Fault (List Nat)
  | 0, _ => .error .out_of_fuel
  | fuel + 1, p =>
    if p ≠ 0 then
      match h.read p with
      | .error e => .error e
      | .ok n =>
        match chain h fuel n.next with
        | .error e => .error e
        | .ok ps => .ok (p :: ps)
    else .ok []

/-- The program state: the free store and the list objects, one per slot. -/
structure World (α : Type) where
  heap : Heap α
  objs : Nat → Option DbList

/-- The state before anything was constructed or allocated. -/
def World.init {α : Type} : World α := ⟨fun _ => none, fun _ => none⟩

/-- Overwrite the object stored in a slot. -/
def World.set_obj {α : Type} (w : World α) (i : Nat) (o : Option DbList) : World α :=
  ⟨w.heap, fun j => if j = i then o else w.objs j⟩

/-- Call a mutating member function on the object in slot `this`. -/
def World.invoke {α : Type} (w : World α) (this : Nat)
    (m : Heap α → DbList → Outcome (Heap α × DbList)) : Outcome (World α) :=
  match w.objs this with
  | none => .error (.no_object, w)
  | some l =>
    match m w.heap l with
    | .error (e, h1, l1) => .error (e, ⟨h1, fun j => if j = this then some l1 else w.objs j⟩)
    | .ok (h1, l1) => .ok ⟨h1, fun j => if j = this then some l1 else w.objs j⟩

/-- Call a read-only member function on the object in slot `this`. -/
def World.query {α β : Type} (w : World α) (this : Nat)
    (q : Heap α → DbList → Except Fault β) : Except Fault β :=
  match w.objs this with
  | none => .error .no_object
  | some l => q w.heap l

/-- The default constructor `DbList()` run on slot `this`. -/
def World.construct {α : Type} (w : World α) (this : Nat) : World α :=
  w.set_obj this (some DbList.init)

/-- The loop `for (const auto& value : other) push_back(value);` run on slot `this`. -/
def copy_from {α : Type} (A : Allocator α) :
    Nat → World α → Nat → Iterator → Iterator → Outcome (World α)
  | 0, w, _, _, _ => .error (.out_of_fuel, w)
  | fuel + 1, w, this, it, last =>
    if it.ne last then
      match it.deref w.heap with
      | .error e => .error (e, w)
      | .ok value =>
        match w.invoke this (DbList.push_back A value) with
        | .error e => .error e
        | .ok w1 =>
          match it.inc w1.heap with
          | .error e => .error (e, w1)
          | .ok it1 => copy_from A fuel w1 this it1 last
    else .ok w

/-- The copy constructor `DbList(const DbList& other)` run on slot `this`. -/
def World.copy_ctor {α : Type} (A : Allocator α) (fuel : Nat) (w : World α)
    (this other : Nat) : Outcome (World α) :=
  let w1 := w.set_obj this (some DbList.init)
  match w1.objs other with
  | none => .error (.no_object, w1)
  | some o => copy_from A fuel w1 this o.begin o.end

/-- The move constructor `DbList(DbList&& other)` run on slot `this`. -/
def World.move_ctor {α : Type} (w : World α) (this other : Nat) : Outcome (World α) :=
  match w.objs other with
  | none => .error (.no_object, w)
  | some o =>
    .ok ((w.set_obj this (some ⟨o.head_, o.tail_, o.size_⟩)).set_obj other (some ⟨0, 0, 0⟩))

/-- The destructor `~DbList()`: `clear()`, after which the slot holds no object. -/
def World.destroy {α : Type} (fuel : Nat) (w : World α) (this : Nat) :
    Outcome (World α) :=
  match w.invoke this (DbList.clear fuel) with
  | .error e => .error e
  | .ok w1 => .ok (w1.set_obj this none)

/-- Copy assignment `operator=(const DbList& other)` on slot `this`. -/
def World.copy_assign {α : Type} (A : Allocator α) (fuel : Nat) (w : World α)
    (this other : Nat) : Outcome (World α) :=
  if this ≠ other then
    match w.invoke this (DbList.clear fuel) with
    | .error e => .error e
    | .ok w1 =>
      match w1.objs other with
      | none => .error (.no_object, w1)
      | some o => copy_from A fuel w1 this o.begin o.end
  else .ok w

/-- Move assignment `operator=(DbList&& other)` on slot `this`. -/
def World.move_assign {α : Type} (fuel : Nat) (w : World α) (this other : Nat) :
    Outcome (World α) :=
  if this ≠ other then
    match w.invoke this (DbList.clear fuel) with
    | .error e => .error e
    | .ok w1 =>
      match w1.objs other with
      | none => .error (.no_object, w1)
      | some o =>
        .ok ((w1.set_obj this (some ⟨o.head_, o.tail_, o.size_⟩)).set_obj other
          (some ⟨0, 0, 0⟩))
  else .ok w

/-- Forward traversal of the list in slot `this`. -/
def World.to_list {α : Type} (fuel : Nat) (w : World α) (this : Nat) : Except Fault (List α) :=
  w.query this (DbList.to_list fuel)

/-- Reverse traversal of the list in slot `this`. -/
def World.to_rlist {α : Type} (fuel : Nat) (w : World α) (this : Nat) :
    Except Fault (List α) :=
  w.query this (DbList.to_rlist fuel)

/-- The node addresses on the chain of the list in slot `this`. -/
def World.nodes {α : Type} (fuel : Nat) (w : World α) (this : Nat) : Except Fault (List Nat) :=
  w.query this (fun h l => chain h fuel l.head_)

/-- One member-function call or object lifetime event that returns normally. -/
inductive Step {α : Type} (A : Allocator α) : World α → World α → Prop where
  | construct {w : World α} (this : Nat) :
      w.objs this = none → Step A w (w.construct this)
  | copy_ctor {w w1 : World α} (fuel this other : Nat) :
      w.objs this = none → w.copy_ctor A fuel this other = .ok w1 → Step A w w1
  | move_ctor {w w1 : World α} (this other : Nat) :
      w.objs this = none → w.move_ctor this other = .ok w1 → Step A w w1
  | destroy {w w1 : World α} (fuel this : Nat) :
      w.destroy fuel this = .ok w1 → Step A w w1
  | copy_assign {w w1 : World α} (fuel this other : Nat) :
      w.copy_assign A fuel this other = .ok w1 → Step A w w1
  | move_assign {w w1 : World α} (fuel this other : Nat) :
      w.move_assign fuel this other = .ok w1 → Step A w w1
  | push_back {w w1 : World α} (this : Nat) (v : α) :
      w.invoke this (DbList.push_back A v) = .ok w1 → Step A w w1
  | push_front {w w1 : World α} (this : Nat) (v : α) :
      w.invoke this (DbList.push_front A v) = .ok w1 → Step A w w1
  | pop_back {w w1 : World α} (this : Nat) :
      w.invoke this DbList.pop_back = .ok w1 → Step A w w1
  | pop_front {w w1 : World α} (this : Nat) :
      w.invoke this DbList.pop_front = .ok w1 → Step A w w1
  | clear {w w1 : World α} (fuel this : Nat) :
      w.invoke this (DbList.clear fuel) = .ok w1 → Step A w w1

/-- The states a program can reach from the initial state. -/
inductive Reachable {α : Type} (A : Allocator α) : World α → Prop where
  | init : Reachable A World.init
  | step (w w1 : World α) : Reachable A w → Step A w w1 → Reachable A w1

/-- Scan `n` addresses upward from `a` for one that is not allocated. -/
def first_free {α : Type} (h : Heap α) : Nat → Nat → Option Nat
  | _, 0 => none
  | a, n + 1 => if (h a).isNone then some a else first_free h (a + 1) n

/-- A first-fit allocator over the addresses `1 .. cap`. -/
def arena (α : Type) (cap : Nat) (hcap : cap < SIZE_MOD) : Allocator α where
  allocate := fun h => first_free h 1 cap
  fresh := by
    have key : ∀ (h : Heap α) (n a p : Nat), first_free h a n = some p →
        a ≤ p ∧ p < a + n ∧ h p = none := by
      intro h n
      induction n with
      | zero => intro a p hp; simp [first_free] at hp
      | succ n ih =>
        intro a p hp
        unfold first_free at hp
        by_cases hc : (h a).isNone = true
        · rw [if_pos hc] at hp
          cases hp
          exact ⟨le_refl _, by omega, by simpa using hc⟩
        · rw [if_neg hc] at hp
          have := ih (a + 1) p hp
          exact ⟨by omega, by omega, this.2.2⟩
    intro h p hp
    have := key h cap 1 p (by simpa using hp)
    exact ⟨by omega, by omega, this.2.2⟩

/-- A first-fit allocator over the sixteen addresses `1 .. 16`. -/
def arena16 (α : Type) : Allocator α := arena α 16 (by decide)

/-- Address of the first cell of a chain description, `d` when there is none. -/
def firstOr {α : Type} (d : Nat) : List (Nat × α) → Nat
  | [] => d
  | c :: _ => c.1

/-- Address of the last cell of a chain description, `d` when there is none. -/
def lastOr {α : Type} : Nat → List (Nat × α) → Nat
  | d, [] => d
  | _, c :: cs => lastOr c.1 cs

/-- The heap holds the doubly linked segment `cs` (addresses with their elements): the
first cell points back to `prv`, the last one forward to `nxt`, neighbours to each other. -/
def Seg {α : Type} (h : Heap α) : Nat → List (Nat × α) → Nat → Prop
  | _, [], _ => True
  | prv, c :: cs, nxt => h c.1 = some ⟨c.2, prv, firstOr nxt cs⟩ ∧ Seg h c.1 cs nxt

/-- The list object `l` is the well-formed list whose chain is `cs`. -/
structure Owns {α : Type} (h : Heap α) (l : DbList) (cs : List (Nat × α)) : Prop where
  seg : Seg h 0 cs 0
  head : l.head_ = firstOr 0 cs
  tail : l.tail_ = lastOr 0 cs
  size : l.size_ = cs.length
  nodup : (cs.map Prod.fst).Nodup
  range : ∀ c ∈ cs, 0 < c.1 ∧ c.1 < SIZE_MOD

/-- The state is well formed, with `R i` the chain of the list in slot `i`: every list owns
its chain, chains of different lists share no node, and every allocated node is on a
chain. -/
structure WInv {α : Type} (w : World α) (R : Nat → List (Nat × α)) : Prop where
  owns : ∀ i l, w.objs i = some l → Owns w.heap l (R i)
  unused : ∀ i, w.objs i = none → R i = []
  disj : ∀ i j, i ≠ j → ∀ p, p ∈ (R i).map Prod.fst → p ∉ (R j).map Prod.fst
  live : ∀ p n, w.heap p = some n → ∃ i, p ∈ (R i).map Prod.fst

/-- What a member function does to a well-formed list with chain `cs`: it returns
normally, the list then has chain `cs1`, cells outside both chains are untouched, new
cells were unallocated before, and cells dropped from the chain are freed. -/
def Effect {α : Type} (h : Heap α) (cs : List (Nat × α))
    (r : Outcome (Heap α × DbList)) (cs1 : List (Nat × α)) : Prop :=
  ∃ h1 l1, r = .ok (h1, l1) ∧ Owns h1 l1 cs1 ∧
    (∀ q, q ∉ cs.map Prod.fst → q ∉ cs1.map Prod.fst → h1 q = h q) ∧
    (∀ q ∈ cs1.map Prod.fst, q ∈ cs.map Prod.fst ∨ h q = none) ∧
    (∀ q ∈ cs.map Prod.fst, q ∉ cs1.map Prod.fst → h1 q = none)

/-- The four operations at the ends of a list. -/
inductive Op (α : Type) where
  | push_back (v : α)
  | push_front (v : α)
  | pop_back
  | pop_front

/-- Whether the operation is a push. -/
def Op.is_push {α : Type} : Op α → Bool
  | .push_back _ => true
  | .push_front _ => true
  | .pop_back => false
  | .pop_front => false

/-- Run one end operation on the list in slot `this`. -/
def World.apply {α : Type} (A : Allocator α) (w : World α) (this : Nat) :
    Op α → Outcome (World α)
  | .push_back v => w.invoke this (DbList.push_back A v)
  | .push_front v => w.invoke this (DbList.push_front A v)
  | .pop_back => w.invoke this DbList.pop_back
  | .pop_front => w.invoke this DbList.pop_front

/-- Counters kept beside a run: the pushes, and the pops that found the list non-empty. -/
structure Tally where
  pushes : Nat
  pops : Nat
deriving DecidableEq, Repr

/-- Count one operation; `was_empty` is the value of `empty()` just before it. -/
def Tally.count {α : Type} (t : Tally) (was_empty : Bool) : Op α → Tally
  | .push_back _ => ⟨t.pushes + 1, t.pops⟩
  | .push_front _ => ⟨t.pushes + 1, t.pops⟩
  | .pop_back => if was_empty then t else ⟨t.pushes, t.pops + 1⟩
  | .pop_front => if was_empty then t else ⟨t.pushes, t.pops + 1⟩

/-- Run a sequence of end operations on the list in slot `this`, counting as it goes. -/
def run_ops {α : Type} (A : Allocator α) (this : Nat) :
    List (Op α) → World α → Tally → Except (Fault × World α) (World α × Tally)
  | [], w, t => .ok (w, t)
  | op :: ops, w, t =>
    match w.query this (fun _ l => .ok l.empty) with
    | .error e => .error (e, w)
    | .ok was_empty =>
      match w.apply A this op with
      | .error e => .error e
      | .ok w1 => run_ops A this ops w1 (t.count was_empty op)

/-- A mutating call: an end operation or `clear()` (with the loop budget of the model). -/
inductive Mutation (α : Type) where
  | op (o : Op α)
  | clear (fuel : Nat)

/-- Run one mutating call on the list in slot `this`. -/
def World.mutate {α : Type} (A : Allocator α) (w : World α) (this : Nat) :
    Mutation α → Outcome (World α)
  | .op o => w.apply A this o
  | .clear fuel => w.invoke this (DbList.clear fuel)

/-- Run a sequence of mutating calls on the list in slot `this`. -/
def World.mutate_all {α : Type} (A : Allocator α) (this : Nat) :
    List (Mutation α) → World α → Outcome (World α)
  | [], w => .ok w
  | m :: ms, w =>
    match w.mutate A this m with
    | .error e => .error e
    | .ok w1 => World.mutate_all A this ms w1

/-- The state a call returned, or the initial state if it did not return normally. -/
def World.after {α : Type} (r : Outcome (World α)) : World α :=
  match r with
  | .ok w => w
  | .error _ => World.init

/-- Scenario of the specification, step 0: one default-constructed list, in slot 0. -/
def scenario0 : World Nat := World.init.construct 0

/-- Scenario, step 1: after `push_back(1)`. -/
def scenario1 : World Nat :=
  World.after (scenario0.invoke 0 (DbList.push_back (arena16 Nat) 1))

/-- Scenario, step 2: after `push_back(2)`. -/
def scenario2 : World Nat :=
  World.after (scenario1.invoke 0 (DbList.push_back (arena16 Nat) 2))

/-- Scenario, step 3: after `push_front(0)`; the list is `[0, 1, 2]`. -/
def scenario3 : World Nat :=
  World.after (scenario2.invoke 0 (DbList.push_front (arena16 Nat) 0))

/-- Scenario with a second list: slot 1 default-constructed, then `push_back(7)`. -/
def scenario4 : World Nat :=
  World.after ((scenario3.construct 1).invoke 1 (DbList.push_back (arena16 Nat) 7))

/-- Scenario: slot 1 copy-assigned from slot 0. -/
def scenario5 : World Nat :=
  World.after (scenario4.copy_assign (arena16 Nat) 5 1 0)

/-- The pointer reached from `p` by following `next` exactly `k` times. -/
def walk_next {α : Type} (h : Heap α) : Nat → Nat → Except Fault Nat
  | 0, p => .ok p
  | k + 1, p =>
    match h.read p with
    | .error e => .error e
    | .ok n => walk_next h k n.next

/-- The pointer reached from `p` by following `prev` exactly `k` times. -/
def walk_prev {α : Type} (h : Heap α) : Nat → Nat → Except Fault Nat
  | 0, p => .ok p
  | k + 1, p =>
    match h.read p with
    | .error e => .error e
    | .ok n => walk_prev h k n.prev

/-- The node addresses met by following `prev` from `last` until `nullptr`. -/
def rchain {α : Type} (h : Heap α) : Nat → Nat → Except Fault (List Nat)
  | 0, _ => .error .out_of_fuel
  | fuel + 1, p =>
    if p ≠ 0 then
      match h.read p with
      | .error e => .error e
      | .ok n =>
        match rchain h fuel n.prev with
        | .error e => .error e
        | .ok ps => .ok (p :: ps)
    else .ok []

/-- The node addresses met from the tail of the list in slot `this` by following `prev`. -/
def World.rnodes {α : Type} (fuel : Nat) (w : World α) (this : Nat) :
    Except Fault (List Nat) :=
  w.query this (fun h l => rchain h fuel l.tail_)

/-- A first-fit allocator over the four addresses `1 .. 4`. -/
def arena4 (α : Type) : Allocator α := arena α 4 (by decide)

/-- Scenario with a nearly exhausted allocator, step 0: two default-constructed lists. -/
def tight0 : World Nat := (World.init.construct 0).construct 1

/-- Tight scenario, step 1: slot 0 after `push_back(0)`. -/
def tight1 : World Nat := World.after (tight0.invoke 0 (DbList.push_back (arena4 Nat) 0))

/-- Tight scenario, step 2: slot 0 after `push_back(1)`. -/
def tight2 : World Nat := World.after (tight1.invoke 0 (DbList.push_back (arena4 Nat) 1))

/-- Tight scenario, step 3: slot 0 after `push_back(2)`; it holds `[0, 1, 2]`. -/
def tight3 : World Nat := World.after (tight2.invoke 0 (DbList.push_back (arena4 Nat) 2))

/-- Tight scenario, step 4: slot 1 after `push_back(7)`; all four nodes are in use. -/
def tight4 : World Nat := World.after (tight3.invoke 1 (DbList.push_back (arena4 Nat) 7))

/-- Scenario: slot 1 move-assigned from slot 0, which is left moved-from. -/
def scenario6 : World Nat := World.after (scenario4.move_assign 2 1 0)

/-- The cursor after `k` applications of `operator++`. -/
def Iterator.advance {α : Type} (h : Heap α) : Nat → Iterator → Except Fault Iterator
  | 0, it => .ok it
  | k + 1, it =>
    match it.inc h with
    | .error e => .error e
    | .ok it1 => Iterator.advance h k it1

/-- The state of a client program: the lists with their nodes, and the client's cursor
variables, one per slot. -/
structure Machine (α : Type) where
  world : World α
  cursors : Nat → Option Iterator

/-- Assignment to the cursor variable `c`. -/
def Machine.set_cursor {α : Type} (m : Machine α) (c : Nat) (it : Iterator) : Machine α :=
  ⟨m.world, fun d => if d = c then some it else m.cursors d⟩

/-- The statement `c = l.begin();` for the list `l` in slot `this`. -/
def Machine.begin {α : Type} (m : Machine α) (c this : Nat) : Outcome (Machine α) :=
  match m.world.objs this with
  | none => .error (.no_object, m)
  | some l => .ok (m.set_cursor c l.begin)

/-- The statement `c = l.end();` for the list `l` in slot `this`. -/
def Machine.end {α : Type} (m : Machine α) (c this : Nat) : Outcome (Machine α) :=
  match m.world.objs this with
  | none => .error (.no_object, m)
  | some l => .ok (m.set_cursor c l.end)

/-- The statement `++c;`: `operator++` writes the field `current_` of the cursor `c`. -/
def Machine.inc {α : Type} (m : Machine α) (c : Nat) : Outcome (Machine α) :=
  match m.cursors c with
  | none => .error (.no_object, m)
  | some it =>
    match it.inc m.world.heap with
    | .error e => .error (e, m)
    | .ok it1 => .ok (m.set_cursor c it1)

/-- The expression `*c`. -/
def Machine.deref {α : Type} (m : Machine α) (c : Nat) : Except Fault α :=
  match m.cursors c with
  | none => .error .no_object
  | some it => it.deref m.world.heap

/-- The expression `c == d`. -/
def Machine.eq {α : Type} (m : Machine α) (c d : Nat) : Except Fault Bool :=
  match m.cursors c, m.cursors d with
  | some a, some b => .ok (a.eq b)
  | _, _ => .error .no_object

/-- The expression `c != d`. -/
def Machine.ne {α : Type} (m : Machine α) (c d : Nat) : Except Fault Bool :=
  match m.cursors c, m.cursors d with
  | some a, some b => .ok (a.ne b)
  | _, _ => .error .no_object

/-- The loop `for (; c != e; ++c) yield *c;` over cursor variables `c` and `e`. -/
def Machine.traverse {α : Type} :
    Nat → Machine α → Nat → Nat → Except (Fault × Machine α) (List α × Machine α)
  | 0, m, _, _ => .error (.out_of_fuel, m)
  | fuel + 1, m, c, e =>
    match m.ne c e with
    | .error x => .error (x, m)
    | .ok false => .ok ([], m)
    | .ok true =>
      match m.deref c with
      | .error x => .error (x, m)
      | .ok v =>
        match m.inc c with
        | .error x => .error x
        | .ok m1 =>
          match Machine.traverse fuel m1 c e with
          | .error x => .error x
          | .ok (vs, m2) => .ok (v :: vs, m2)

/-- The client program
`b1 = l.begin(); for (c = l.begin(), e = l.end(); c != e; ++c) yield *c; b2 = l.begin();`
on the list `l` in slot `this`. -/
def Machine.restart {α : Type} (fuel : Nat) (m : Machine α) (this b1 c e b2 : Nat) :
    Except (Fault × Machine α) (List α × Machine α) :=
  match m.begin b1 this with
  | .error x => .error x
  | .ok m1 =>
    match m1.begin c this with
    | .error x => .error x
    | .ok m2 =>
      match Machine.end m2 e this with
      | .error x => .error x
      | .ok m3 =>
        match Machine.traverse fuel m3 c e with
        | .error x => .error x
        | .ok (s, m4) =>
          match m4.begin b2 this with
          | .error x => .error x
          | .ok m5 => .ok (s, m5)

/-! ## Lemmas about the heap representation -/

theorem firstOr_nil {α : Type} (d : Nat) : firstOr d ([] : List (Nat × α)) = d := rfl

theorem firstOr_cons {α : Type} (d : Nat) (c : Nat × α) (cs : List (Nat × α)) :
    firstOr d (c :: cs) = c.1 := rfl

theorem firstOr_append {α : Type} (d : Nat) (xs ys : List (Nat × α)) :
    firstOr d (xs ++ ys) = firstOr (firstOr d ys) xs := by
  cases xs <;> rfl

theorem lastOr_append {α : Type} (d : Nat) (xs ys : List (Nat × α)) :
    lastOr d (xs ++ ys) = lastOr (lastOr d xs) ys := by
  induction xs generalizing d with
  | nil => rfl
  | cons c xs ih => exact ih c.1

theorem Seg_append {α : Type} (h : Heap α) (prv nxt : Nat) (xs ys : List (Nat × α)) :
    Seg h prv (xs ++ ys) nxt ↔
      Seg h prv xs (firstOr nxt ys) ∧ Seg h (lastOr prv xs) ys nxt := by
  induction xs generalizing prv with
  | nil => simp [Seg, lastOr]
  | cons c xs ih =>
    show (h c.1 = some ⟨c.2, prv, firstOr nxt (xs ++ ys)⟩ ∧ Seg h c.1 (xs ++ ys) nxt) ↔
      (h c.1 = some ⟨c.2, prv, firstOr (firstOr nxt ys) xs⟩ ∧ Seg h c.1 xs (firstOr nxt ys)) ∧
        Seg h (lastOr c.1 xs) ys nxt
    rw [ih, firstOr_append, and_assoc]

theorem Seg_frame {α : Type} (h h1 : Heap α) (prv nxt : Nat) (cs : List (Nat × α))
    (hf : ∀ c ∈ cs, h1 c.1 = h c.1) (hs : Seg h prv cs nxt) : Seg h1 prv cs nxt := by
  induction cs generalizing prv with
  | nil => trivial
  | cons c cs ih =>
    refine ⟨?_, ih c.1 (fun d hd => hf d (List.mem_cons_of_mem _ hd)) hs.2⟩
    rw [hf c (List.mem_cons_self _ _)]
    exact hs.1

theorem Seg_live {α : Type} (h : Heap α) (prv nxt : Nat) (cs : List (Nat × α))
    (hs : Seg h prv cs nxt) (q : Nat) (hq : q ∈ cs.map Prod.fst) : ∃ n, h q = some n := by
  induction cs generalizing prv with
  | nil => simp at hq
  | cons c cs ih =>
    rcases List.mem_cons.1 hq with rfl | hq
    · exact ⟨_, hs.1⟩
    · exact ih c.1 hs.2 hq

theorem length_lt_SIZE_MOD (ps : List Nat) (hn : ps.Nodup)
    (hr : ∀ p ∈ ps, 0 < p ∧ p < SIZE_MOD) : ps.length < SIZE_MOD := by
  have hsub : ps.toFinset ⊆ Finset.Ico 1 SIZE_MOD := by
    intro p hp
    have := hr p (List.mem_toFinset.1 hp)
    exact Finset.mem_Ico.2 ⟨this.1, this.2⟩
  have hc := Finset.card_le_card hsub
  rw [List.toFinset_card_of_nodup hn, Nat.card_Ico] at hc
  have : 0 < SIZE_MOD := by decide
  omega

theorem Heap.read_some {α : Type} (h : Heap α) (p : Nat) (n : Node α) (hp : p ≠ 0)
    (hn : h p = some n) : h.read p = .ok n := by
  simp [Heap.read, hp, hn]

theorem snoc_cases {α : Type} (cs : List α) : cs = [] ∨ ∃ xs c, cs = xs ++ [c] := by
  rcases List.eq_nil_or_concat cs with h | ⟨xs, c, h⟩
  · exact Or.inl h
  · exact Or.inr ⟨xs, c, by rw [h, List.concat_eq_append]⟩

theorem fresh_not_mem {α : Type} (h : Heap α) (prv nxt : Nat) (cs : List (Nat × α))
    (hs : Seg h prv cs nxt) (p : Nat) (hp : h p = none) : p ∉ cs.map Prod.fst := by
  intro hm
  obtain ⟨n, hn⟩ := Seg_live h prv nxt cs hs p hm
  rw [hp] at hn
  cases hn

theorem size_inc {α : Type} (l : DbList) (cs cs1 : List (Nat × α))
    (hsz : l.size_ = cs.length) (hlen : cs1.length = cs.length + 1)
    (hn : (cs1.map Prod.fst).Nodup) (hr : ∀ c ∈ cs1, 0 < c.1 ∧ c.1 < SIZE_MOD) :
    (l.size_ + 1) % SIZE_MOD = cs1.length := by
  have hl := length_lt_SIZE_MOD _ hn (by
    intro p hp
    obtain ⟨c, hc, rfl⟩ := List.mem_map.1 hp
    exact hr c hc)
  rw [List.length_map] at hl
  rw [hsz, Nat.mod_eq_of_lt (by omega), hlen]

theorem push_back_effect {α : Type} (A : Allocator α) (v : α) (h : Heap α) (l : DbList)
    (cs : List (Nat × α)) (p : Nat) (ho : Owns h l cs) (hp : A.allocate h = some p) :
    Effect h cs (DbList.push_back A v h l) (cs ++ [(p, v)]) := by
  obtain ⟨hp0, hpM, hph⟩ := A.fresh h p hp
  have hpn : p ∉ cs.map Prod.fst := fresh_not_mem h 0 0 cs ho.seg p hph
  have hnodup : ((cs ++ [(p, v)]).map Prod.fst).Nodup := by
    rw [List.map_append, List.nodup_append]
    refine ⟨ho.nodup, by simp, ?_⟩
    intro q hq hq1
    simp at hq1
    subst hq1
    exact hpn hq
  have hrange : ∀ c ∈ cs ++ [(p, v)], 0 < c.1 ∧ c.1 < SIZE_MOD := by
    intro c hc
    rcases List.mem_append.1 hc with hc | hc
    · exact ho.range c hc
    · simp at hc
      subst hc
      exact ⟨hp0, hpM⟩
  have hsize := size_inc l cs (cs ++ [(p, v)]) ho.size (by simp) hnodup hrange
  have hnew : ∀ q ∈ (cs ++ [(p, v)]).map Prod.fst, q ∈ cs.map Prod.fst ∨ h q = none := by
    intro q hq
    rw [List.map_append, List.mem_append] at hq
    rcases hq with hq | hq
    · exact Or.inl hq
    · simp at hq
      subst hq
      exact Or.inr hph
  rcases snoc_cases cs with rfl | ⟨xs, ⟨t, tv⟩, rfl⟩
  · have ht : l.tail_ = 0 := ho.tail
    refine ⟨h.write p ⟨v, 0, 0⟩, ⟨p, p, (l.size_ + 1) % SIZE_MOD⟩, ?_, ?_, ?_, hnew, ?_⟩
    · simp [DbList.push_back, hp, ht]
    · exact ⟨by simp [Seg, Heap.write, firstOr], rfl, rfl, hsize, hnodup, hrange⟩
    · intro q _ hq
      have : q ≠ p := by simpa using hq
      simp [Heap.write, this]
    · intro q hq
      simp at hq
  · have hseg := (Seg_append h 0 0 xs [(t, tv)]).1 ho.seg
    have hht : h t = some ⟨tv, lastOr 0 xs, 0⟩ := hseg.2.1
    have ht : l.tail_ = t := by rw [ho.tail, lastOr_append]; rfl
    have ht0 : t ≠ 0 := by
      have := (ho.range (t, tv) (by simp)).1
      exact Nat.pos_iff_ne_zero.1 this
    have htp : t ≠ p := by
      rintro rfl
      rw [hph] at hht
      cases hht
    have hpt : p ≠ t := fun e => htp e.symm
    have hp0' : p ≠ 0 := Nat.pos_iff_ne_zero.1 hp0
    have htx : t ∉ xs.map Prod.fst := by
      have := ho.nodup
      rw [List.map_append, List.nodup_append] at this
      intro hm
      exact this.2.2 hm (by simp)
    have hpx : p ∉ xs.map Prod.fst := by
      intro hm
      exact hpn (by rw [List.map_append]; exact List.mem_append_left _ hm)
    refine ⟨((h.write p ⟨v, 0, 0⟩).write t ⟨tv, lastOr 0 xs, p⟩).write p ⟨v, t, 0⟩,
      ⟨l.head_, p, (l.size_ + 1) % SIZE_MOD⟩, ?_, ?_, ?_, hnew, ?_⟩
    · simp [DbList.push_back, hp, ht, ht0, Heap.set_next, Heap.set_prev, Heap.read,
        Heap.write, htp, hpt, hht, hp0']
    · refine ⟨?_, ?_, ?_, hsize, hnodup, hrange⟩
      · rw [List.append_assoc, Seg_append]
        refine ⟨Seg_frame h _ 0 _ xs ?_ hseg.1, ?_, ?_, trivial⟩
        · intro c hc
          have hc1 : c.1 ∈ xs.map Prod.fst := List.mem_map_of_mem _ hc
          have h1 : c.1 ≠ p := fun e => hpx (e ▸ hc1)
          have h2 : c.1 ≠ t := fun e => htx (e ▸ hc1)
          simp [Heap.write, h1, h2]
        · simp [Heap.write, htp, firstOr]
        · simp [Heap.write, firstOr]
      · show l.head_ = _
        rw [ho.head, firstOr_append, firstOr_append]
        cases xs <;> rfl
      · show p = _
        rw [lastOr_append]
        rfl
    · intro q hq1 hq2
      have h1 : q ≠ p := by
        intro e
        apply hq2
        simp [e]
      have h2 : q ≠ t := by
        intro e
        apply hq1
        simp [e]
      simp [Heap.write, h1, h2]
    · intro q hq hq1
      exact absurd (by rw [List.map_append]; exact List.mem_append_left _ hq) hq1

theorem size_dec {α : Type} (l : DbList) (cs : List (Nat × α)) (n : Nat)
    (hsz : l.size_ = cs.length) (hlen : cs.length = n + 1)
    (hn : (cs.map Prod.fst).Nodup) (hr : ∀ c ∈ cs, 0 < c.1 ∧ c.1 < SIZE_MOD) :
    (l.size_ + SIZE_MOD - 1) % SIZE_MOD = n := by
  have hl := length_lt_SIZE_MOD _ hn (by
    intro p hp
    obtain ⟨c, hc, rfl⟩ := List.mem_map.1 hp
    exact hr c hc)
  rw [List.length_map] at hl
  rw [hsz, hlen]
  have e : n + 1 + SIZE_MOD - 1 = n + SIZE_MOD := by omega
  rw [e, Nat.add_mod_right, Nat.mod_eq_of_lt (by omega)]

theorem push_front_effect {α : Type} (A : Allocator α) (v : α) (h : Heap α) (l : DbList)
    (cs : List (Nat × α)) (p : Nat) (ho : Owns h l cs) (hp : A.allocate h = some p) :
    Effect h cs (DbList.push_front A v h l) ((p, v) :: cs) := by
  obtain ⟨hp0, hpM, hph⟩ := A.fresh h p hp
  have hpn : p ∉ cs.map Prod.fst := fresh_not_mem h 0 0 cs ho.seg p hph
  have hnodup : (((p, v) :: cs).map Prod.fst).Nodup := by
    rw [List.map_cons, List.nodup_cons]
    exact ⟨hpn, ho.nodup⟩
  have hrange : ∀ c ∈ (p, v) :: cs, 0 < c.1 ∧ c.1 < SIZE_MOD := by
    intro c hc
    rcases List.mem_cons.1 hc with rfl | hc
    · exact ⟨hp0, hpM⟩
    · exact ho.range c hc
  have hsize := size_inc l cs ((p, v) :: cs) ho.size (by simp) hnodup hrange
  have hnew : ∀ q ∈ ((p, v) :: cs).map Prod.fst, q ∈ cs.map Prod.fst ∨ h q = none := by
    intro q hq
    rw [List.map_cons, List.mem_cons] at hq
    rcases hq with rfl | hq
    · exact Or.inr hph
    · exact Or.inl hq
  have hp0' : p ≠ 0 := Nat.pos_iff_ne_zero.1 hp0
  cases cs with
  | nil =>
    have ht : l.head_ = 0 := ho.head
    refine ⟨h.write p ⟨v, 0, 0⟩, ⟨p, p, (l.size_ + 1) % SIZE_MOD⟩, ?_, ?_, ?_, hnew, ?_⟩
    · simp [DbList.push_front, hp, ht]
    · exact ⟨by simp [Seg, Heap.write, firstOr], rfl, rfl, hsize, hnodup, hrange⟩
    · intro q _ hq
      have : q ≠ p := by simpa using hq
      simp [Heap.write, this]
    · intro q hq
      simp at hq
  | cons c xs =>
    obtain ⟨t, tv⟩ := c
    have hht : h t = some ⟨tv, 0, firstOr 0 xs⟩ := ho.seg.1
    have hsx : Seg h t xs 0 := ho.seg.2
    have ht : l.head_ = t := ho.head
    have ht0 : t ≠ 0 := Nat.pos_iff_ne_zero.1 (ho.range (t, tv) (by simp)).1
    have htp : t ≠ p := by
      rintro rfl
      rw [hph] at hht
      cases hht
    have hpt : p ≠ t := fun e => htp e.symm
    have htx : t ∉ xs.map Prod.fst := (List.nodup_cons.1 ho.nodup).1
    have hpx : p ∉ xs.map Prod.fst := fun hm => hpn (List.mem_cons_of_mem _ hm)
    refine ⟨((h.write p ⟨v, 0, 0⟩).write t ⟨tv, p, firstOr 0 xs⟩).write p ⟨v, 0, t⟩,
      ⟨p, l.tail_, (l.size_ + 1) % SIZE_MOD⟩, ?_, ?_, ?_, hnew, ?_⟩
    · simp [DbList.push_front, hp, ht, ht0, Heap.set_next, Heap.set_prev, Heap.read,
        Heap.write, htp, hpt, hht, hp0']
    · refine ⟨⟨?_, ?_, ?_⟩, rfl, ?_, hsize, hnodup, hrange⟩
      · simp [Heap.write, firstOr]
      · simp [Heap.write, htp]
      · refine Seg_frame h _ t 0 xs ?_ hsx
        intro c hc
        have hc1 : c.1 ∈ xs.map Prod.fst := List.mem_map_of_mem _ hc
        have h1 : c.1 ≠ p := fun e => hpx (e ▸ hc1)
        have h2 : c.1 ≠ t := fun e => htx (e ▸ hc1)
        simp [Heap.write, h1, h2]
      · show l.tail_ = _
        rw [ho.tail]
        rfl
    · intro q hq1 hq2
      have h1 : q ≠ p := by
        intro e
        apply hq2
        simp [e]
      have h2 : q ≠ t := by
        intro e
        apply hq1
        simp [e]
      simp [Heap.write, h1, h2]
    · intro q hq hq1
      exact absurd (List.mem_cons_of_mem _ hq) hq1

theorem pop_back_effect {α : Type} (h : Heap α) (l : DbList) (cs : List (Nat × α))
    (ho : Owns h l cs) : Effect h cs (DbList.pop_back h l) cs.dropLast := by
  rcases snoc_cases cs with rfl | ⟨xs, ⟨t, tv⟩, rfl⟩
  · have ht : l.tail_ = 0 := ho.tail
    refine ⟨h, l, by simp [DbList.pop_back, ht], ho, fun _ _ _ => rfl, ?_, ?_⟩
    · intro q hq
      simp at hq
    · intro q hq
      simp at hq
  · rw [List.dropLast_concat]
    have hseg := (Seg_append h 0 0 xs [(t, tv)]).1 ho.seg
    have hht : h t = some ⟨tv, lastOr 0 xs, 0⟩ := hseg.2.1
    have ht : l.tail_ = t := by rw [ho.tail, lastOr_append]; rfl
    have ht0 : t ≠ 0 := Nat.pos_iff_ne_zero.1 (ho.range (t, tv) (by simp)).1
    have hnd := ho.nodup
    rw [List.map_append, List.nodup_append] at hnd
    have htx : t ∉ xs.map Prod.fst := fun hm => hnd.2.2 hm (by simp)
    have hrx : ∀ c ∈ xs, 0 < c.1 ∧ c.1 < SIZE_MOD :=
      fun c hc => ho.range c (List.mem_append_left _ hc)
    have hsize := size_dec l (xs ++ [(t, tv)]) xs.length ho.size (by simp) ho.nodup ho.range
    have hnew : ∀ q ∈ xs.map Prod.fst, q ∈ (xs ++ [(t, tv)]).map Prod.fst ∨ h q = none := by
      intro q hq
      exact Or.inl (by rw [List.map_append]; exact List.mem_append_left _ hq)
    rcases snoc_cases xs with rfl | ⟨ys, ⟨u, uv⟩, rfl⟩
    · have hprev : lastOr 0 ([] : List (Nat × α)) = 0 := rfl
      rw [hprev] at hht
      refine ⟨h.erase t, ⟨0, 0, (l.size_ + SIZE_MOD - 1) % SIZE_MOD⟩, ?_, ?_, ?_, hnew, ?_⟩
      · simp [DbList.pop_back, ht, ht0, Heap.read, hht, Heap.free]
      · exact ⟨trivial, rfl, rfl, hsize, List.nodup_nil, fun c hc => by simp at hc⟩
      · intro q hq _
        have : q ≠ t := by simpa using hq
        simp [Heap.erase, this]
      · intro q hq _
        have : q = t := by simpa using hq
        simp [Heap.erase, this]
    · have hseg2 := (Seg_append h 0 t ys [(u, uv)]).1 hseg.1
      have hhu : h u = some ⟨uv, lastOr 0 ys, t⟩ := hseg2.2.1
      have hprev : lastOr 0 (ys ++ [(u, uv)]) = u := by rw [lastOr_append]; rfl
      rw [hprev] at hht
      have hu0 : u ≠ 0 := Nat.pos_iff_ne_zero.1 (hrx (u, uv) (by simp)).1
      have htu : t ≠ u := fun e => htx (by simp [e])
      have hut : u ≠ t := fun e => htu e.symm
      have hndx := hnd.1
      rw [List.map_append, List.nodup_append] at hndx
      have huy : u ∉ ys.map Prod.fst := fun hm => hndx.2.2 hm (by simp)
      have hty : t ∉ ys.map Prod.fst := fun hm => htx (by
        rw [List.map_append]; exact List.mem_append_left _ hm)
      refine ⟨(h.write u ⟨uv, lastOr 0 ys, 0⟩).erase t,
        ⟨l.head_, u, (l.size_ + SIZE_MOD - 1) % SIZE_MOD⟩, ?_, ?_, ?_, hnew, ?_⟩
      · simp [DbList.pop_back, ht, ht0, Heap.read, hht, Heap.free, hu0, Heap.set_next, hhu,
          Heap.write, htu]
      · refine ⟨?_, ?_, ?_, hsize, hnd.1, hrx⟩
        · rw [Seg_append]
          refine ⟨Seg_frame h _ 0 _ ys ?_ hseg2.1, ?_, trivial⟩
          · intro c hc
            have hc1 : c.1 ∈ ys.map Prod.fst := List.mem_map_of_mem _ hc
            have h1 : c.1 ≠ u := fun e => huy (e ▸ hc1)
            have h2 : c.1 ≠ t := fun e => hty (e ▸ hc1)
            simp [Heap.write, Heap.erase, h1, h2]
          · simp [Heap.write, Heap.erase, hut, firstOr]
        · show l.head_ = _
          rw [ho.head, firstOr_append]
          cases ys <;> rfl
        · show u = _
          rw [lastOr_append]
          rfl
      · intro q _ hq
        have h1 : q ≠ u := by
          intro e
          apply hq
          simp [e]
        by_cases h2 : q = t
        · exact absurd (by simp [h2]) ‹q ∉ List.map Prod.fst (ys ++ [(u, uv)] ++ [(t, tv)])›
        · simp [Heap.write, Heap.erase, h1, h2]
      · intro q hq hq1
        have : q = t := by
          rw [List.map_append, List.mem_append] at hq
          rcases hq with hq | hq
          · exact absurd hq hq1
          · simpa using hq
        simp [Heap.erase, this]

theorem pop_front_effect {α : Type} (h : Heap α) (l : DbList) (cs : List (Nat × α))
    (ho : Owns h l cs) : Effect h cs (DbList.pop_front h l) cs.tail := by
  cases cs with
  | nil =>
    have ht : l.head_ = 0 := ho.head
    refine ⟨h, l, by simp [DbList.pop_front, ht], ho, fun _ _ _ => rfl, ?_, ?_⟩
    · intro q hq
      simp at hq
    · intro q hq
      simp at hq
  | cons c xs =>
    obtain ⟨t, tv⟩ := c
    rw [List.tail_cons]
    have hht : h t = some ⟨tv, 0, firstOr 0 xs⟩ := ho.seg.1
    have hsx : Seg h t xs 0 := ho.seg.2
    have ht : l.head_ = t := ho.head
    have ht0 : t ≠ 0 := Nat.pos_iff_ne_zero.1 (ho.range (t, tv) (by simp)).1
    have hnd := List.nodup_cons.1 ho.nodup
    have htx : t ∉ xs.map Prod.fst := hnd.1
    have hrx : ∀ c ∈ xs, 0 < c.1 ∧ c.1 < SIZE_MOD :=
      fun c hc => ho.range c (List.mem_cons_of_mem _ hc)
    have hsize := size_dec l ((t, tv) :: xs) xs.length ho.size (by simp) ho.nodup ho.range
    have hnew : ∀ q ∈ xs.map Prod.fst, q ∈ ((t, tv) :: xs).map Prod.fst ∨ h q = none :=
      fun q hq => Or.inl (List.mem_cons_of_mem _ hq)
    cases xs with
    | nil =>
      have hnext : firstOr 0 ([] : List (Nat × α)) = 0 := rfl
      rw [hnext] at hht
      refine ⟨h.erase t, ⟨0, 0, (l.size_ + SIZE_MOD - 1) % SIZE_MOD⟩, ?_, ?_, ?_, hnew, ?_⟩
      · simp [DbList.pop_front, ht, ht0, Heap.read, hht, Heap.free]
      · exact ⟨trivial, rfl, rfl, hsize, List.nodup_nil, fun c hc => by simp at hc⟩
      · intro q hq _
        have : q ≠ t := by simpa using hq
        simp [Heap.erase, this]
      · intro q hq _
        have : q = t := by simpa using hq
        simp [Heap.erase, this]
    | cons d ys =>
      obtain ⟨u, uv⟩ := d
      have hhu : h u = some ⟨uv, t, firstOr 0 ys⟩ := hsx.1
      have hnext : firstOr 0 ((u, uv) :: ys) = u := rfl
      rw [hnext] at hht
      have hu0 : u ≠ 0 := Nat.pos_iff_ne_zero.1 (hrx (u, uv) (by simp)).1
      have htu : t ≠ u := fun e => htx (by simp [e])
      have hut : u ≠ t := fun e => htu e.symm
      have hndx := List.nodup_cons.1 hnd.2
      have huy : u ∉ ys.map Prod.fst := hndx.1
      have hty : t ∉ ys.map Prod.fst := fun hm => htx (List.mem_cons_of_mem _ hm)
      refine ⟨(h.write u ⟨uv, 0, firstOr 0 ys⟩).erase t,
        ⟨u, l.tail_, (l.size_ + SIZE_MOD - 1) % SIZE_MOD⟩, ?_, ?_, ?_, hnew, ?_⟩
      · simp [DbList.pop_front, ht, ht0, Heap.read, hht, Heap.free, hu0, Heap.set_prev, hhu,
          Heap.write, htu]
      · refine ⟨⟨?_, ?_⟩, rfl, ?_, hsize, hnd.2, hrx⟩
        · simp [Heap.write, Heap.erase, hut]
        · refine Seg_frame h _ u 0 ys ?_ hsx.2
          intro c hc
          have hc1 : c.1 ∈ ys.map Prod.fst := List.mem_map_of_mem _ hc
          have h1 : c.1 ≠ u := fun e => huy (e ▸ hc1)
          have h2 : c.1 ≠ t := fun e => hty (e ▸ hc1)
          simp [Heap.write, Heap.erase, h1, h2]
        · show l.tail_ = _
          rw [ho.tail]
          rfl
      · intro q hq1 hq
        have h1 : q ≠ u := by
          intro e
          apply hq
          simp [e]
        have h2 : q ≠ t := by
          intro e
          apply hq1
          simp [e]
        simp [Heap.write, Heap.erase, h1, h2]
      · intro q hq hq1
        have : q = t := by
          rcases List.mem_cons.1 hq with hq | hq
          · exact hq
          · exact absurd hq hq1
        simp [Heap.erase, this]

theorem clear_loop_spec {α : Type} (cs : List (Nat × α)) :
    ∀ (h : Heap α) (prv fuel : Nat), Seg h prv cs 0 → (cs.map Prod.fst).Nodup →
      (∀ c ∈ cs, c.1 ≠ 0) → cs.length < fuel →
      ∃ h1, clear_loop fuel h (firstOr 0 cs) = .ok (h1, 0) ∧
        (∀ q, q ∈ cs.map Prod.fst → h1 q = none) ∧
        (∀ q, q ∉ cs.map Prod.fst → h1 q = h q) := by
  induction cs with
  | nil =>
    intro h prv fuel _ _ _ hf
    obtain ⟨f, rfl⟩ : ∃ f, fuel = f + 1 := ⟨fuel - 1, by simp at hf; omega⟩
    exact ⟨h, by simp [clear_loop, firstOr], fun q hq => by simp at hq, fun _ _ => rfl⟩
  | cons c cs ih =>
    intro h prv fuel hs hn h0 hf
    obtain ⟨f, rfl⟩ : ∃ f, fuel = f + 1 := ⟨fuel - 1, by simp at hf; omega⟩
    have hc0 : c.1 ≠ 0 := h0 c (List.mem_cons_self _ _)
    have hnd := List.nodup_cons.1 hn
    have hs1 : Seg (h.erase c.1) c.1 cs 0 := by
      refine Seg_frame h _ c.1 0 cs ?_ hs.2
      intro d hd
      have : d.1 ≠ c.1 := fun e => hnd.1 (e ▸ List.mem_map_of_mem _ hd)
      simp [Heap.erase, this]
    obtain ⟨h1, e1, hin, hout⟩ := ih (h.erase c.1) c.1 f hs1 hnd.2
      (fun d hd => h0 d (List.mem_cons_of_mem _ hd)) (by simp at hf; omega)
    refine ⟨h1, ?_, ?_, ?_⟩
    · simp [clear_loop, firstOr_cons, hc0, Heap.read, hs.1, Heap.free, e1]
    · intro q hq
      rcases List.mem_cons.1 hq with hq | hq
      · by_cases hq1 : q ∈ cs.map Prod.fst
        · exact hin q hq1
        · rw [hout q hq1]
          simp [Heap.erase, hq]
      · exact hin q hq
    · intro q hq
      have h1' : q ≠ c.1 := fun e => hq (by simp [e])
      have h2 : q ∉ cs.map Prod.fst := fun hm => hq (List.mem_cons_of_mem _ hm)
      rw [hout q h2]
      simp [Heap.erase, h1']

theorem Owns.ne_zero {α : Type} {h : Heap α} {l : DbList} {cs : List (Nat × α)}
    (ho : Owns h l cs) : ∀ c ∈ cs, c.1 ≠ 0 :=
  fun c hc => Nat.pos_iff_ne_zero.1 (ho.range c hc).1

theorem clear_effect {α : Type} (fuel : Nat) (h : Heap α) (l : DbList)
    (cs : List (Nat × α)) (ho : Owns h l cs) (hf : cs.length < fuel) :
    Effect h cs (DbList.clear fuel h l) [] := by
  obtain ⟨h1, e1, hin, hout⟩ := clear_loop_spec cs h 0 fuel ho.seg ho.nodup ho.ne_zero hf
  refine ⟨h1, ⟨0, 0, 0⟩, ?_, ?_, ?_, ?_, ?_⟩
  · simp [DbList.clear, ho.head, e1]
  · exact ⟨trivial, rfl, rfl, rfl, List.nodup_nil, fun c hc => by simp at hc⟩
  · intro q hq _
    exact hout q hq
  · intro q hq
    simp at hq
  · intro q hq _
    exact hin q hq

theorem traverse_spec {α : Type} (cs : List (Nat × α)) :
    ∀ (h : Heap α) (prv fuel : Nat), Seg h prv cs 0 → (∀ c ∈ cs, c.1 ≠ 0) →
      cs.length < fuel →
      traverse h fuel ⟨firstOr 0 cs⟩ ⟨0⟩ = .ok (cs.map Prod.snd) := by
  induction cs with
  | nil =>
    intro h prv fuel _ _ hf
    obtain ⟨f, rfl⟩ : ∃ f, fuel = f + 1 := ⟨fuel - 1, by simp at hf; omega⟩
    simp [traverse, firstOr, Iterator.ne]
  | cons c cs ih =>
    intro h prv fuel hs h0 hf
    obtain ⟨f, rfl⟩ : ∃ f, fuel = f + 1 := ⟨fuel - 1, by simp at hf; omega⟩
    have hc0 : c.1 ≠ 0 := h0 c (List.mem_cons_self _ _)
    have e1 := ih h c.1 f hs.2 (fun d hd => h0 d (List.mem_cons_of_mem _ hd))
      (by simp at hf; omega)
    simp [traverse, firstOr_cons, Iterator.ne, hc0, Iterator.deref, Iterator.inc, Heap.read,
      hs.1, e1]

theorem chain_spec {α : Type} (cs : List (Nat × α)) :
    ∀ (h : Heap α) (prv fuel : Nat), Seg h prv cs 0 → (∀ c ∈ cs, c.1 ≠ 0) →
      cs.length < fuel →
      chain h fuel (firstOr 0 cs) = .ok (cs.map Prod.fst) := by
  induction cs with
  | nil =>
    intro h prv fuel _ _ hf
    obtain ⟨f, rfl⟩ : ∃ f, fuel = f + 1 := ⟨fuel - 1, by simp at hf; omega⟩
    simp [chain, firstOr]
  | cons c cs ih =>
    intro h prv fuel hs h0 hf
    obtain ⟨f, rfl⟩ : ∃ f, fuel = f + 1 := ⟨fuel - 1, by simp at hf; omega⟩
    have hc0 : c.1 ≠ 0 := h0 c (List.mem_cons_self _ _)
    have e1 := ih h c.1 f hs.2 (fun d hd => h0 d (List.mem_cons_of_mem _ hd))
      (by simp at hf; omega)
    simp [chain, firstOr_cons, hc0, Heap.read, hs.1, e1]

theorem to_list_spec {α : Type} (fuel : Nat) (h : Heap α) (l : DbList)
    (cs : List (Nat × α)) (ho : Owns h l cs) (hf : cs.length < fuel) :
    DbList.to_list fuel h l = .ok (cs.map Prod.snd) := by
  have := traverse_spec cs h 0 fuel ho.seg ho.ne_zero hf
  simpa [DbList.to_list, DbList.begin, DbList.end, ho.head] using this

theorem front_spec {α : Type} (h : Heap α) (l : DbList) (c : Nat × α)
    (cs : List (Nat × α)) (ho : Owns h l (c :: cs)) : DbList.front h l = .ok c.2 := by
  have hsz : l.size_ ≠ 0 := by rw [ho.size]; simp
  have hc0 := ho.ne_zero c (List.mem_cons_self _ _)
  have hh : l.head_ = c.1 := ho.head
  simp [DbList.front, DbList.empty, hsz, hh, Heap.read, hc0, ho.seg.1]

theorem back_spec {α : Type} (h : Heap α) (l : DbList) (c : Nat × α)
    (cs : List (Nat × α)) (ho : Owns h l (cs ++ [c])) : DbList.back h l = .ok c.2 := by
  have hsz : l.size_ ≠ 0 := by rw [ho.size]; simp
  have hc0 := ho.ne_zero c (by simp)
  have hh : l.tail_ = c.1 := by rw [ho.tail, lastOr_append]; rfl
  have hseg := (Seg_append h 0 0 cs [c]).1 ho.seg
  simp [DbList.back, DbList.empty, hsz, hh, Heap.read, hc0, hseg.2.1]

theorem empty_spec {α : Type} (h : Heap α) (l : DbList) (cs : List (Nat × α))
    (ho : Owns h l cs) : l.empty = true ↔ cs = [] := by
  simp [DbList.empty, ho.size]

theorem Owns_frame {α : Type} (h h1 : Heap α) (l : DbList) (cs : List (Nat × α))
    (hf : ∀ q ∈ cs.map Prod.fst, h1 q = h q) (ho : Owns h l cs) : Owns h1 l cs :=
  ⟨Seg_frame h h1 0 0 cs (fun c hc => hf c.1 (List.mem_map_of_mem _ hc)) ho.seg,
    ho.head, ho.tail, ho.size, ho.nodup, ho.range⟩

theorem WInv.mem_live {α : Type} {w : World α} {R : Nat → List (Nat × α)} (hw : WInv w R)
    (i p : Nat) (hp : p ∈ (R i).map Prod.fst) : ∃ n, w.heap p = some n := by
  cases ho : w.objs i with
  | none =>
    rw [hw.unused i ho] at hp
    simp at hp
  | some l => exact Seg_live w.heap 0 0 (R i) (hw.owns i l ho).seg p hp

theorem invoke_effect {α : Type} (w : World α) (R : Nat → List (Nat × α)) (i : Nat)
    (l : DbList) (m : Heap α → DbList → Outcome (Heap α × DbList))
    (cs1 : List (Nat × α)) (hw : WInv w R) (hl : w.objs i = some l)
    (he : Effect w.heap (R i) (m w.heap l) cs1) :
    ∃ w1 l1, w.invoke i m = .ok w1 ∧ m w.heap l = .ok (w1.heap, l1) ∧
      WInv w1 (Function.update R i cs1) ∧
      w1.objs i = some l1 ∧ (∀ j, j ≠ i → w1.objs j = w.objs j) ∧
      (∀ q, q ∉ (R i).map Prod.fst → q ∉ cs1.map Prod.fst → w1.heap q = w.heap q) := by
  obtain ⟨h1, l1, e, ho1, hout, hnew, hdrop⟩ := he
  have hother : ∀ j, j ≠ i → ∀ q ∈ (R j).map Prod.fst, h1 q = w.heap q := by
    intro j hj q hq
    apply hout q (hw.disj j i hj q hq)
    intro hq1
    rcases hnew q hq1 with hq2 | hq2
    · exact hw.disj j i hj q hq hq2
    · obtain ⟨n, hn⟩ := hw.mem_live j q hq
      rw [hq2] at hn
      cases hn
  refine ⟨⟨h1, fun j => if j = i then some l1 else w.objs j⟩, l1, ?_, e, ?_, ?_, ?_, hout⟩
  · simp [World.invoke, hl, e]
  · refine ⟨?_, ?_, ?_, ?_⟩
    · intro j lj hj
      by_cases hji : j = i
      · subst hji
        simp at hj
        subst hj
        simpa using ho1
      · simp [hji] at hj
        rw [Function.update_noteq hji]
        exact Owns_frame w.heap h1 lj (R j) (hother j hji) (hw.owns j lj hj)
    · intro j hj
      by_cases hji : j = i
      · subst hji
        simp at hj
      · simp [hji] at hj
        rw [Function.update_noteq hji]
        exact hw.unused j hj
    · intro j k hjk p hp
      by_cases hji : j = i
      · subst hji
        rw [Function.update_same] at hp
        rw [Function.update_noteq (fun e => hjk e.symm)]
        rcases hnew p hp with hp1 | hp1
        · exact hw.disj j k hjk p hp1
        · intro hk
          obtain ⟨n, hn⟩ := hw.mem_live k p hk
          rw [hp1] at hn
          cases hn
      · rw [Function.update_noteq hji] at hp
        by_cases hki : k = i
        · subst hki
          rw [Function.update_same]
          intro hp1
          rcases hnew p hp1 with hp2 | hp2
          · exact hw.disj j k hjk p hp hp2
          · obtain ⟨n, hn⟩ := hw.mem_live j p hp
            rw [hp2] at hn
            cases hn
        · rw [Function.update_noteq hki]
          exact hw.disj j k hjk p hp
    · intro p n hpn
      by_cases hp1 : p ∈ cs1.map Prod.fst
      · exact ⟨i, by rw [Function.update_same]; exact hp1⟩
      · by_cases hp2 : p ∈ (R i).map Prod.fst
        · have := hdrop p hp2 hp1
          change h1 p = some n at hpn
          rw [this] at hpn
          cases hpn
        · have e1 := hout p hp2 hp1
          change h1 p = some n at hpn
          rw [e1] at hpn
          obtain ⟨j, hj⟩ := hw.live p n hpn
          have hji : j ≠ i := by
            rintro rfl
            exact hp2 hj
          exact ⟨j, by rw [Function.update_noteq hji]; exact hj⟩
  · simp
  · intro j hj
    simp [hj]

theorem WInv.init {α : Type} : WInv (World.init : World α) (fun _ => []) :=
  ⟨fun i l h => by simp [World.init] at h, fun _ _ => rfl,
    fun _ _ _ p hp => by simp at hp, fun p n h => by simp [World.init] at h⟩

theorem WInv.construct {α : Type} (w : World α) (R : Nat → List (Nat × α)) (i : Nat)
    (hw : WInv w R) (hi : w.objs i = none) : WInv (w.construct i) R := by
  have hR := hw.unused i hi
  refine ⟨?_, ?_, hw.disj, hw.live⟩
  · intro j lj hj
    by_cases hji : j = i
    · subst hji
      simp [World.construct, World.set_obj] at hj
      subst hj
      rw [hR]
      exact ⟨trivial, rfl, rfl, rfl, List.nodup_nil, fun c hc => by simp at hc⟩
    · simp [World.construct, World.set_obj, hji] at hj
      exact hw.owns j lj hj
  · intro j hj
    by_cases hji : j = i
    · subst hji
      exact hR
    · simp [World.construct, World.set_obj, hji] at hj
      exact hw.unused j hj

theorem clear_loop_mono {α : Type} (fuel : Nat) :
    ∀ (h : Heap α) (p : Nat) (r : Heap α × Nat), clear_loop fuel h p = .ok r →
      ∀ k, clear_loop (fuel + k) h p = .ok r := by
  induction fuel with
  | zero =>
    intro h p r hr
    simp [clear_loop] at hr
  | succ f ih =>
    intro h p r hr k
    have e : f + 1 + k = (f + k) + 1 := by omega
    rw [e]
    simp only [clear_loop] at hr ⊢
    by_cases hp : p ≠ 0
    · rw [if_pos hp] at hr ⊢
      cases hrd : h.read p with
      | error e => simp [hrd] at hr
      | ok n =>
        simp only [hrd] at hr ⊢
        cases hfr : h.free p with
        | error e => simp [hfr] at hr
        | ok h1 =>
          simp only [hfr] at hr ⊢
          exact ih h1 n.next r hr k
    · rw [if_neg hp] at hr ⊢
      exact hr

theorem clear_mono {α : Type} (fuel k : Nat) (h : Heap α) (l : DbList)
    (r : Heap α × DbList) (hr : DbList.clear fuel h l = .ok r) :
    DbList.clear (fuel + k) h l = .ok r := by
  simp only [DbList.clear] at hr ⊢
  cases hc : clear_loop fuel h l.head_ with
  | error e => simp [hc] at hr
  | ok r1 =>
    rw [clear_loop_mono fuel h l.head_ r1 hc k]
    rw [hc] at hr
    exact hr

theorem invoke_mono {α : Type} (w w1 : World α) (i : Nat)
    (m m1 : Heap α → DbList → Outcome (Heap α × DbList))
    (hm : ∀ h l r, m h l = .ok r → m1 h l = .ok r) (hr : w.invoke i m = .ok w1) :
    w.invoke i m1 = .ok w1 := by
  simp only [World.invoke] at hr ⊢
  cases ho : w.objs i with
  | none => simp [ho] at hr
  | some l =>
    simp only [ho] at hr ⊢
    cases hc : m w.heap l with
    | error e => simp [hc] at hr
    | ok r =>
      rw [hm w.heap l r hc]
      rw [hc] at hr
      exact hr

theorem copy_from_mono {α : Type} (A : Allocator α) (fuel : Nat) :
    ∀ (w : World α) (this : Nat) (it last : Iterator) (w1 : World α),
      copy_from A fuel w this it last = .ok w1 →
      ∀ k, copy_from A (fuel + k) w this it last = .ok w1 := by
  induction fuel with
  | zero =>
    intro w this it last w1 hr
    simp [copy_from] at hr
  | succ f ih =>
    intro w this it last w1 hr k
    have e : f + 1 + k = (f + k) + 1 := by omega
    rw [e]
    simp only [copy_from] at hr ⊢
    by_cases hp : it.ne last = true
    · rw [if_pos hp] at hr ⊢
      cases hd : it.deref w.heap with
      | error e => simp [hd] at hr
      | ok v =>
        simp only [hd] at hr ⊢
        cases hi : w.invoke this (DbList.push_back A v) with
        | error e => simp [hi] at hr
        | ok w2 =>
          simp only [hi] at hr ⊢
          cases hn : it.inc w2.heap with
          | error e => simp [hn] at hr
          | ok it1 =>
            simp only [hn] at hr ⊢
            exact ih w2 this it1 last w1 hr k
    · rw [if_neg hp] at hr ⊢
      exact hr

theorem copy_from_spec {α : Type} (A : Allocator α) (rest : List (Nat × α)) :
    ∀ (fuel : Nat) (w : World α) (R : Nat → List (Nat × α)) (this other : Nat)
      (pre : List (Nat × α)) (lt lo : DbList),
      WInv w R → this ≠ other → w.objs this = some lt → w.objs other = some lo →
      R other = pre ++ rest → rest.length < fuel →
      (∃ wf, copy_from A fuel w this ⟨firstOr 0 rest⟩ ⟨0⟩ = .error (.bad_alloc, wf)) ∨
      ∃ w1 R1 l1, copy_from A fuel w this ⟨firstOr 0 rest⟩ ⟨0⟩ = .ok w1 ∧ WInv w1 R1 ∧
        w1.objs this = some l1 ∧
        (∀ j, j ≠ this → R1 j = R j ∧ w1.objs j = w.objs j) ∧
        (R1 this).map Prod.snd = (R this).map Prod.snd ++ rest.map Prod.snd ∧
        (∀ q, q ∉ (R this).map Prod.fst → (∃ n, w.heap q = some n) →
          w1.heap q = w.heap q) := by
  induction rest with
  | nil =>
    intro fuel w R this other pre lt lo hw _ hlt _ _ hf
    obtain ⟨f, rfl⟩ : ∃ f, fuel = f + 1 := ⟨fuel - 1, by simp at hf; omega⟩
    right
    exact ⟨w, R, lt, by simp [copy_from, firstOr_nil, Iterator.ne], hw, hlt,
      fun _ _ => ⟨rfl, rfl⟩, by simp, fun _ _ _ => rfl⟩
  | cons c rest ih =>
    intro fuel w R this other pre lt lo hw hne hlt hlo hR hf
    obtain ⟨f, rfl⟩ : ∃ f, fuel = f + 1 := ⟨fuel - 1, by simp at hf; omega⟩
    have hoo := hw.owns other lo hlo
    rw [hR] at hoo
    have hseg := (Seg_append w.heap 0 0 pre (c :: rest)).1 hoo.seg
    have hcell : w.heap c.1 = some ⟨c.2, lastOr 0 pre, firstOr 0 rest⟩ := hseg.2.1
    have hc0 : c.1 ≠ 0 := hoo.ne_zero c (by simp)
    have hcm : c.1 ∈ (R other).map Prod.fst := by rw [hR]; simp
    cases ha : A.allocate w.heap with
    | none =>
      left
      simp [copy_from, firstOr_cons, Iterator.ne, hc0, Iterator.deref, Heap.read, hcell,
        World.invoke, hlt, DbList.push_back, ha]
    | some p =>
      obtain ⟨w1, l1, e1, -, hw1, hl1, hoth, hfr⟩ := invoke_effect w R this lt
        (DbList.push_back A c.2) (R this ++ [(p, c.2)]) hw hlt
        (push_back_effect A c.2 w.heap lt (R this) p (hw.owns this lt hlt) ha)
      have hph := (A.fresh w.heap p ha).2.2
      have hfresh : ∀ q, (∃ n, w.heap q = some n) → q ≠ p := by
        rintro q ⟨n, hn⟩ rfl
        rw [hph] at hn
        cases hn
      have hkeep : ∀ q, q ∉ (R this).map Prod.fst → (∃ n, w.heap q = some n) →
          w1.heap q = w.heap q := by
        intro q hq hlive
        apply hfr q hq
        rw [List.map_append, List.mem_append]
        rintro (h1 | h1)
        · exact hq h1
        · simp at h1
          exact hfresh q hlive h1
      have hcell1 : w1.heap c.1 = some ⟨c.2, lastOr 0 pre, firstOr 0 rest⟩ := by
        rw [hkeep c.1 (hw.disj other this (fun e => hne e.symm) c.1 hcm) ⟨_, hcell⟩]
        exact hcell
      have hR1 : Function.update R this (R this ++ [(p, c.2)]) other = (pre ++ [c]) ++ rest := by
        rw [Function.update_noteq (fun e => hne e.symm), hR]
        simp
      have hlo1 : w1.objs other = some lo := by
        rw [hoth other (fun e => hne e.symm)]
        exact hlo
      have hstep : copy_from A (f + 1) w this ⟨firstOr 0 (c :: rest)⟩ ⟨0⟩ =
          copy_from A f w1 this ⟨firstOr 0 rest⟩ ⟨0⟩ := by
        simp [copy_from, firstOr_cons, Iterator.ne, hc0, Iterator.deref, Heap.read, hcell,
          e1, Iterator.inc, hcell1]
      rw [hstep]
      rcases ih f w1 _ this other (pre ++ [c]) l1 lo hw1 hne hl1 hlo1 hR1
        (by simp at hf; omega) with herr | ⟨w2, R2, l2, e2, hw2, hl2, hoth2, hval, hfr2⟩
      · exact Or.inl herr
      · right
        refine ⟨w2, R2, l2, e2, hw2, hl2, ?_, ?_, ?_⟩
        · intro j hj
          rw [(hoth2 j hj).1, (hoth2 j hj).2, Function.update_noteq hj, hoth j hj]
          exact ⟨rfl, rfl⟩
        · rw [hval, Function.update_same]
          simp
        · intro q hq hlive
          have hq1 := hkeep q hq hlive
          rw [← hq1]
          apply hfr2 q
          · rw [Function.update_same, List.map_append, List.mem_append]
            rintro (h1 | h1)
            · exact hq h1
            · simp at h1
              exact hfresh q hlive h1
          · obtain ⟨n, hn⟩ := hlive
            exact ⟨n, by rw [hq1]; exact hn⟩

theorem Owns.empty_list {α : Type} (h : Heap α) : Owns h DbList.init ([] : List (Nat × α)) :=
  ⟨trivial, rfl, rfl, rfl, List.nodup_nil, fun c hc => by simp at hc⟩

theorem WInv.set_none {α : Type} (w : World α) (R : Nat → List (Nat × α)) (i : Nat)
    (hw : WInv w R) (hi : R i = []) : WInv (w.set_obj i none) R := by
  refine ⟨?_, ?_, hw.disj, hw.live⟩
  · intro j lj hj
    by_cases hji : j = i
    · subst hji
      simp [World.set_obj] at hj
    · simp [World.set_obj, hji] at hj
      exact hw.owns j lj hj
  · intro j hj
    by_cases hji : j = i
    · subst hji
      exact hi
    · simp [World.set_obj, hji] at hj
      exact hw.unused j hj

theorem WInv.transfer {α : Type} (w : World α) (R : Nat → List (Nat × α)) (this other : Nat)
    (lo : DbList) (hw : WInv w R) (hne : this ≠ other) (ht : R this = [])
    (hlo : w.objs other = some lo) :
    WInv ((w.set_obj this (some ⟨lo.head_, lo.tail_, lo.size_⟩)).set_obj other
        (some ⟨0, 0, 0⟩))
      (Function.update (Function.update R this (R other)) other []) := by
  have heo := hne.symm
  refine ⟨?_, ?_, ?_, ?_⟩
  · intro j lj hj
    by_cases hjo : j = other
    · subst hjo
      simp [World.set_obj] at hj
      subst hj
      rw [Function.update_same]
      exact Owns.empty_list _
    · by_cases hjt : j = this
      · subst hjt
        simp [World.set_obj, hjo] at hj
        subst hj
        rw [Function.update_noteq hjo, Function.update_same]
        exact hw.owns other lo hlo
      · simp [World.set_obj, hjo, hjt] at hj
        rw [Function.update_noteq hjo, Function.update_noteq hjt]
        exact hw.owns j lj hj
  · intro j hj
    by_cases hjo : j = other
    · subst hjo
      simp [World.set_obj] at hj
    · by_cases hjt : j = this
      · subst hjt
        simp [World.set_obj, hjo] at hj
      · simp [World.set_obj, hjo, hjt] at hj
        rw [Function.update_noteq hjo, Function.update_noteq hjt]
        exact hw.unused j hj
  · intro j k hjk p hp
    by_cases hjo : j = other
    · subst hjo
      rw [Function.update_same] at hp
      simp at hp
    · by_cases hko : k = other
      · subst hko
        rw [Function.update_same]
        simp
      · rw [Function.update_noteq hjo] at hp
        rw [Function.update_noteq hko]
        by_cases hjt : j = this
        · subst hjt
          rw [Function.update_same] at hp
          rw [Function.update_noteq (fun e => hjk e.symm)]
          exact hw.disj other k (fun e => hko e.symm) p hp
        · rw [Function.update_noteq hjt] at hp
          by_cases hkt : k = this
          · subst hkt
            rw [Function.update_same]
            exact hw.disj j other hjo p hp
          · rw [Function.update_noteq hkt]
            exact hw.disj j k hjk p hp
  · intro p n hpn
    obtain ⟨j, hj⟩ := hw.live p n hpn
    by_cases hjo : j = other
    · subst hjo
      exact ⟨this, by rw [Function.update_noteq hne, Function.update_same]; exact hj⟩
    · have hjt : j ≠ this := by
        rintro rfl
        rw [ht] at hj
        simp at hj
      exact ⟨j, by rw [Function.update_noteq hjo, Function.update_noteq hjt]; exact hj⟩

theorem World.set_same {α : Type} (w : World α) (i : Nat) (l : DbList)
    (hl : w.objs i = some l) :
    (⟨w.heap, fun j => if j = i then some l else w.objs j⟩ : World α) = w := by
  cases w with
  | mk heap objs =>
    simp only [World.mk.injEq, true_and]
    funext j
    by_cases hj : j = i
    · subst hj
      simp [← hl]
    · simp [hj]

theorem world_push_back {α : Type} (A : Allocator α) (w : World α)
    (R : Nat → List (Nat × α)) (i : Nat) (l : DbList) (v : α) (hw : WInv w R)
    (hl : w.objs i = some l) :
    (A.allocate w.heap = none ∧
      w.invoke i (DbList.push_back A v) = .error (.bad_alloc, w)) ∨
    ∃ p w1 l1, A.allocate w.heap = some p ∧ w.invoke i (DbList.push_back A v) = .ok w1 ∧
      WInv w1 (Function.update R i (R i ++ [(p, v)])) ∧ w1.objs i = some l1 ∧
      (∀ j, j ≠ i → w1.objs j = w.objs j) := by
  cases ha : A.allocate w.heap with
  | none =>
    left
    exact ⟨rfl, by simp [World.invoke, hl, DbList.push_back, ha, World.set_same w i l hl]⟩
  | some p =>
    right
    obtain ⟨w1, l1, e1, -, hw1, hl1, hoth, -⟩ := invoke_effect w R i l
      (DbList.push_back A v) (R i ++ [(p, v)]) hw hl
      (push_back_effect A v w.heap l (R i) p (hw.owns i l hl) ha)
    exact ⟨p, w1, l1, rfl, e1, hw1, hl1, hoth⟩

theorem world_push_front {α : Type} (A : Allocator α) (w : World α)
    (R : Nat → List (Nat × α)) (i : Nat) (l : DbList) (v : α) (hw : WInv w R)
    (hl : w.objs i = some l) :
    (A.allocate w.heap = none ∧
      w.invoke i (DbList.push_front A v) = .error (.bad_alloc, w)) ∨
    ∃ p w1 l1, A.allocate w.heap = some p ∧ w.invoke i (DbList.push_front A v) = .ok w1 ∧
      WInv w1 (Function.update R i ((p, v) :: R i)) ∧ w1.objs i = some l1 ∧
      (∀ j, j ≠ i → w1.objs j = w.objs j) := by
  cases ha : A.allocate w.heap with
  | none =>
    left
    exact ⟨rfl, by simp [World.invoke, hl, DbList.push_front, ha, World.set_same w i l hl]⟩
  | some p =>
    right
    obtain ⟨w1, l1, e1, -, hw1, hl1, hoth, -⟩ := invoke_effect w R i l
      (DbList.push_front A v) ((p, v) :: R i) hw hl
      (push_front_effect A v w.heap l (R i) p (hw.owns i l hl) ha)
    exact ⟨p, w1, l1, rfl, e1, hw1, hl1, hoth⟩

theorem world_pop_back {α : Type} (w : World α) (R : Nat → List (Nat × α)) (i : Nat)
    (l : DbList) (hw : WInv w R) (hl : w.objs i = some l) :
    ∃ w1 l1, w.invoke i DbList.pop_back = .ok w1 ∧
      WInv w1 (Function.update R i (R i).dropLast) ∧ w1.objs i = some l1 ∧
      (∀ j, j ≠ i → w1.objs j = w.objs j) := by
  obtain ⟨w1, l1, e1, -, hw1, hl1, hoth, -⟩ := invoke_effect w R i l
    DbList.pop_back (R i).dropLast hw hl (pop_back_effect w.heap l (R i) (hw.owns i l hl))
  exact ⟨w1, l1, e1, hw1, hl1, hoth⟩

theorem world_pop_front {α : Type} (w : World α) (R : Nat → List (Nat × α)) (i : Nat)
    (l : DbList) (hw : WInv w R) (hl : w.objs i = some l) :
    ∃ w1 l1, w.invoke i DbList.pop_front = .ok w1 ∧
      WInv w1 (Function.update R i (R i).tail) ∧ w1.objs i = some l1 ∧
      (∀ j, j ≠ i → w1.objs j = w.objs j) := by
  obtain ⟨w1, l1, e1, -, hw1, hl1, hoth, -⟩ := invoke_effect w R i l
    DbList.pop_front (R i).tail hw hl (pop_front_effect w.heap l (R i) (hw.owns i l hl))
  exact ⟨w1, l1, e1, hw1, hl1, hoth⟩

theorem world_clear {α : Type} (fuel : Nat) (w : World α) (R : Nat → List (Nat × α))
    (i : Nat) (l : DbList) (hw : WInv w R) (hl : w.objs i = some l)
    (hf : l.size < fuel) :
    ∃ w1, w.invoke i (DbList.clear fuel) = .ok w1 ∧
      WInv w1 (Function.update R i []) ∧ w1.objs i = some ⟨0, 0, 0⟩ ∧
      (∀ j, j ≠ i → w1.objs j = w.objs j) ∧
      (∀ q, q ∉ (R i).map Prod.fst → w1.heap q = w.heap q) := by
  have ho := hw.owns i l hl
  have hf1 : (R i).length < fuel := by rw [← ho.size]; exact hf
  obtain ⟨w1, l1, e1, em, hw1, hl1, hoth, hfr⟩ := invoke_effect w R i l
    (DbList.clear fuel) [] hw hl (clear_effect fuel w.heap l (R i) ho hf1)
  have hl0 : l1 = ⟨0, 0, 0⟩ := by
    simp only [DbList.clear] at em
    obtain ⟨h1, e2, -, -⟩ := clear_loop_spec (R i) w.heap 0 fuel ho.seg ho.nodup ho.ne_zero hf1
    rw [ho.head, e2] at em
    simp at em
    exact em.2.symm
  subst hl0
  exact ⟨w1, e1, hw1, hl1, hoth, fun q hq => hfr q hq (by simp)⟩

theorem world_clear_any {α : Type} (fuel : Nat) (w w1 : World α)
    (R : Nat → List (Nat × α)) (i : Nat) (hw : WInv w R)
    (hr : w.invoke i (DbList.clear fuel) = .ok w1) :
    WInv w1 (Function.update R i []) ∧ w1.objs i = some ⟨0, 0, 0⟩ ∧
      (∀ j, j ≠ i → w1.objs j = w.objs j) ∧
      (∀ q, q ∉ (R i).map Prod.fst → w1.heap q = w.heap q) := by
  cases hl : w.objs i with
  | none => simp [World.invoke, hl] at hr
  | some l =>
    have hbig := invoke_mono w w1 i (DbList.clear fuel) (DbList.clear (fuel + (l.size + 1)))
      (fun h l0 r hr0 => clear_mono fuel (l.size + 1) h l0 r hr0) hr
    obtain ⟨w2, e2, hw2, hl2, hoth, hfr⟩ := world_clear (fuel + (l.size + 1)) w R i l hw hl
      (by omega)
    rw [hbig] at e2
    cases e2
    exact ⟨hw2, hl2, hoth, hfr⟩

theorem inv_to_list {α : Type} (w : World α) (R : Nat → List (Nat × α)) (i : Nat)
    (l : DbList) (hw : WInv w R) (hl : w.objs i = some l) :
    l.size = (R i).length ∧
      ∀ fuel, l.size < fuel → w.to_list fuel i = .ok ((R i).map Prod.snd) := by
  have ho := hw.owns i l hl
  refine ⟨ho.size, fun fuel hf => ?_⟩
  have hf1 : (R i).length < fuel := by rw [← ho.size]; exact hf
  simpa [World.to_list, World.query, hl] using to_list_spec fuel w.heap l (R i) ho hf1

theorem inv_nodes {α : Type} (w : World α) (R : Nat → List (Nat × α)) (i : Nat)
    (l : DbList) (hw : WInv w R) (hl : w.objs i = some l) :
    ∀ fuel, l.size < fuel → w.nodes fuel i = .ok ((R i).map Prod.fst) := by
  have ho := hw.owns i l hl
  intro fuel hf
  have hf1 : (R i).length < fuel := by rw [← ho.size]; exact hf
  have := chain_spec (R i) w.heap 0 fuel ho.seg ho.ne_zero hf1
  simpa [World.nodes, World.query, hl, ho.head] using this

theorem copy_assign_spec {α : Type} (A : Allocator α) (fuel : Nat) (w : World α)
    (R : Nat → List (Nat × α)) (this other : Nat) (lt lo : DbList) (hw : WInv w R)
    (hne : this ≠ other) (hlt : w.objs this = some lt) (hlo : w.objs other = some lo)
    (hf1 : lt.size < fuel) (hf2 : lo.size < fuel) :
    (∃ wf, w.copy_assign A fuel this other = .error (.bad_alloc, wf)) ∨
    ∃ w1 R1 l1, w.copy_assign A fuel this other = .ok w1 ∧ WInv w1 R1 ∧
      w1.objs this = some l1 ∧
      (∀ j, j ≠ this → R1 j = R j ∧ w1.objs j = w.objs j) ∧
      (R1 this).map Prod.snd = (R other).map Prod.snd ∧
      (∀ q, q ∉ (R this).map Prod.fst → (∃ n, w.heap q = some n) →
        w1.heap q = w.heap q) := by
  have heo : other ≠ this := fun e => hne e.symm
  obtain ⟨w0, e0, hw0, hl0, hoth0, hfr0⟩ := world_clear fuel w R this lt hw hlt hf1
  have hlo0 : w0.objs other = some lo := by rw [hoth0 other heo]; exact hlo
  have hoo := hw.owns other lo hlo
  have hR0 : Function.update R this [] other = [] ++ R other := by
    rw [Function.update_noteq heo]
    rfl
  have hstep : w.copy_assign A fuel this other =
      copy_from A fuel w0 this ⟨firstOr 0 (R other)⟩ ⟨0⟩ := by
    simp [World.copy_assign, hne, e0, hlo0, DbList.begin, DbList.end, hoo.head]
  rw [hstep]
  rcases copy_from_spec A (R other) fuel w0 _ this other [] _ lo hw0 hne hl0 hlo0 hR0
    (by rw [← hoo.size]; exact hf2) with herr | ⟨w1, R1, l1, e1, hw1, hl1, hoth1, hval, hfr1⟩
  · exact Or.inl herr
  · right
    refine ⟨w1, R1, l1, e1, hw1, hl1, ?_, ?_, ?_⟩
    · intro j hj
      rw [(hoth1 j hj).1, (hoth1 j hj).2, Function.update_noteq hj, hoth0 j hj]
      exact ⟨rfl, rfl⟩
    · rw [hval, Function.update_same]
      rfl
    · intro q hq hlive
      have hq0 := hfr0 q hq
      rw [← hq0]
      apply hfr1 q
      · rw [Function.update_same]
        simp
      · obtain ⟨n, hn⟩ := hlive
        exact ⟨n, by rw [hq0]; exact hn⟩

theorem copy_ctor_spec {α : Type} (A : Allocator α) (fuel : Nat) (w : World α)
    (R : Nat → List (Nat × α)) (this other : Nat) (lo : DbList) (hw : WInv w R)
    (hlt : w.objs this = none) (hlo : w.objs other = some lo) (hf2 : lo.size < fuel) :
    (∃ wf, w.copy_ctor A fuel this other = .error (.bad_alloc, wf)) ∨
    ∃ w1 R1 l1, w.copy_ctor A fuel this other = .ok w1 ∧ WInv w1 R1 ∧
      w1.objs this = some l1 ∧
      (∀ j, j ≠ this → R1 j = R j ∧ w1.objs j = w.objs j) ∧
      (R1 this).map Prod.snd = (R other).map Prod.snd ∧
      (∀ q, (∃ n, w.heap q = some n) → w1.heap q = w.heap q) := by
  have heo : other ≠ this := by
    rintro rfl
    rw [hlt] at hlo
    cases hlo
  have hne : this ≠ other := fun e => heo e.symm
  have hw0 := WInv.construct w R this hw hlt
  have hRt : R this = [] := hw.unused this hlt
  have hl0 : (w.construct this).objs this = some DbList.init := by
    simp [World.construct, World.set_obj]
  have hlo0 : (w.construct this).objs other = some lo := by
    simp [World.construct, World.set_obj, heo, hlo]
  have hoo := hw.owns other lo hlo
  have hstep : w.copy_ctor A fuel this other =
      copy_from A fuel (w.construct this) this ⟨firstOr 0 (R other)⟩ ⟨0⟩ := by
    have : (w.set_obj this (some DbList.init)).objs other = some lo := hlo0
    simp [World.copy_ctor, this, DbList.begin, DbList.end, hoo.head, World.construct]
  rw [hstep]
  rcases copy_from_spec A (R other) fuel (w.construct this) R this other [] _ lo hw0 hne hl0
    hlo0 rfl (by rw [← hoo.size]; exact hf2) with
    herr | ⟨w1, R1, l1, e1, hw1, hl1, hoth1, hval, hfr1⟩
  · exact Or.inl herr
  · right
    refine ⟨w1, R1, l1, e1, hw1, hl1, ?_, ?_, ?_⟩
    · intro j hj
      rw [(hoth1 j hj).1, (hoth1 j hj).2]
      exact ⟨rfl, by simp [World.construct, World.set_obj, hj]⟩
    · rw [hval, hRt]
      rfl
    · intro q hlive
      exact hfr1 q (by rw [hRt]; simp) hlive

theorem copy_assign_mono {α : Type} (A : Allocator α) (fuel k : Nat) (w w1 : World α)
    (this other : Nat) (hr : w.copy_assign A fuel this other = .ok w1) :
    w.copy_assign A (fuel + k) this other = .ok w1 := by
  simp only [World.copy_assign] at hr ⊢
  by_cases hne : this ≠ other
  · rw [if_pos hne] at hr ⊢
    cases hc : w.invoke this (DbList.clear fuel) with
    | error e => simp [hc] at hr
    | ok w0 =>
      rw [invoke_mono w w0 this (DbList.clear fuel) (DbList.clear (fuel + k))
        (fun h l0 r hr0 => clear_mono fuel k h l0 r hr0) hc]
      simp only [hc] at hr ⊢
      cases ho : w0.objs other with
      | none => simp [ho] at hr
      | some o =>
        simp only [ho] at hr ⊢
        exact copy_from_mono A fuel w0 this _ _ w1 hr k
  · rw [if_neg hne] at hr ⊢
    exact hr

theorem copy_ctor_mono {α : Type} (A : Allocator α) (fuel k : Nat) (w w1 : World α)
    (this other : Nat) (hr : w.copy_ctor A fuel this other = .ok w1) :
    w.copy_ctor A (fuel + k) this other = .ok w1 := by
  simp only [World.copy_ctor] at hr ⊢
  cases ho : (w.set_obj this (some DbList.init)).objs other with
  | none => simp [ho] at hr
  | some o =>
    simp only [ho] at hr ⊢
    exact copy_from_mono A fuel _ this _ _ w1 hr k

theorem move_assign_spec {α : Type} (fuel : Nat) (w : World α) (R : Nat → List (Nat × α))
    (this other : Nat) (lt lo : DbList) (hw : WInv w R) (hne : this ≠ other)
    (hlt : w.objs this = some lt) (hlo : w.objs other = some lo) (hf1 : lt.size < fuel) :
    ∃ w1, w.move_assign fuel this other = .ok w1 ∧
      WInv w1 (Function.update (Function.update R this (R other)) other []) ∧
      w1.objs this = some lo ∧ w1.objs other = some ⟨0, 0, 0⟩ ∧
      (∀ j, j ≠ this → j ≠ other → w1.objs j = w.objs j) ∧
      (∀ q, q ∉ (R this).map Prod.fst → w1.heap q = w.heap q) := by
  have heo : other ≠ this := fun e => hne e.symm
  obtain ⟨w0, e0, hw0, hl0, hoth0, hfr0⟩ := world_clear fuel w R this lt hw hlt hf1
  have hlo0 : w0.objs other = some lo := by rw [hoth0 other heo]; exact hlo
  have ht := WInv.transfer w0 _ this other lo hw0 hne (by rw [Function.update_same]) hlo0
  rw [Function.update_noteq heo] at ht
  have hRR : Function.update (Function.update (Function.update R this []) this (R other))
      other [] = Function.update (Function.update R this (R other)) other [] := by
    rw [Function.update_idem]
  rw [hRR] at ht
  refine ⟨_, by simp [World.move_assign, hne, e0, hlo0], ht, ?_, ?_, ?_, hfr0⟩
  · simp [World.set_obj, hne]
  · simp [World.set_obj]
  · intro j hjt hjo
    simp [World.set_obj, hjt, hjo, hoth0 j hjt]

theorem move_assign_mono {α : Type} (fuel k : Nat) (w w1 : World α) (this other : Nat)
    (hr : w.move_assign fuel this other = .ok w1) :
    w.move_assign (fuel + k) this other = .ok w1 := by
  simp only [World.move_assign] at hr ⊢
  by_cases hne : this ≠ other
  · rw [if_pos hne] at hr ⊢
    cases hc : w.invoke this (DbList.clear fuel) with
    | error e => simp [hc] at hr
    | ok w0 =>
      rw [invoke_mono w w0 this (DbList.clear fuel) (DbList.clear (fuel + k))
        (fun h l0 r hr0 => clear_mono fuel k h l0 r hr0) hc]
      simp only [hc] at hr ⊢
      exact hr
  · rw [if_neg hne] at hr ⊢
    exact hr

theorem move_ctor_spec {α : Type} (w : World α) (R : Nat → List (Nat × α))
    (this other : Nat) (lo : DbList) (hw : WInv w R) (hlt : w.objs this = none)
    (hlo : w.objs other = some lo) :
    ∃ w1, w.move_ctor this other = .ok w1 ∧
      WInv w1 (Function.update (Function.update R this (R other)) other []) ∧
      w1.objs this = some lo ∧ w1.objs other = some ⟨0, 0, 0⟩ ∧
      (∀ j, j ≠ this → j ≠ other → w1.objs j = w.objs j) ∧ w1.heap = w.heap := by
  have heo : other ≠ this := by
    rintro rfl
    rw [hlt] at hlo
    cases hlo
  have hne : this ≠ other := fun e => heo e.symm
  have ht := WInv.transfer w R this other lo hw hne (hw.unused this hlt) hlo
  refine ⟨_, by simp [World.move_ctor, hlo], ht, ?_, ?_, ?_, rfl⟩
  · simp [World.set_obj, hne]
  · simp [World.set_obj]
  · intro j hjt hjo
    simp [World.set_obj, hjt, hjo]

theorem invoke_obj {α : Type} (w w1 : World α) (i : Nat)
    (m : Heap α → DbList → Outcome (Heap α × DbList)) (hr : w.invoke i m = .ok w1) :
    ∃ l, w.objs i = some l := by
  cases hl : w.objs i with
  | none => simp [World.invoke, hl] at hr
  | some l => exact ⟨l, rfl⟩

theorem step_inv {α : Type} (A : Allocator α) (w w1 : World α) (R : Nat → List (Nat × α))
    (hs : Step A w w1) (hw : WInv w R) : ∃ R1, WInv w1 R1 := by
  cases hs with
  | construct this hnone => exact ⟨R, WInv.construct w R this hw hnone⟩
  | copy_ctor fuel this other hnone hr =>
    by_cases hot : other = this
    · subst hot
      have h0 : (w.set_obj other (some DbList.init)).objs other = some DbList.init := by
        simp [World.set_obj]
      cases fuel with
      | zero => simp [World.copy_ctor, h0, copy_from] at hr
      | succ f =>
        have h1 : (w.set_obj other (some ⟨0, 0, 0⟩)).objs other = some ⟨0, 0, 0⟩ := h0
        simp [World.copy_ctor, h1, copy_from, DbList.begin, DbList.end, DbList.init,
          Iterator.ne] at hr
        subst hr
        exact ⟨R, WInv.construct w R other hw hnone⟩
    · cases hlo : w.objs other with
      | none =>
        have h0 : (w.set_obj this (some DbList.init)).objs other = none := by
          simp [World.set_obj, hot, hlo]
        simp [World.copy_ctor, h0] at hr
      | some lo =>
        have hbig := copy_ctor_mono A fuel (lo.size + 1) w w1 this other hr
        rcases copy_ctor_spec A (fuel + (lo.size + 1)) w R this other lo hw hnone hlo
          (by omega) with ⟨wf, herr⟩ | ⟨w2, R2, l2, e2, hw2, -⟩
        · rw [hbig] at herr
          cases herr
        · rw [hbig] at e2
          cases e2
          exact ⟨R2, hw2⟩
  | move_ctor this other hnone hr =>
    cases hlo : w.objs other with
    | none => simp [World.move_ctor, hlo] at hr
    | some lo =>
      obtain ⟨w2, e2, hw2, -⟩ := move_ctor_spec w R this other lo hw hnone hlo
      rw [hr] at e2
      cases e2
      exact ⟨_, hw2⟩
  | destroy fuel this hr =>
    simp only [World.destroy] at hr
    cases hc : w.invoke this (DbList.clear fuel) with
    | error e => simp [hc] at hr
    | ok w0 =>
      simp only [hc] at hr
      cases hr
      obtain ⟨hw0, -⟩ := world_clear_any fuel w w0 R this hw hc
      exact ⟨_, WInv.set_none w0 _ this hw0 (by rw [Function.update_same])⟩
  | copy_assign fuel this other hr =>
    by_cases hne : this ≠ other
    · have hr0 := hr
      simp only [World.copy_assign, if_pos hne] at hr0
      cases hc : w.invoke this (DbList.clear fuel) with
      | error e => simp [hc] at hr0
      | ok w0 =>
        simp only [hc] at hr0
        obtain ⟨lt, hlt⟩ := invoke_obj w w0 this _ hc
        obtain ⟨-, -, hoth, -⟩ := world_clear_any fuel w w0 R this hw hc
        cases hlo : w.objs other with
        | none =>
          have : w0.objs other = none := by rw [hoth other (fun e => hne e.symm)]; exact hlo
          simp [this] at hr0
        | some lo =>
          have hbig := copy_assign_mono A fuel (lt.size + lo.size + 1) w w1 this other hr
          rcases copy_assign_spec A (fuel + (lt.size + lo.size + 1)) w R this other lt lo hw
            hne hlt hlo (by omega) (by omega) with ⟨wf, herr⟩ | ⟨w2, R2, l2, e2, hw2, -⟩
          · rw [hbig] at herr
            cases herr
          · rw [hbig] at e2
            cases e2
            exact ⟨R2, hw2⟩
    · simp only [World.copy_assign, if_neg hne] at hr
      cases hr
      exact ⟨R, hw⟩
  | move_assign fuel this other hr =>
    by_cases hne : this ≠ other
    · have hr0 := hr
      simp only [World.move_assign, if_pos hne] at hr0
      cases hc : w.invoke this (DbList.clear fuel) with
      | error e => simp [hc] at hr0
      | ok w0 =>
        simp only [hc] at hr0
        obtain ⟨lt, hlt⟩ := invoke_obj w w0 this _ hc
        obtain ⟨-, -, hoth, -⟩ := world_clear_any fuel w w0 R this hw hc
        cases hlo : w.objs other with
        | none =>
          have : w0.objs other = none := by rw [hoth other (fun e => hne e.symm)]; exact hlo
          simp [this] at hr0
        | some lo =>
          have hbig := move_assign_mono fuel (lt.size + 1) w w1 this other hr
          obtain ⟨w2, e2, hw2, -⟩ := move_assign_spec (fuel + (lt.size + 1)) w R this other
            lt lo hw hne hlt hlo (by omega)
          rw [hbig] at e2
          cases e2
          exact ⟨_, hw2⟩
    · simp only [World.move_assign, if_neg hne] at hr
      cases hr
      exact ⟨R, hw⟩
  | push_back this v hr =>
    obtain ⟨l, hl⟩ := invoke_obj w w1 this _ hr
    rcases world_push_back A w R this l v hw hl with ⟨-, herr⟩ | ⟨p, w2, l2, -, e2, hw2, -⟩
    · rw [hr] at herr
      cases herr
    · rw [hr] at e2
      cases e2
      exact ⟨_, hw2⟩
  | push_front this v hr =>
    obtain ⟨l, hl⟩ := invoke_obj w w1 this _ hr
    rcases world_push_front A w R this l v hw hl with ⟨-, herr⟩ | ⟨p, w2, l2, -, e2, hw2, -⟩
    · rw [hr] at herr
      cases herr
    · rw [hr] at e2
      cases e2
      exact ⟨_, hw2⟩
  | pop_back this hr =>
    obtain ⟨l, hl⟩ := invoke_obj w w1 this _ hr
    obtain ⟨w2, l2, e2, hw2, -⟩ := world_pop_back w R this l hw hl
    rw [hr] at e2
    cases e2
    exact ⟨_, hw2⟩
  | pop_front this hr =>
    obtain ⟨l, hl⟩ := invoke_obj w w1 this _ hr
    obtain ⟨w2, l2, e2, hw2, -⟩ := world_pop_front w R this l hw hl
    rw [hr] at e2
    cases e2
    exact ⟨_, hw2⟩
  | clear fuel this hr =>
    exact ⟨_, (world_clear_any fuel w w1 R this hw hr).1⟩

theorem reachable_inv {α : Type} (A : Allocator α) (w : World α) (hr : Reachable A w) :
    ∃ R, WInv w R := by
  induction hr with
  | init => exact ⟨_, WInv.init⟩
  | step w w1 _ hs ih =>
    obtain ⟨R, hw⟩ := ih
    exact step_inv A w w1 R hs hw

theorem run_ops_spec {α : Type} (A : Allocator α) (this : Nat) (ops : List (Op α)) :
    ∀ (w : World α) (R : Nat → List (Nat × α)) (t : Tally) (l : DbList),
      WInv w R → w.objs this = some l → (R this).length + t.pops = t.pushes →
      (∃ wf, run_ops A this ops w t = .error (.bad_alloc, wf)) ∨
      ∃ w1 t1 l1 R1, run_ops A this ops w t = .ok (w1, t1) ∧ WInv w1 R1 ∧
        w1.objs this = some l1 ∧ (R1 this).length + t1.pops = t1.pushes ∧
        t1.pushes = t.pushes + (ops.filter Op.is_push).length := by
  induction ops with
  | nil =>
    intro w R t l hw hl ht
    exact Or.inr ⟨w, t, l, R, rfl, hw, hl, ht, by simp⟩
  | cons op ops ih =>
    intro w R t l hw hl ht
    have hq : w.query this (fun _ l => (.ok l.empty : Except Fault Bool)) = .ok l.empty := by
      simp [World.query, hl]
    have hsz := (hw.owns this l hl).size
    cases op with
    | push_back v =>
      rcases world_push_back A w R this l v hw hl with ⟨-, herr⟩ | ⟨p, w1, l1, -, e1, hw1, hl1, -⟩
      · left
        exact ⟨w, by simp [run_ops, hq, World.apply, herr]⟩
      · have hstep : run_ops A this (Op.push_back v :: ops) w t =
            run_ops A this ops w1 ⟨t.pushes + 1, t.pops⟩ := by
          simp [run_ops, hq, World.apply, e1, Tally.count]
        rw [hstep]
        rcases ih w1 _ ⟨t.pushes + 1, t.pops⟩ l1 hw1 hl1
          (by rw [Function.update_same]; simp; omega) with herr | ⟨w2, t2, l2, R2, e2, h2⟩
        · exact Or.inl herr
        · exact Or.inr ⟨w2, t2, l2, R2, e2, h2.1, h2.2.1, h2.2.2.1, by
            rw [h2.2.2.2]; simp [Op.is_push]; omega⟩
    | push_front v =>
      rcases world_push_front A w R this l v hw hl with
        ⟨-, herr⟩ | ⟨p, w1, l1, -, e1, hw1, hl1, -⟩
      · left
        exact ⟨w, by simp [run_ops, hq, World.apply, herr]⟩
      · have hstep : run_ops A this (Op.push_front v :: ops) w t =
            run_ops A this ops w1 ⟨t.pushes + 1, t.pops⟩ := by
          simp [run_ops, hq, World.apply, e1, Tally.count]
        rw [hstep]
        rcases ih w1 _ ⟨t.pushes + 1, t.pops⟩ l1 hw1 hl1
          (by rw [Function.update_same]; simp; omega) with herr | ⟨w2, t2, l2, R2, e2, h2⟩
        · exact Or.inl herr
        · exact Or.inr ⟨w2, t2, l2, R2, e2, h2.1, h2.2.1, h2.2.2.1, by
            rw [h2.2.2.2]; simp [Op.is_push]; omega⟩
    | pop_back =>
      obtain ⟨w1, l1, e1, hw1, hl1, -⟩ := world_pop_back w R this l hw hl
      have hstep : run_ops A this (Op.pop_back :: ops) w t =
          run_ops A this ops w1 (if l.empty then t else ⟨t.pushes, t.pops + 1⟩) := by
        simp [run_ops, hq, World.apply, e1, Tally.count]
      rw [hstep]
      have ht1 : (Function.update R this (R this).dropLast this).length +
          (if l.empty then t else ⟨t.pushes, t.pops + 1⟩ : Tally).pops =
          (if l.empty then t else ⟨t.pushes, t.pops + 1⟩ : Tally).pushes := by
        rw [Function.update_same, List.length_dropLast]
        by_cases he : l.empty = true
        · have : (R this).length = 0 := by
            rw [← hsz]
            simpa [DbList.empty] using he
          simp [he]
          omega
        · have : (R this).length ≠ 0 := by
            rw [← hsz]
            simpa [DbList.empty] using he
          simp [he]
          omega
      rcases ih w1 _ _ l1 hw1 hl1 ht1 with herr | ⟨w2, t2, l2, R2, e2, h2⟩
      · exact Or.inl herr
      · exact Or.inr ⟨w2, t2, l2, R2, e2, h2.1, h2.2.1, h2.2.2.1, by
          rw [h2.2.2.2]
          by_cases he : l.empty = true <;> simp [Op.is_push, he]⟩
    | pop_front =>
      obtain ⟨w1, l1, e1, hw1, hl1, -⟩ := world_pop_front w R this l hw hl
      have hstep : run_ops A this (Op.pop_front :: ops) w t =
          run_ops A this ops w1 (if l.empty then t else ⟨t.pushes, t.pops + 1⟩) := by
        simp [run_ops, hq, World.apply, e1, Tally.count]
      rw [hstep]
      have ht1 : (Function.update R this (R this).tail this).length +
          (if l.empty then t else ⟨t.pushes, t.pops + 1⟩ : Tally).pops =
          (if l.empty then t else ⟨t.pushes, t.pops + 1⟩ : Tally).pushes := by
        rw [Function.update_same, List.length_tail]
        by_cases he : l.empty = true
        · have : (R this).length = 0 := by
            rw [← hsz]
            simpa [DbList.empty] using he
          simp [he]
          omega
        · have : (R this).length ≠ 0 := by
            rw [← hsz]
            simpa [DbList.empty] using he
          simp [he]
          omega
      rcases ih w1 _ _ l1 hw1 hl1 ht1 with herr | ⟨w2, t2, l2, R2, e2, h2⟩
      · exact Or.inl herr
      · exact Or.inr ⟨w2, t2, l2, R2, e2, h2.1, h2.2.1, h2.2.2.1, by
          rw [h2.2.2.2]
          by_cases he : l.empty = true <;> simp [Op.is_push, he]⟩

theorem Seg_prev {α : Type} (h : Heap α) (cs : List (Nat × α)) :
    ∀ (prv nxt : Nat) (xs ys : List Nat) (a b : Nat), Seg h prv cs nxt →
      cs.map Prod.fst = xs ++ a :: b :: ys → ∃ n, h b = some n ∧ n.prev = a := by
  induction cs with
  | nil =>
    intro prv nxt xs ys a b _ he
    simp at he
  | cons c cs ih =>
    intro prv nxt xs ys a b hs he
    cases xs with
    | nil =>
      cases cs with
      | nil => simp at he
      | cons d cs =>
        simp at he
        obtain ⟨h1, h2, -⟩ := he
        have := hs.2.1
        rw [h1, h2] at this
        exact ⟨_, this, rfl⟩
    | cons x xs =>
      simp at he
      exact ih c.1 nxt xs ys a b hs.2 he.2

theorem mutate_inv {α : Type} (A : Allocator α) (w w1 : World α)
    (R : Nat → List (Nat × α)) (i : Nat) (m : Mutation α) (hw : WInv w R)
    (hr : w.mutate A i m = .ok w1) :
    ∃ cs, WInv w1 (Function.update R i cs) ∧ ∀ j, j ≠ i → w1.objs j = w.objs j := by
  cases m with
  | clear fuel =>
    obtain ⟨h1, -, h3, -⟩ := world_clear_any fuel w w1 R i hw hr
    exact ⟨_, h1, h3⟩
  | op o =>
    cases o with
    | push_back v =>
      obtain ⟨l, hl⟩ := invoke_obj w w1 i _ hr
      rcases world_push_back A w R i l v hw hl with
        ⟨-, herr⟩ | ⟨p, w2, l2, -, e2, hw2, -, hoth⟩
      · have : w.invoke i (DbList.push_back A v) = .ok w1 := hr
        rw [this] at herr
        cases herr
      · have : w.invoke i (DbList.push_back A v) = .ok w1 := hr
        rw [this] at e2
        cases e2
        exact ⟨_, hw2, hoth⟩
    | push_front v =>
      obtain ⟨l, hl⟩ := invoke_obj w w1 i _ hr
      rcases world_push_front A w R i l v hw hl with
        ⟨-, herr⟩ | ⟨p, w2, l2, -, e2, hw2, -, hoth⟩
      · have : w.invoke i (DbList.push_front A v) = .ok w1 := hr
        rw [this] at herr
        cases herr
      · have : w.invoke i (DbList.push_front A v) = .ok w1 := hr
        rw [this] at e2
        cases e2
        exact ⟨_, hw2, hoth⟩
    | pop_back =>
      obtain ⟨l, hl⟩ := invoke_obj w w1 i _ hr
      obtain ⟨w2, l2, e2, hw2, -, hoth⟩ := world_pop_back w R i l hw hl
      have : w.invoke i DbList.pop_back = .ok w1 := hr
      rw [this] at e2
      cases e2
      exact ⟨_, hw2, hoth⟩
    | pop_front =>
      obtain ⟨l, hl⟩ := invoke_obj w w1 i _ hr
      obtain ⟨w2, l2, e2, hw2, -, hoth⟩ := world_pop_front w R i l hw hl
      have : w.invoke i DbList.pop_front = .ok w1 := hr
      rw [this] at e2
      cases e2
      exact ⟨_, hw2, hoth⟩

theorem mutate_all_inv {α : Type} (A : Allocator α) (i : Nat) (ms : List (Mutation α)) :
    ∀ (w w1 : World α) (R : Nat → List (Nat × α)), WInv w R →
      World.mutate_all A i ms w = .ok w1 →
      ∃ cs, WInv w1 (Function.update R i cs) ∧ ∀ j, j ≠ i → w1.objs j = w.objs j := by
  induction ms with
  | nil =>
    intro w w1 R hw hr
    simp [World.mutate_all] at hr
    subst hr
    exact ⟨R i, by rw [Function.update_eq_self]; exact hw, fun _ _ => rfl⟩
  | cons m ms ih =>
    intro w w1 R hw hr
    simp only [World.mutate_all] at hr
    cases hm : w.mutate A i m with
    | error e => simp [hm] at hr
    | ok w0 =>
      simp only [hm] at hr
      obtain ⟨cs0, hw0, hoth0⟩ := mutate_inv A w w0 R i m hw hm
      obtain ⟨cs1, hw1, hoth1⟩ := ih w0 w1 _ hw0 hr
      rw [Function.update_idem] at hw1
      exact ⟨cs1, hw1, fun j hj => by rw [hoth1 j hj, hoth0 j hj]⟩

theorem copy_result {α : Type} (A : Allocator α) (w w1 : World α)
    (R : Nat → List (Nat × α)) (this other fuel : Nat) (lo : DbList) (hw : WInv w R)
    (hlo : w.objs other = some lo)
    (hcopy : (w.objs this = none ∧ w.copy_ctor A fuel this other = .ok w1) ∨
      (this ≠ other ∧ w.copy_assign A fuel this other = .ok w1)) :
    this ≠ other ∧ ∃ R1 l1, WInv w1 R1 ∧ w1.objs this = some l1 ∧
      (∀ j, j ≠ this → R1 j = R j ∧ w1.objs j = w.objs j) ∧
      (R1 this).map Prod.snd = (R other).map Prod.snd ∧
      (∀ q, q ∈ (R other).map Prod.fst → w1.heap q = w.heap q) := by
  rcases hcopy with ⟨hnone, hr⟩ | ⟨hne, hr⟩
  · have heo : other ≠ this := by
      rintro rfl
      rw [hnone] at hlo
      cases hlo
    refine ⟨fun e => heo e.symm, ?_⟩
    have hbig := copy_ctor_mono A fuel (lo.size + 1) w w1 this other hr
    rcases copy_ctor_spec A (fuel + (lo.size + 1)) w R this other lo hw hnone hlo
      (by omega) with ⟨wf, herr⟩ | ⟨w2, R2, l2, e2, hw2, hl2, hoth, hval, hfr⟩
    · rw [hbig] at herr
      cases herr
    · rw [hbig] at e2
      cases e2
      exact ⟨R2, l2, hw2, hl2, hoth, hval, fun q hq => hfr q (hw.mem_live other q hq)⟩
  · refine ⟨hne, ?_⟩
    cases hlt : w.objs this with
    | none => simp [World.copy_assign, hne, World.invoke, hlt] at hr
    | some lt =>
      have hbig := copy_assign_mono A fuel (lt.size + lo.size + 1) w w1 this other hr
      rcases copy_assign_spec A (fuel + (lt.size + lo.size + 1)) w R this other lt lo hw
        hne hlt hlo (by omega) (by omega) with
        ⟨wf, herr⟩ | ⟨w2, R2, l2, e2, hw2, hl2, hoth, hval, hfr⟩
      · rw [hbig] at herr
        cases herr
      · rw [hbig] at e2
        cases e2
        exact ⟨R2, l2, hw2, hl2, hoth, hval, fun q hq =>
          hfr q (hw.disj other this (fun e => hne e.symm) q hq) (hw.mem_live other q hq)⟩

/-! ## Reachable scenario states -/

theorem scenario0_reachable : Reachable (arena16 Nat) scenario0 :=
  Reachable.step World.init scenario0 Reachable.init (Step.construct 0 rfl)

theorem scenario1_reachable : Reachable (arena16 Nat) scenario1 :=
  Reachable.step scenario0 scenario1 scenario0_reachable (Step.push_back 0 1 rfl)

theorem scenario2_reachable : Reachable (arena16 Nat) scenario2 :=
  Reachable.step scenario1 scenario2 scenario1_reachable (Step.push_back 0 2 rfl)

theorem scenario3_reachable : Reachable (arena16 Nat) scenario3 :=
  Reachable.step scenario2 scenario3 scenario2_reachable (Step.push_front 0 0 rfl)

theorem scenario3_traversal : scenario3.to_list 4 0 = .ok [0, 1, 2] := rfl

theorem scenario3_pop_back :
    (World.after (scenario3.invoke 0 DbList.pop_back)).to_list 4 0 = .ok [0, 1] := rfl

theorem scenario3_pop_back_pop_front :
    (World.after ((World.after (scenario3.invoke 0 DbList.pop_back)).invoke 0
      DbList.pop_front)).to_list 4 0 = .ok [1] := rfl

/-! ## Claims -/

/-- C1: in every reachable state, forward traversal of a list from `begin()` to `end()`
returns normally and yields exactly `size()` elements `s`; `push_back(v)` then either
fails with `bad_alloc` (the allocator has no node, nothing else can go wrong) or leaves a
list whose traversal is `s ++ [v]`, and `push_front(v)` likewise leaves `v :: s`. -/
theorem forward_traversal_push_order {α : Type} (A : Allocator α) (w : World α)
    (this : Nat) (l : DbList) (hr : Reachable A w) (hl : w.objs this = some l) :
    ∃ s : List α, s.length = l.size ∧
      (∀ fuel, l.size < fuel → w.to_list fuel this = .ok s) ∧
      (∀ v, (A.allocate w.heap = none ∧
            w.invoke this (DbList.push_back A v) = .error (.bad_alloc, w)) ∨
          ∃ w1, w.invoke this (DbList.push_back A v) = .ok w1 ∧
            ∀ fuel, l.size + 1 < fuel → w1.to_list fuel this = .ok (s ++ [v])) ∧
      (∀ v, (A.allocate w.heap = none ∧
            w.invoke this (DbList.push_front A v) = .error (.bad_alloc, w)) ∨
          ∃ w1, w.invoke this (DbList.push_front A v) = .ok w1 ∧
            ∀ fuel, l.size + 1 < fuel → w1.to_list fuel this = .ok (v :: s)) := by
  obtain ⟨R, hw⟩ := reachable_inv A w hr
  obtain ⟨hsz, htl⟩ := inv_to_list w R this l hw hl
  refine ⟨(R this).map Prod.snd, by rw [List.length_map, hsz], htl, ?_, ?_⟩
  · intro v
    rcases world_push_back A w R this l v hw hl with herr | ⟨p, w1, l1, -, e1, hw1, hl1, -⟩
    · exact Or.inl herr
    · right
      refine ⟨w1, e1, fun fuel hf => ?_⟩
      obtain ⟨hsz1, htl1⟩ := inv_to_list w1 _ this l1 hw1 hl1
      rw [Function.update_same] at hsz1 htl1
      rw [htl1 fuel (by rw [hsz1]; simp; omega)]
      simp
  · intro v
    rcases world_push_front A w R this l v hw hl with herr | ⟨p, w1, l1, -, e1, hw1, hl1, -⟩
    · exact Or.inl herr
    · right
      refine ⟨w1, e1, fun fuel hf => ?_⟩
      obtain ⟨hsz1, htl1⟩ := inv_to_list w1 _ this l1 hw1 hl1
      rw [Function.update_same] at hsz1 htl1
      rw [htl1 fuel (by rw [hsz1]; simp; omega)]
      simp

/-- C1 at the scenario list `[0, 1, 2]` (head node 3, tail node 2, size 3). -/
theorem forward_traversal_push_order_witness :
    (Reachable (arena16 Nat) scenario3 ∧ scenario3.objs 0 = some ⟨3, 2, 3⟩) ∧
    ∃ s : List Nat, s.length = DbList.size ⟨3, 2, 3⟩ ∧
      (∀ fuel, DbList.size ⟨3, 2, 3⟩ < fuel → scenario3.to_list fuel 0 = .ok s) ∧
      (∀ v, ((arena16 Nat).allocate scenario3.heap = none ∧
            scenario3.invoke 0 (DbList.push_back (arena16 Nat) v) =
              .error (.bad_alloc, scenario3)) ∨
          ∃ w1, scenario3.invoke 0 (DbList.push_back (arena16 Nat) v) = .ok w1 ∧
            ∀ fuel, DbList.size ⟨3, 2, 3⟩ + 1 < fuel →
              w1.to_list fuel 0 = .ok (s ++ [v])) ∧
      (∀ v, ((arena16 Nat).allocate scenario3.heap = none ∧
            scenario3.invoke 0 (DbList.push_front (arena16 Nat) v) =
              .error (.bad_alloc, scenario3)) ∨
          ∃ w1, scenario3.invoke 0 (DbList.push_front (arena16 Nat) v) = .ok w1 ∧
            ∀ fuel, DbList.size ⟨3, 2, 3⟩ + 1 < fuel →
              w1.to_list fuel 0 = .ok (v :: s)) :=
  ⟨⟨scenario3_reachable, rfl⟩,
    forward_traversal_push_order (arena16 Nat) scenario3 0 ⟨3, 2, 3⟩ scenario3_reachable rfl⟩

/-- C2: in every reachable state, for a non-empty list whose forward traversal is `s`,
`pop_back()` returns normally and leaves a list whose traversal is `s` without its last
element, and `pop_front()` returns normally and leaves `s` without its first element. -/
theorem pop_removes_one_end {α : Type} (A : Allocator α) (w : World α) (this : Nat)
    (l : DbList) (hr : Reachable A w) (hl : w.objs this = some l)
    (hne : l.empty = false) :
    ∃ s : List α, s ≠ [] ∧
      (∀ fuel, l.size < fuel → w.to_list fuel this = .ok s) ∧
      (∃ w1, w.invoke this DbList.pop_back = .ok w1 ∧
        ∀ fuel, l.size ≤ fuel → w1.to_list fuel this = .ok s.dropLast) ∧
      (∃ w1, w.invoke this DbList.pop_front = .ok w1 ∧
        ∀ fuel, l.size ≤ fuel → w1.to_list fuel this = .ok s.tail) := by
  obtain ⟨R, hw⟩ := reachable_inv A w hr
  obtain ⟨hsz, htl⟩ := inv_to_list w R this l hw hl
  have hpos : 0 < (R this).length := by
    rw [← hsz]
    simp [DbList.empty] at hne
    exact Nat.pos_of_ne_zero hne
  refine ⟨(R this).map Prod.snd, ?_, htl, ?_, ?_⟩
  · intro h
    have h2 : R this = [] := by simpa using h
    rw [h2] at hpos
    exact absurd hpos (by simp)
  · obtain ⟨w1, l1, e1, hw1, hl1, -⟩ := world_pop_back w R this l hw hl
    refine ⟨w1, e1, fun fuel hf => ?_⟩
    obtain ⟨hsz1, htl1⟩ := inv_to_list w1 _ this l1 hw1 hl1
    rw [Function.update_same] at hsz1 htl1
    rw [htl1 fuel (by rw [hsz1, List.length_dropLast]; omega), List.map_dropLast]
  · obtain ⟨w1, l1, e1, hw1, hl1, -⟩ := world_pop_front w R this l hw hl
    refine ⟨w1, e1, fun fuel hf => ?_⟩
    obtain ⟨hsz1, htl1⟩ := inv_to_list w1 _ this l1 hw1 hl1
    rw [Function.update_same] at hsz1 htl1
    rw [htl1 fuel (by rw [hsz1, List.length_tail]; omega), List.map_tail]

/-- C2 at the scenario list `[0, 1, 2]`, with the scenario itself evaluated: the traversal
is `[0, 1, 2]`, after `pop_back()` it is `[0, 1]`, after `pop_front()` it is `[1]`. -/
theorem pop_removes_one_end_witness :
    (Reachable (arena16 Nat) scenario3 ∧ scenario3.objs 0 = some ⟨3, 2, 3⟩ ∧
      DbList.empty ⟨3, 2, 3⟩ = false) ∧
    (∃ s : List Nat, s ≠ [] ∧
      (∀ fuel, DbList.size ⟨3, 2, 3⟩ < fuel → scenario3.to_list fuel 0 = .ok s) ∧
      (∃ w1, scenario3.invoke 0 DbList.pop_back = .ok w1 ∧
        ∀ fuel, DbList.size ⟨3, 2, 3⟩ ≤ fuel → w1.to_list fuel 0 = .ok s.dropLast) ∧
      (∃ w1, scenario3.invoke 0 DbList.pop_front = .ok w1 ∧
        ∀ fuel, DbList.size ⟨3, 2, 3⟩ ≤ fuel → w1.to_list fuel 0 = .ok s.tail)) ∧
    scenario3.to_list 4 0 = .ok [0, 1, 2] ∧
    (World.after (scenario3.invoke 0 DbList.pop_back)).to_list 4 0 = .ok [0, 1] ∧
    (World.after ((World.after (scenario3.invoke 0 DbList.pop_back)).invoke 0
      DbList.pop_front)).to_list 4 0 = .ok [1] :=
  ⟨⟨scenario3_reachable, rfl, rfl⟩,
    pop_removes_one_end (arena16 Nat) scenario3 0 ⟨3, 2, 3⟩ scenario3_reachable rfl rfl,
    rfl, rfl, rfl⟩

/-- C3: in every reachable state, `front()` and `back()` throw `out_of_range` exactly when
`empty()` is true; on a non-empty list they return normally the first, respectively the
last, element of the forward traversal, and the two agree when `size()` is 1. -/
theorem front_back_checked {α : Type} (A : Allocator α) (w : World α) (this : Nat)
    (l : DbList) (hr : Reachable A w) (hl : w.objs this = some l) :
    (w.query this DbList.front = .error .out_of_range ↔ l.empty = true) ∧
    (w.query this DbList.back = .error .out_of_range ↔ l.empty = true) ∧
    (l.empty = false → ∃ (s : List α) (a b : α),
      (∀ fuel, l.size < fuel → w.to_list fuel this = .ok s) ∧
      s.head? = some a ∧ s.getLast? = some b ∧
      w.query this DbList.front = .ok a ∧ w.query this DbList.back = .ok b ∧
      (l.size = 1 → a = b)) := by
  obtain ⟨R, hw⟩ := reachable_inv A w hr
  obtain ⟨hsz, htl⟩ := inv_to_list w R this l hw hl
  have ho := hw.owns this l hl
  have hq1 : w.query this DbList.front = DbList.front w.heap l := by simp [World.query, hl]
  have hq2 : w.query this DbList.back = DbList.back w.heap l := by simp [World.query, hl]
  rw [hq1, hq2]
  by_cases he : l.empty = true
  · refine ⟨?_, ?_, fun h => by rw [he] at h; cases h⟩
    · simp [DbList.front, he]
    · simp [DbList.back, he]
  · have hnil : R this ≠ [] := fun h => he ((empty_spec w.heap l (R this) ho).2 h)
    obtain ⟨c, cs, hc⟩ := List.exists_cons_of_ne_nil hnil
    rcases snoc_cases (R this) with h0 | ⟨xs, d, hd⟩
    · exact absurd h0 hnil
    · have hf : DbList.front w.heap l = .ok c.2 := front_spec w.heap l c cs (hc ▸ ho)
      have hb : DbList.back w.heap l = .ok d.2 := back_spec w.heap l d xs (hd ▸ ho)
      rw [hf, hb]
      refine ⟨by simp [he], by simp [he], fun _ => ?_⟩
      refine ⟨(R this).map Prod.snd, c.2, d.2, htl, by rw [hc]; rfl, ?_, rfl, rfl, ?_⟩
      · rw [hd, List.map_append]
        simp
      · intro h1
        have hlen : (R this).length = 1 := by rw [← hsz]; exact h1
        have hcs : cs = [] := by
          rw [hc] at hlen
          simpa using hlen
        have hxs : xs = [] := by
          rw [hd] at hlen
          simpa using hlen
        rw [hc, hcs, hxs] at hd
        simp at hd
        rw [hd]

/-- C3 at the scenario list `[0, 1, 2]`. -/
theorem front_back_checked_witness :
    (Reachable (arena16 Nat) scenario3 ∧ scenario3.objs 0 = some ⟨3, 2, 3⟩) ∧
    (scenario3.query 0 DbList.front = .error .out_of_range ↔
      DbList.empty ⟨3, 2, 3⟩ = true) ∧
    (scenario3.query 0 DbList.back = .error .out_of_range ↔
      DbList.empty ⟨3, 2, 3⟩ = true) ∧
    (DbList.empty ⟨3, 2, 3⟩ = false → ∃ (s : List Nat) (a b : Nat),
      (∀ fuel, DbList.size ⟨3, 2, 3⟩ < fuel → scenario3.to_list fuel 0 = .ok s) ∧
      s.head? = some a ∧ s.getLast? = some b ∧
      scenario3.query 0 DbList.front = .ok a ∧ scenario3.query 0 DbList.back = .ok b ∧
      (DbList.size ⟨3, 2, 3⟩ = 1 → a = b)) :=
  ⟨⟨scenario3_reachable, rfl⟩,
    front_back_checked (arena16 Nat) scenario3 0 ⟨3, 2, 3⟩ scenario3_reachable rfl⟩

/-- C4: run any finite sequence of `push_back`/`push_front`/`pop_back`/`pop_front` on a
freshly default-constructed list (in any reachable state). Unless a push fails with
`bad_alloc`, the run returns, the pushes counted are the pushes of the sequence, and
`size()` is that number minus the number of pops executed on a non-empty list;
`empty()` holds iff `size()` is 0. -/
theorem size_is_pushes_minus_pops {α : Type} (A : Allocator α) (w0 : World α) (this : Nat)
    (ops : List (Op α)) (hr : Reachable A w0) (h0 : w0.objs this = none) :
    (∃ wf, run_ops A this ops (w0.construct this) ⟨0, 0⟩ = .error (.bad_alloc, wf)) ∨
    ∃ w1 t l, run_ops A this ops (w0.construct this) ⟨0, 0⟩ = .ok (w1, t) ∧
      w1.objs this = some l ∧ t.pushes = (ops.filter Op.is_push).length ∧
      t.pops ≤ t.pushes ∧ l.size = t.pushes - t.pops ∧
      (l.empty = true ↔ l.size = 0) := by
  obtain ⟨R, hw⟩ := reachable_inv A w0 hr
  have hw1 := WInv.construct w0 R this hw h0
  have hl1 : (w0.construct this).objs this = some DbList.init := by
    simp [World.construct, World.set_obj]
  rcases run_ops_spec A this ops (w0.construct this) R ⟨0, 0⟩ DbList.init hw1 hl1
    (by rw [hw.unused this h0]; rfl) with herr | ⟨w2, t2, l2, R2, e2, hw2, hl2, hlen, hpush⟩
  · exact Or.inl herr
  · right
    have hsz := (hw2.owns this l2 hl2).size
    refine ⟨w2, t2, l2, e2, hl2, by simpa using hpush, by omega, ?_, ?_⟩
    · show l2.size_ = _
      omega
    · simp [DbList.empty, DbList.size]

/-- C4 on the sequence push_back(1), pop_back, pop_back, push_front(2) from the initial
state. -/
theorem size_is_pushes_minus_pops_witness :
    (Reachable (arena16 Nat) World.init ∧ (World.init : World Nat).objs 0 = none) ∧
    ((∃ wf,
      run_ops (arena16 Nat) 0 [Op.push_back 1, Op.pop_back, Op.pop_back, Op.push_front 2]
        ((World.init : World Nat).construct 0) ⟨0, 0⟩ = .error (.bad_alloc, wf)) ∨
    ∃ w1 t l,
      run_ops (arena16 Nat) 0 [Op.push_back 1, Op.pop_back, Op.pop_back, Op.push_front 2]
        ((World.init : World Nat).construct 0) ⟨0, 0⟩ = .ok (w1, t) ∧
      w1.objs 0 = some l ∧
      t.pushes = (([Op.push_back 1, Op.pop_back, Op.pop_back, Op.push_front 2] :
        List (Op Nat)).filter Op.is_push).length ∧
      t.pops ≤ t.pushes ∧ l.size = t.pushes - t.pops ∧
      (l.empty = true ↔ l.size = 0)) :=
  ⟨⟨Reachable.init, rfl⟩,
    size_is_pushes_minus_pops (arena16 Nat) World.init 0
      [Op.push_back 1, Op.pop_back, Op.pop_back, Op.push_front 2] Reachable.init rfl⟩

/-- The run used above counts two pushes and one pop on a non-empty list, and ends with a
list of size 1. -/
theorem run_ops_example :
    (match run_ops (arena16 Nat) 0
        [Op.push_back 1, Op.pop_back, Op.pop_back, Op.push_front 2]
        ((World.init : World Nat).construct 0) ⟨0, 0⟩ with
      | .ok (w1, t) => some (t, w1.objs 0)
      | .error _ => none) = some (⟨2, 1⟩, some ⟨1, 1, 1⟩) := rfl

/-- C5, as the code behaves: in every reachable state, for every non-empty list, forward
traversal returns a non-empty sequence, but reverse traversal from `rbegin()` to `rend()`
never returns: its first dereference steps the wrapped `end()` cursor backward, which
reads `nullptr->prev`. -/
theorem reverse_traversal_faults {α : Type} (A : Allocator α) (w : World α) (this : Nat)
    (l : DbList) (hr : Reachable A w) (hl : w.objs this = some l)
    (hne : l.empty = false) :
    (∃ s : List α, s ≠ [] ∧ ∀ fuel, l.size < fuel → w.to_list fuel this = .ok s) ∧
    (∀ fuel, w.to_rlist (fuel + 1) this = .error .null_pointer) ∧
    (∀ fuel s, w.to_rlist fuel this ≠ .ok s) := by
  obtain ⟨R, hw⟩ := reachable_inv A w hr
  obtain ⟨hsz, htl⟩ := inv_to_list w R this l hw hl
  have ho := hw.owns this l hl
  have hnil : R this ≠ [] := by
    intro h
    have := (empty_spec w.heap l (R this) ho).2 h
    rw [hne] at this
    cases this
  obtain ⟨c, cs, hc⟩ := List.exists_cons_of_ne_nil hnil
  have hhead : l.head_ ≠ 0 := by
    rw [ho.head, hc]
    exact ho.ne_zero c (by rw [hc]; simp)
  have hfault : ∀ fuel, w.to_rlist (fuel + 1) this = .error .null_pointer := by
    intro fuel
    have hh : (0 : Nat) ≠ l.head_ := fun e => hhead e.symm
    simp [World.to_rlist, World.query, hl, DbList.to_rlist, rtraverse, DbList.rbegin,
      DbList.rend, DbList.begin, DbList.end, ReverseIterator.ne, Iterator.ne, hh,
      ReverseIterator.deref, Iterator.dec, Heap.read]
  refine ⟨⟨(R this).map Prod.snd, by simpa using hnil, htl⟩, hfault, ?_⟩
  intro fuel s
  cases fuel with
  | zero => simp [World.to_rlist, World.query, hl, DbList.to_rlist, rtraverse]
  | succ f =>
    rw [hfault f]
    intro h
    cases h

/-- C5 at the one-element list obtained by `push_back(1)`. -/
theorem reverse_traversal_faults_witness :
    (Reachable (arena16 Nat) scenario1 ∧ scenario1.objs 0 = some ⟨1, 1, 1⟩ ∧
      DbList.empty ⟨1, 1, 1⟩ = false) ∧
    (∃ s : List Nat, s ≠ [] ∧
      ∀ fuel, DbList.size ⟨1, 1, 1⟩ < fuel → scenario1.to_list fuel 0 = .ok s) ∧
    (∀ fuel, scenario1.to_rlist (fuel + 1) 0 = .error .null_pointer) ∧
    (∀ fuel s, scenario1.to_rlist fuel 0 ≠ .ok s) :=
  ⟨⟨scenario1_reachable, rfl, rfl⟩,
    reverse_traversal_faults (arena16 Nat) scenario1 0 ⟨1, 1, 1⟩ scenario1_reachable rfl rfl⟩

/-- C6, as the code behaves: in every reachable state, for every non-empty list, the
backward step applied to `end()` does not reach the last node (which exists: `tail_` is
not null) but reads `nullptr->prev`; applied to a cursor on a node that has a predecessor
on the chain it returns the cursor on that predecessor. -/
theorem decrement_of_end_faults {α : Type} (A : Allocator α) (w : World α) (this : Nat)
    (l : DbList) (hr : Reachable A w) (hl : w.objs this = some l)
    (hne : l.empty = false) :
    Iterator.dec w.heap l.end = .error .null_pointer ∧ l.tail_ ≠ 0 ∧
    ∃ ps : List Nat, (∀ fuel, l.size < fuel → w.nodes fuel this = .ok ps) ∧
      ∀ xs a b ys, ps = xs ++ a :: b :: ys → Iterator.dec w.heap ⟨b⟩ = .ok ⟨a⟩ := by
  obtain ⟨R, hw⟩ := reachable_inv A w hr
  have ho := hw.owns this l hl
  have hfault : Iterator.dec w.heap l.end = .error .null_pointer := by
    simp [Iterator.dec, DbList.end, Heap.read]
  have hnil : R this ≠ [] := by
    intro h
    have := (empty_spec w.heap l (R this) ho).2 h
    rw [hne] at this
    cases this
  refine ⟨hfault, ?_, (R this).map Prod.fst, inv_nodes w R this l hw hl, ?_⟩
  · rcases snoc_cases (R this) with h0 | ⟨xs, d, hd⟩
    · exact absurd h0 hnil
    · rw [ho.tail, hd, lastOr_append]
      exact ho.ne_zero d (by rw [hd]; simp)
  · intro xs a b ys he
    obtain ⟨n, hn, hp⟩ := Seg_prev w.heap (R this) 0 0 xs ys a b ho.seg he
    have hb : b ∈ (R this).map Prod.fst := by rw [he]; simp
    obtain ⟨c, hc, rfl⟩ := List.mem_map.1 hb
    have hb0 := ho.ne_zero c hc
    simp [Iterator.dec, Heap.read, hb0, hn, hp]

/-- C6 at the scenario list `[0, 1, 2]`. -/
theorem decrement_of_end_faults_witness :
    (Reachable (arena16 Nat) scenario3 ∧ scenario3.objs 0 = some ⟨3, 2, 3⟩ ∧
      DbList.empty ⟨3, 2, 3⟩ = false) ∧
    Iterator.dec scenario3.heap (DbList.end ⟨3, 2, 3⟩) = .error .null_pointer ∧
    DbList.tail_ ⟨3, 2, 3⟩ ≠ 0 ∧
    ∃ ps : List Nat,
      (∀ fuel, DbList.size ⟨3, 2, 3⟩ < fuel → scenario3.nodes fuel 0 = .ok ps) ∧
      ∀ xs a b ys, ps = xs ++ a :: b :: ys → Iterator.dec scenario3.heap ⟨b⟩ = .ok ⟨a⟩ :=
  ⟨⟨scenario3_reachable, rfl, rfl⟩,
    decrement_of_end_faults (arena16 Nat) scenario3 0 ⟨3, 2, 3⟩ scenario3_reachable rfl rfl⟩

theorem scenario4_reachable : Reachable (arena16 Nat) scenario4 :=
  Reachable.step (scenario3.construct 1) scenario4
    (Reachable.step scenario3 (scenario3.construct 1) scenario3_reachable
      (Step.construct 1 rfl))
    (Step.push_back 1 7 rfl)

theorem scenario5_copy : scenario4.copy_assign (arena16 Nat) 5 1 0 = .ok scenario5 := rfl

theorem scenario5_traversals :
    scenario5.to_list 4 0 = .ok [0, 1, 2] ∧ scenario5.to_list 4 1 = .ok [0, 1, 2] ∧
      scenario5.nodes 4 0 = .ok [3, 1, 2] ∧ scenario5.nodes 4 1 = .ok [4, 5, 6] :=
  ⟨rfl, rfl, rfl, rfl⟩

/-- C7: in every reachable state, copy construction from a list `L` into an unused slot,
and copy assignment from `L` to any other list whatever it held, either fail with
`bad_alloc` or return normally a list whose `size()` is `L.size()` and whose forward
traversal is the forward traversal `s` of `L`. -/
theorem copy_preserves_elements {α : Type} (A : Allocator α) (w : World α)
    (this other : Nat) (lo : DbList) (hr : Reachable A w) (hlo : w.objs other = some lo) :
    ∃ s : List α, (∀ f, lo.size < f → w.to_list f other = .ok s) ∧
      (w.objs this = none → ∀ fuel, lo.size < fuel →
        (∃ wf, w.copy_ctor A fuel this other = .error (.bad_alloc, wf)) ∨
        ∃ w1 l1, w.copy_ctor A fuel this other = .ok w1 ∧ w1.objs this = some l1 ∧
          l1.size = lo.size ∧ ∀ f, lo.size < f → w1.to_list f this = .ok s) ∧
      (∀ lt, w.objs this = some lt → this ≠ other →
        ∀ fuel, lt.size < fuel → lo.size < fuel →
        (∃ wf, w.copy_assign A fuel this other = .error (.bad_alloc, wf)) ∨
        ∃ w1 l1, w.copy_assign A fuel this other = .ok w1 ∧ w1.objs this = some l1 ∧
          l1.size = lo.size ∧ ∀ f, lo.size < f → w1.to_list f this = .ok s) := by
  obtain ⟨R, hw⟩ := reachable_inv A w hr
  obtain ⟨hsz, htl⟩ := inv_to_list w R other lo hw hlo
  have hfin : ∀ (w1 : World α) (R1 : Nat → List (Nat × α)) (l1 : DbList), WInv w1 R1 →
      w1.objs this = some l1 → (R1 this).map Prod.snd = (R other).map Prod.snd →
      l1.size = lo.size ∧ ∀ f, lo.size < f →
        w1.to_list f this = .ok ((R other).map Prod.snd) := by
    intro w1 R1 l1 hw1 hl1 hval
    obtain ⟨hsz1, htl1⟩ := inv_to_list w1 R1 this l1 hw1 hl1
    have hlen : (R1 this).length = (R other).length := by
      have := congrArg List.length hval
      simpa using this
    have hs : l1.size = lo.size := by rw [hsz1, hsz, hlen]
    refine ⟨hs, fun f hf => ?_⟩
    rw [htl1 f (by rw [hs]; exact hf), hval]
  refine ⟨(R other).map Prod.snd, htl, ?_, ?_⟩
  · intro hnone fuel hf
    rcases copy_ctor_spec A fuel w R this other lo hw hnone hlo hf with
      herr | ⟨w1, R1, l1, e1, hw1, hl1, -, hval, -⟩
    · exact Or.inl herr
    · obtain ⟨h1, h2⟩ := hfin w1 R1 l1 hw1 hl1 hval
      exact Or.inr ⟨w1, l1, e1, hl1, h1, h2⟩
  · intro lt hlt hne fuel hf1 hf2
    rcases copy_assign_spec A fuel w R this other lt lo hw hne hlt hlo hf1 hf2 with
      herr | ⟨w1, R1, l1, e1, hw1, hl1, -, hval, -⟩
    · exact Or.inl herr
    · obtain ⟨h1, h2⟩ := hfin w1 R1 l1 hw1 hl1 hval
      exact Or.inr ⟨w1, l1, e1, hl1, h1, h2⟩

/-- C7 with source `[0, 1, 2]` in slot 0 and destination `[7]` in slot 1. -/
theorem copy_preserves_elements_witness :
    (Reachable (arena16 Nat) scenario4 ∧ scenario4.objs 0 = some ⟨3, 2, 3⟩) ∧
    ∃ s : List Nat, (∀ f, DbList.size ⟨3, 2, 3⟩ < f → scenario4.to_list f 0 = .ok s) ∧
      (scenario4.objs 1 = none → ∀ fuel, DbList.size ⟨3, 2, 3⟩ < fuel →
        (∃ wf, scenario4.copy_ctor (arena16 Nat) fuel 1 0 = .error (.bad_alloc, wf)) ∨
        ∃ w1 l1, scenario4.copy_ctor (arena16 Nat) fuel 1 0 = .ok w1 ∧
          w1.objs 1 = some l1 ∧ l1.size = DbList.size ⟨3, 2, 3⟩ ∧
          ∀ f, DbList.size ⟨3, 2, 3⟩ < f → w1.to_list f 1 = .ok s) ∧
      (∀ lt, scenario4.objs 1 = some lt → 1 ≠ 0 →
        ∀ fuel, lt.size < fuel → DbList.size ⟨3, 2, 3⟩ < fuel →
        (∃ wf, scenario4.copy_assign (arena16 Nat) fuel 1 0 = .error (.bad_alloc, wf)) ∨
        ∃ w1 l1, scenario4.copy_assign (arena16 Nat) fuel 1 0 = .ok w1 ∧
          w1.objs 1 = some l1 ∧ l1.size = DbList.size ⟨3, 2, 3⟩ ∧
          ∀ f, DbList.size ⟨3, 2, 3⟩ < f → w1.to_list f 1 = .ok s) :=
  ⟨⟨scenario4_reachable, rfl⟩,
    copy_preserves_elements (arena16 Nat) scenario4 1 0 ⟨3, 2, 3⟩ scenario4_reachable rfl⟩

/-- C8: let a copy constructor or a copy assignment from `L` (slot `other`) to slot `this`
return normally. Then `L` keeps its head, tail and size, its chain is the same nodes with
the same contents, the chain of the copy shares no node with it, both traversals are that
of `L` before, and any later sequence of `push_back`/`push_front`/`pop_back`/`pop_front`/
`clear` on the copy leaves `L` and its traversal unchanged, and conversely. -/
theorem copy_is_independent {α : Type} (A : Allocator α) (w w1 : World α)
    (this other fuel : Nat) (lo : DbList) (hr : Reachable A w)
    (hlo : w.objs other = some lo)
    (hcopy : (w.objs this = none ∧ w.copy_ctor A fuel this other = .ok w1) ∨
      (this ≠ other ∧ w.copy_assign A fuel this other = .ok w1)) :
    w1.objs other = some lo ∧
    ∃ (s : List α) (ps qs : List Nat) (l1 : DbList),
      w1.objs this = some l1 ∧ l1.size = lo.size ∧
      (∀ f, lo.size < f → w.nodes f other = .ok qs ∧ w1.nodes f other = .ok qs ∧
        w1.nodes f this = .ok ps ∧ w.to_list f other = .ok s ∧
        w1.to_list f other = .ok s ∧ w1.to_list f this = .ok s) ∧
      (∀ p ∈ ps, p ∉ qs) ∧ (∀ q ∈ qs, w1.heap q = w.heap q) ∧
      (∀ ms w2, World.mutate_all A this ms w1 = .ok w2 →
        w2.objs other = some lo ∧ ∀ f, lo.size < f → w2.to_list f other = .ok s) ∧
      (∀ ms w2, World.mutate_all A other ms w1 = .ok w2 →
        w2.objs this = some l1 ∧ ∀ f, lo.size < f → w2.to_list f this = .ok s) := by
  obtain ⟨R, hw⟩ := reachable_inv A w hr
  obtain ⟨hne, R1, l1, hw1, hl1, hoth, hval, hfr⟩ :=
    copy_result A w w1 R this other fuel lo hw hlo hcopy
  have heo : other ≠ this := fun e => hne e.symm
  have hlo1 : w1.objs other = some lo := by rw [(hoth other heo).2]; exact hlo
  have hRo : R1 other = R other := (hoth other heo).1
  obtain ⟨hsz, htl⟩ := inv_to_list w R other lo hw hlo
  obtain ⟨hszo, htlo⟩ := inv_to_list w1 R1 other lo hw1 hlo1
  obtain ⟨hsz1, htl1⟩ := inv_to_list w1 R1 this l1 hw1 hl1
  have hlen : (R1 this).length = (R other).length := by
    have := congrArg List.length hval
    simpa using this
  have hs : l1.size = lo.size := by rw [hsz1, hsz, hlen]
  refine ⟨hlo1, (R other).map Prod.snd, (R1 this).map Prod.fst, (R other).map Prod.fst, l1,
    hl1, hs, ?_, ?_, hfr, ?_, ?_⟩
  · intro f hf
    refine ⟨inv_nodes w R other lo hw hlo f hf, ?_, ?_, htl f hf, ?_, ?_⟩
    · rw [← hRo]
      exact inv_nodes w1 R1 other lo hw1 hlo1 f hf
    · exact inv_nodes w1 R1 this l1 hw1 hl1 f (by rw [hs]; exact hf)
    · rw [← hRo]
      exact htlo f hf
    · rw [← hval]
      exact htl1 f (by rw [hs]; exact hf)
  · intro p hp
    rw [← hRo]
    exact hw1.disj this other hne p hp
  · intro ms w2 hm
    obtain ⟨cs, hw2, hoth2⟩ := mutate_all_inv A this ms w1 w2 R1 hw1 hm
    have hlo2 : w2.objs other = some lo := by rw [hoth2 other heo]; exact hlo1
    refine ⟨hlo2, fun f hf => ?_⟩
    have := (inv_to_list w2 _ other lo hw2 hlo2).2 f hf
    rw [Function.update_noteq heo, hRo] at this
    exact this
  · intro ms w2 hm
    obtain ⟨cs, hw2, hoth2⟩ := mutate_all_inv A other ms w1 w2 R1 hw1 hm
    have hl2 : w2.objs this = some l1 := by rw [hoth2 this hne]; exact hl1
    refine ⟨hl2, fun f hf => ?_⟩
    have := (inv_to_list w2 _ this l1 hw2 hl2).2 f (by rw [hs]; exact hf)
    rw [Function.update_noteq hne, hval] at this
    exact this

/-- C8 for the copy assignment of `[0, 1, 2]` (slot 0) to the list `[7]` (slot 1). -/
theorem copy_is_independent_witness :
    (Reachable (arena16 Nat) scenario4 ∧ scenario4.objs 0 = some ⟨3, 2, 3⟩ ∧
      ((scenario4.objs 1 = none ∧
          scenario4.copy_ctor (arena16 Nat) 5 1 0 = .ok scenario5) ∨
        (1 ≠ 0 ∧ scenario4.copy_assign (arena16 Nat) 5 1 0 = .ok scenario5))) ∧
    (scenario5.objs 0 = some ⟨3, 2, 3⟩ ∧
    ∃ (s : List Nat) (ps qs : List Nat) (l1 : DbList),
      scenario5.objs 1 = some l1 ∧ l1.size = DbList.size ⟨3, 2, 3⟩ ∧
      (∀ f, DbList.size ⟨3, 2, 3⟩ < f →
        scenario4.nodes f 0 = .ok qs ∧ scenario5.nodes f 0 = .ok qs ∧
        scenario5.nodes f 1 = .ok ps ∧ scenario4.to_list f 0 = .ok s ∧
        scenario5.to_list f 0 = .ok s ∧ scenario5.to_list f 1 = .ok s) ∧
      (∀ p ∈ ps, p ∉ qs) ∧ (∀ q ∈ qs, scenario5.heap q = scenario4.heap q) ∧
      (∀ ms w2, World.mutate_all (arena16 Nat) 1 ms scenario5 = .ok w2 →
        w2.objs 0 = some ⟨3, 2, 3⟩ ∧
        ∀ f, DbList.size ⟨3, 2, 3⟩ < f → w2.to_list f 0 = .ok s) ∧
      (∀ ms w2, World.mutate_all (arena16 Nat) 0 ms scenario5 = .ok w2 →
        w2.objs 1 = some l1 ∧
        ∀ f, DbList.size ⟨3, 2, 3⟩ < f → w2.to_list f 1 = .ok s)) :=
  ⟨⟨scenario4_reachable, rfl, Or.inr ⟨by decide, scenario5_copy⟩⟩,
    copy_is_independent (arena16 Nat) scenario4 scenario5 1 0 5 ⟨3, 2, 3⟩
      scenario4_reachable rfl (Or.inr ⟨by decide, scenario5_copy⟩)⟩

theorem scenario3_copy_ctor :
    (World.after (scenario3.copy_ctor (arena16 Nat) 4 1 0)).to_list 4 1 = .ok [0, 1, 2] :=
  rfl

/-- C9: in every reachable state, move construction from a list `L` (slot `other`) into an
unused slot, and move assignment from `L` to a distinct list, return normally; afterwards
the destination has exactly `L`'s former head, tail and size, its chain is the same nodes
with untouched contents and its traversal is `L`'s former traversal, and `L` is in the
empty state (head null, tail null, size 0). -/
theorem move_transfers_chain {α : Type} (A : Allocator α) (w : World α)
    (this other : Nat) (lo : DbList) (hr : Reachable A w) (hlo : w.objs other = some lo) :
    ∃ (s : List α) (ps : List Nat),
      (∀ f, lo.size < f → w.to_list f other = .ok s ∧ w.nodes f other = .ok ps) ∧
      (w.objs this = none →
        ∃ w1, w.move_ctor this other = .ok w1 ∧ w1.objs this = some lo ∧
          w1.objs other = some ⟨0, 0, 0⟩ ∧ w1.heap = w.heap ∧
          ∀ f, lo.size < f → w1.to_list f this = .ok s ∧ w1.nodes f this = .ok ps) ∧
      (∀ lt, w.objs this = some lt → this ≠ other → ∀ fuel, lt.size < fuel →
        ∃ w1, w.move_assign fuel this other = .ok w1 ∧ w1.objs this = some lo ∧
          w1.objs other = some ⟨0, 0, 0⟩ ∧ (∀ q ∈ ps, w1.heap q = w.heap q) ∧
          ∀ f, lo.size < f → w1.to_list f this = .ok s ∧ w1.nodes f this = .ok ps) := by
  obtain ⟨R, hw⟩ := reachable_inv A w hr
  obtain ⟨hsz, htl⟩ := inv_to_list w R other lo hw hlo
  have hfin : ∀ (w1 : World α), this ≠ other →
      WInv w1 (Function.update (Function.update R this (R other)) other []) →
      w1.objs this = some lo → ∀ f, lo.size < f →
        w1.to_list f this = .ok ((R other).map Prod.snd) ∧
        w1.nodes f this = .ok ((R other).map Prod.fst) := by
    intro w1 hne hw1 hl1 f hf
    have h1 := (inv_to_list w1 _ this lo hw1 hl1).2 f hf
    have h2 := inv_nodes w1 _ this lo hw1 hl1 f hf
    rw [Function.update_noteq hne, Function.update_same] at h1 h2
    exact ⟨h1, h2⟩
  refine ⟨(R other).map Prod.snd, (R other).map Prod.fst,
    fun f hf => ⟨htl f hf, inv_nodes w R other lo hw hlo f hf⟩, ?_, ?_⟩
  · intro hnone
    have hne : this ≠ other := by
      rintro rfl
      rw [hnone] at hlo
      cases hlo
    obtain ⟨w1, e1, hw1, hl1, hlo1, -, hheap⟩ := move_ctor_spec w R this other lo hw hnone hlo
    exact ⟨w1, e1, hl1, hlo1, hheap, hfin w1 hne hw1 hl1⟩
  · intro lt hlt hne fuel hf
    obtain ⟨w1, e1, hw1, hl1, hlo1, -, hfr⟩ :=
      move_assign_spec fuel w R this other lt lo hw hne hlt hlo hf
    exact ⟨w1, e1, hl1, hlo1,
      fun q hq => hfr q (hw.disj other this (fun e => hne e.symm) q hq), hfin w1 hne hw1 hl1⟩

/-- C9 with source `[0, 1, 2]` in slot 0 and destination `[7]` in slot 1. -/
theorem move_transfers_chain_witness :
    (Reachable (arena16 Nat) scenario4 ∧ scenario4.objs 0 = some ⟨3, 2, 3⟩) ∧
    ∃ (s : List Nat) (ps : List Nat),
      (∀ f, DbList.size ⟨3, 2, 3⟩ < f →
        scenario4.to_list f 0 = .ok s ∧ scenario4.nodes f 0 = .ok ps) ∧
      (scenario4.objs 1 = none →
        ∃ w1, scenario4.move_ctor 1 0 = .ok w1 ∧ w1.objs 1 = some ⟨3, 2, 3⟩ ∧
          w1.objs 0 = some ⟨0, 0, 0⟩ ∧ w1.heap = scenario4.heap ∧
          ∀ f, DbList.size ⟨3, 2, 3⟩ < f →
            w1.to_list f 1 = .ok s ∧ w1.nodes f 1 = .ok ps) ∧
      (∀ lt, scenario4.objs 1 = some lt → 1 ≠ 0 → ∀ fuel, lt.size < fuel →
        ∃ w1, scenario4.move_assign fuel 1 0 = .ok w1 ∧ w1.objs 1 = some ⟨3, 2, 3⟩ ∧
          w1.objs 0 = some ⟨0, 0, 0⟩ ∧ (∀ q ∈ ps, w1.heap q = scenario4.heap q) ∧
          ∀ f, DbList.size ⟨3, 2, 3⟩ < f →
            w1.to_list f 1 = .ok s ∧ w1.nodes f 1 = .ok ps) :=
  ⟨⟨scenario4_reachable, rfl⟩,
    move_transfers_chain (arena16 Nat) scenario4 1 0 ⟨3, 2, 3⟩ scenario4_reachable rfl⟩

theorem scenario4_move_assign :
    (World.after (scenario4.move_assign 2 1 0)).to_list 4 1 = .ok [0, 1, 2] ∧
      (World.after (scenario4.move_assign 2 1 0)).nodes 4 1 = .ok [3, 1, 2] ∧
      (World.after (scenario4.move_assign 2 1 0)).objs 0 = some ⟨0, 0, 0⟩ :=
  ⟨rfl, rfl, rfl⟩

/-- C10: copy-assigning a list to itself and move-assigning a list to itself return
normally and change nothing at all: the state afterwards is the state before, so head,
tail, size, every node and the traversal are as they were, and no node was freed. -/
theorem self_assignment_is_noop {α : Type} (A : Allocator α) (w : World α)
    (this fuel : Nat) :
    w.copy_assign A fuel this this = .ok w ∧ w.move_assign fuel this this = .ok w ∧
    ∀ w1, (w.copy_assign A fuel this this = .ok w1 ∨ w.move_assign fuel this this = .ok w1) →
      w1.objs this = w.objs this ∧ w1.heap = w.heap ∧
      ∀ f, w1.to_list f this = w.to_list f this := by
  have h1 : w.copy_assign A fuel this this = .ok w := by simp [World.copy_assign]
  have h2 : w.move_assign fuel this this = .ok w := by simp [World.move_assign]
  refine ⟨h1, h2, ?_⟩
  intro w1 h
  have : w1 = w := by
    rcases h with h | h
    · rw [h1] at h
      cases h
      rfl
    · rw [h2] at h
      cases h
      rfl
  subst this
  exact ⟨rfl, rfl, fun _ => rfl⟩

/-! ## Further lemmas: headers, allocation, links -/

theorem Owns.head_eq_zero_iff {α : Type} {h : Heap α} {l : DbList} {cs : List (Nat × α)}
    (ho : Owns h l cs) : l.head_ = 0 ↔ cs = [] := by
  rw [ho.head]
  cases cs with
  | nil => simp [firstOr_nil]
  | cons c cs =>
    have := ho.ne_zero c (List.mem_cons_self _ _)
    simp [firstOr_cons, this]

theorem Owns.tail_eq_zero_iff {α : Type} {h : Heap α} {l : DbList} {cs : List (Nat × α)}
    (ho : Owns h l cs) : l.tail_ = 0 ↔ cs = [] := by
  rw [ho.tail]
  rcases snoc_cases cs with rfl | ⟨xs, c, rfl⟩
  · simp [lastOr]
  · have := ho.ne_zero c (by simp)
    rw [lastOr_append]
    simp [lastOr, this]

theorem Owns.size_eq_zero_iff {α : Type} {h : Heap α} {l : DbList} {cs : List (Nat × α)}
    (ho : Owns h l cs) : l.size_ = 0 ↔ cs = [] := by
  rw [ho.size]
  exact List.length_eq_zero

theorem Owns.header_unique {α : Type} {h h1 : Heap α} {l l1 : DbList}
    {cs : List (Nat × α)} (ho : Owns h l cs) (ho1 : Owns h1 l1 cs) : l = l1 := by
  cases l with
  | mk a b c =>
    cases l1 with
    | mk a1 b1 c1 =>
      have e1 : a = a1 := by
        have := ho.head
        have := ho1.head
        simp_all
      have e2 : b = b1 := by
        have := ho.tail
        have := ho1.tail
        simp_all
      have e3 : c = c1 := by
        have := ho.size
        have := ho1.size
        simp_all
      rw [e1, e2, e3]

theorem Seg_data {α : Type} (h : Heap α) (cs : List (Nat × α)) :
    ∀ (prv nxt : Nat), Seg h prv cs nxt → ∀ c ∈ cs,
      ∃ n, h c.1 = some n ∧ n.data = c.2 := by
  induction cs with
  | nil =>
    intro prv nxt _ c hc
    simp at hc
  | cons d cs ih =>
    intro prv nxt hs c hc
    rcases List.mem_cons.1 hc with rfl | hc
    · exact ⟨_, hs.1, rfl⟩
    · exact ih d.1 nxt hs.2 c hc

theorem WInv.alloc_iff {α : Type} {w : World α} {R : Nat → List (Nat × α)} (hw : WInv w R)
    (q : Nat) : (w.heap q).isSome = true ↔ ∃ i, q ∈ (R i).map Prod.fst := by
  constructor
  · intro hq
    obtain ⟨n, hn⟩ := Option.isSome_iff_exists.1 hq
    exact hw.live q n hn
  · rintro ⟨i, hi⟩
    obtain ⟨n, hn⟩ := hw.mem_live i q hi
    rw [hn]
    rfl

theorem Seg_cell_unique {α : Type} (h h1 : Heap α) (cs : List (Nat × α)) :
    ∀ (prv nxt : Nat), Seg h prv cs nxt → Seg h1 prv cs nxt → ∀ q ∈ cs.map Prod.fst,
      h q = h1 q := by
  induction cs with
  | nil =>
    intro prv nxt _ _ q hq
    simp at hq
  | cons d cs ih =>
    intro prv nxt hs hs1 q hq
    by_cases hqd : q = d.1
    · rw [hqd, hs.1, hs1.1]
    · rcases List.mem_cons.1 hq with hq | hq
      · exact absurd hq hqd
      · exact ih d.1 nxt hs.2 hs1.2 q hq

theorem WInv.state_unique {α : Type} {w w1 : World α} {R : Nat → List (Nat × α)}
    (hw : WInv w R) (hw1 : WInv w1 R)
    (hobj : ∀ i, (w.objs i).isSome = (w1.objs i).isSome) : w = w1 := by
  have hheap : w.heap = w1.heap := by
    funext q
    by_cases hq : ∃ i, q ∈ (R i).map Prod.fst
    · obtain ⟨i, hi⟩ := hq
      cases ho : w.objs i with
      | none =>
        rw [hw.unused i ho] at hi
        simp at hi
      | some l =>
        cases ho1 : w1.objs i with
        | none =>
          rw [hw1.unused i ho1] at hi
          simp at hi
        | some l1 =>
          exact Seg_cell_unique w.heap w1.heap (R i) 0 0 (hw.owns i l ho).seg
            (hw1.owns i l1 ho1).seg q hi
    · have h1 : w.heap q = none := by
        cases hc : w.heap q with
        | none => rfl
        | some n => exact absurd (hw.live q n hc) hq
      have h2 : w1.heap q = none := by
        cases hc : w1.heap q with
        | none => rfl
        | some n => exact absurd (hw1.live q n hc) hq
      rw [h1, h2]
  have hobjs : w.objs = w1.objs := by
    funext i
    have := hobj i
    cases ho : w.objs i with
    | none =>
      cases ho1 : w1.objs i with
      | none => rfl
      | some l1 =>
        rw [ho, ho1] at this
        cases this
    | some l =>
      cases ho1 : w1.objs i with
      | none =>
        rw [ho, ho1] at this
        cases this
      | some l1 =>
        rw [(hw.owns i l ho).header_unique (hw1.owns i l1 ho1)]
  cases w with
  | mk a b =>
    cases w1 with
    | mk a1 b1 =>
      simp only at hheap hobjs
      rw [hheap, hobjs]

theorem copy_from_fault {α : Type} (A : Allocator α) (rest : List (Nat × α)) :
    ∀ (fuel : Nat) (w : World α) (R : Nat → List (Nat × α)) (this other : Nat)
      (pre : List (Nat × α)) (lt lo : DbList),
      WInv w R → this ≠ other → w.objs this = some lt → w.objs other = some lo →
      R other = pre ++ rest → rest.length < fuel →
      ∀ e wf, copy_from A fuel w this ⟨firstOr 0 rest⟩ ⟨0⟩ = .error (e, wf) →
        e = .bad_alloc ∧ A.allocate wf.heap = none ∧
        ∃ Rf lf k, WInv wf Rf ∧ wf.objs this = some lf ∧
          (∀ j, j ≠ this → Rf j = R j ∧ wf.objs j = w.objs j) ∧ k < rest.length ∧
          (Rf this).map Prod.snd = (R this).map Prod.snd ++ (rest.take k).map Prod.snd := by
  induction rest with
  | nil =>
    intro fuel w R this other pre lt lo hw _ hlt _ _ hf e wf hr
    obtain ⟨f, rfl⟩ : ∃ f, fuel = f + 1 := ⟨fuel - 1, by simp at hf; omega⟩
    simp [copy_from, firstOr_nil, Iterator.ne] at hr
  | cons c rest ih =>
    intro fuel w R this other pre lt lo hw hne hlt hlo hR hf e wf hr
    obtain ⟨f, rfl⟩ : ∃ f, fuel = f + 1 := ⟨fuel - 1, by simp at hf; omega⟩
    have hoo := hw.owns other lo hlo
    rw [hR] at hoo
    have hseg := (Seg_append w.heap 0 0 pre (c :: rest)).1 hoo.seg
    have hcell : w.heap c.1 = some ⟨c.2, lastOr 0 pre, firstOr 0 rest⟩ := hseg.2.1
    have hc0 : c.1 ≠ 0 := hoo.ne_zero c (by simp)
    have hcm : c.1 ∈ (R other).map Prod.fst := by rw [hR]; simp
    cases ha : A.allocate w.heap with
    | none =>
      have hstep : copy_from A (f + 1) w this ⟨firstOr 0 (c :: rest)⟩ ⟨0⟩ =
          .error (.bad_alloc, w) := by
        simp [copy_from, firstOr_cons, Iterator.ne, hc0, Iterator.deref, Heap.read, hcell,
          World.invoke, hlt, DbList.push_back, ha, World.set_same w this lt hlt]
      rw [hstep] at hr
      cases hr
      exact ⟨rfl, ha, R, lt, 0, hw, hlt, fun _ _ => ⟨rfl, rfl⟩, by simp, by simp⟩
    | some p =>
      obtain ⟨w1, l1, e1, -, hw1, hl1, hoth, hfr⟩ := invoke_effect w R this lt
        (DbList.push_back A c.2) (R this ++ [(p, c.2)]) hw hlt
        (push_back_effect A c.2 w.heap lt (R this) p (hw.owns this lt hlt) ha)
      have hph := (A.fresh w.heap p ha).2.2
      have hcell1 : w1.heap c.1 = some ⟨c.2, lastOr 0 pre, firstOr 0 rest⟩ := by
        rw [hfr c.1 (hw.disj other this (fun e => hne e.symm) c.1 hcm) (by
          rw [List.map_append, List.mem_append]
          rintro (h1 | h1)
          · exact hw.disj other this (fun e => hne e.symm) c.1 hcm h1
          · simp at h1
            rw [h1, hph] at hcell
            cases hcell)]
        exact hcell
      have hR1 : Function.update R this (R this ++ [(p, c.2)]) other = (pre ++ [c]) ++ rest := by
        rw [Function.update_noteq (fun e => hne e.symm), hR]
        simp
      have hlo1 : w1.objs other = some lo := by
        rw [hoth other (fun e => hne e.symm)]
        exact hlo
      have hstep : copy_from A (f + 1) w this ⟨firstOr 0 (c :: rest)⟩ ⟨0⟩ =
          copy_from A f w1 this ⟨firstOr 0 rest⟩ ⟨0⟩ := by
        simp [copy_from, firstOr_cons, Iterator.ne, hc0, Iterator.deref, Heap.read, hcell,
          e1, Iterator.inc, hcell1]
      rw [hstep] at hr
      obtain ⟨he, hal, Rf, lf, k, hwf, hlf, hothf, hk, hval⟩ :=
        ih f w1 _ this other (pre ++ [c]) l1 lo hw1 hne hl1 hlo1 hR1
          (by simp at hf; omega) e wf hr
      refine ⟨he, hal, Rf, lf, k + 1, hwf, hlf, ?_, by simp; omega, ?_⟩
      · intro j hj
        rw [(hothf j hj).1, (hothf j hj).2, Function.update_noteq hj, hoth j hj]
        exact ⟨rfl, rfl⟩
      · rw [hval, Function.update_same]
        simp

theorem copy_assign_fault {α : Type} (A : Allocator α) (fuel : Nat) (w : World α)
    (R : Nat → List (Nat × α)) (this other : Nat) (lt lo : DbList) (hw : WInv w R)
    (hne : this ≠ other) (hlt : w.objs this = some lt) (hlo : w.objs other = some lo)
    (hf1 : lt.size < fuel) (hf2 : lo.size < fuel) (e : Fault) (wf : World α)
    (hr : w.copy_assign A fuel this other = .error (e, wf)) :
    e = .bad_alloc ∧ A.allocate wf.heap = none ∧
    ∃ Rf lf k, WInv wf Rf ∧ wf.objs this = some lf ∧
      (∀ j, j ≠ this → Rf j = R j ∧ wf.objs j = w.objs j) ∧ k < (R other).length ∧
      (Rf this).map Prod.snd = ((R other).take k).map Prod.snd := by
  have heo : other ≠ this := fun e => hne e.symm
  obtain ⟨w0, e0, hw0, hl0, hoth0, -⟩ := world_clear fuel w R this lt hw hlt hf1
  have hlo0 : w0.objs other = some lo := by rw [hoth0 other heo]; exact hlo
  have hoo := hw.owns other lo hlo
  have hR0 : Function.update R this [] other = [] ++ R other := by
    rw [Function.update_noteq heo]
    rfl
  have hstep : w.copy_assign A fuel this other =
      copy_from A fuel w0 this ⟨firstOr 0 (R other)⟩ ⟨0⟩ := by
    simp [World.copy_assign, hne, e0, hlo0, DbList.begin, DbList.end, hoo.head]
  rw [hstep] at hr
  obtain ⟨he, hal, Rf, lf, k, hwf, hlf, hothf, hk, hval⟩ :=
    copy_from_fault A (R other) fuel w0 _ this other [] _ lo hw0 hne hl0 hlo0 hR0
      (by rw [← hoo.size]; exact hf2) e wf hr
  refine ⟨he, hal, Rf, lf, k, hwf, hlf, ?_, hk, ?_⟩
  · intro j hj
    rw [(hothf j hj).1, (hothf j hj).2, Function.update_noteq hj, hoth0 j hj]
    exact ⟨rfl, rfl⟩
  · rw [hval, Function.update_same]
    simp

theorem alloc_after {α : Type} {w w1 : World α} {R : Nat → List (Nat × α)} {i : Nat}
    {cs1 : List (Nat × α)} (hw : WInv w R) (hw1 : WInv w1 (Function.update R i cs1))
    (q : Nat) :
    (w1.heap q).isSome = true ↔
      (q ∈ cs1.map Prod.fst ∨ (q ∉ (R i).map Prod.fst ∧ (w.heap q).isSome = true)) := by
  rw [hw1.alloc_iff q, hw.alloc_iff q]
  constructor
  · rintro ⟨j, hj⟩
    by_cases hji : j = i
    · subst hji
      rw [Function.update_same] at hj
      exact Or.inl hj
    · rw [Function.update_noteq hji] at hj
      exact Or.inr ⟨hw.disj j i hji q hj, j, hj⟩
  · rintro (h1 | ⟨h1, j, hj⟩)
    · exact ⟨i, by rw [Function.update_same]; exact h1⟩
    · have hji : j ≠ i := by
        rintro rfl
        exact h1 hj
      exact ⟨j, by rw [Function.update_noteq hji]; exact hj⟩

theorem isSome_eq_of_iff {α : Type} (a b : Option α)
    (h : a.isSome = true ↔ b.isSome = true) : a.isSome = b.isSome := by
  cases a <;> cases b <;> simp_all

theorem eq_none_of_not_isSome {α : Type} (a : Option α) (h : ¬ a.isSome = true) :
    a = none := by
  cases a <;> simp_all

theorem inv_nodes_eq {α : Type} (w : World α) (R : Nat → List (Nat × α)) (i : Nat)
    (l : DbList) (qs : List Nat) (hw : WInv w R) (hl : w.objs i = some l)
    (hq : w.nodes (l.size + 1) i = .ok qs) : qs = (R i).map Prod.fst := by
  rw [inv_nodes w R i l hw hl (l.size + 1) (by omega)] at hq
  cases hq
  rfl

theorem Owns.chain_ends {α : Type} {h : Heap α} {l : DbList} {cs : List (Nat × α)}
    (ho : Owns h l cs) (hne : cs ≠ []) :
    cs.map Prod.fst = (cs.map Prod.fst).dropLast ++ [l.tail_] ∧
      cs.map Prod.fst = l.head_ :: (cs.map Prod.fst).tail := by
  constructor
  · rcases snoc_cases cs with h0 | ⟨xs, c, rfl⟩
    · exact absurd h0 hne
    · rw [ho.tail, lastOr_append, List.map_append]
      simp [lastOr]
  · obtain ⟨c, cs1, rfl⟩ := List.exists_cons_of_ne_nil hne
    rw [ho.head]
    rfl

theorem shrink_alloc {α : Type} {w w1 : World α} {R : Nat → List (Nat × α)} {i : Nat}
    {cs1 : List (Nat × α)} (hw : WInv w R) (hw1 : WInv w1 (Function.update R i cs1))
    (hsub : ∀ q ∈ cs1.map Prod.fst, q ∈ (R i).map Prod.fst) :
    (∀ q ∈ (R i).map Prod.fst, q ∉ cs1.map Prod.fst → w1.heap q = none) ∧
    (∀ q, q ∉ (R i).map Prod.fst ∨ q ∈ cs1.map Prod.fst →
      (w1.heap q).isSome = (w.heap q).isSome) := by
  refine ⟨?_, ?_⟩
  · intro q hq hq1
    apply eq_none_of_not_isSome
    rw [alloc_after hw hw1 q]
    rintro (h | ⟨h, -⟩)
    · exact hq1 h
    · exact h hq
  · intro q hq
    apply isSome_eq_of_iff
    rw [alloc_after hw hw1 q]
    constructor
    · rintro (h | ⟨-, h⟩)
      · exact (hw.alloc_iff q).2 ⟨i, hsub q h⟩
      · exact h
    · intro h
      rcases hq with hq | hq
      · exact Or.inr ⟨hq, h⟩
      · exact Or.inl hq

theorem grow_alloc {α : Type} {w w1 : World α} {R : Nat → List (Nat × α)} {i p : Nat}
    {cs1 : List (Nat × α)} (hw : WInv w R) (hw1 : WInv w1 (Function.update R i cs1))
    (hmem : ∀ q, q ∈ cs1.map Prod.fst ↔ q = p ∨ q ∈ (R i).map Prod.fst) :
    (w1.heap p).isSome = true ∧
      ∀ q, q ≠ p → (w1.heap q).isSome = (w.heap q).isSome := by
  refine ⟨?_, ?_⟩
  · rw [alloc_after hw hw1 p]
    exact Or.inl ((hmem p).2 (Or.inl rfl))
  · intro q hq
    apply isSome_eq_of_iff
    rw [alloc_after hw hw1 q, hmem q]
    constructor
    · rintro ((h | h) | ⟨-, h⟩)
      · exact absurd h hq
      · exact (hw.alloc_iff q).2 ⟨i, h⟩
      · exact h
    · intro h
      by_cases hqi : q ∈ (R i).map Prod.fst
      · exact Or.inl (Or.inr hqi)
      · exact Or.inr ⟨hqi, h⟩

theorem stable_cell {α : Type} (w1 : World α) (R1 : Nat → List (Nat × α)) (i : Nat)
    (l1 : DbList) (c : Nat × α) (hw1 : WInv w1 R1) (hl1 : w1.objs i = some l1)
    (hc : c ∈ R1 i) :
    Iterator.deref w1.heap ⟨c.1⟩ = .ok c.2 ∧
      ∃ ps1, w1.nodes (l1.size + 1) i = .ok ps1 ∧ c.1 ∈ ps1 := by
  have ho := hw1.owns i l1 hl1
  obtain ⟨n, hn, hd⟩ := Seg_data w1.heap (R1 i) 0 0 ho.seg c hc
  have hc0 := ho.ne_zero c hc
  refine ⟨by simp [Iterator.deref, Heap.read, hc0, hn, hd], (R1 i).map Prod.fst,
    inv_nodes w1 R1 i l1 hw1 hl1 (l1.size + 1) (by omega), List.mem_map_of_mem _ hc⟩

theorem mem_dropLast_of_ne {α : Type} (cs : List (Nat × α)) (c : Nat × α) (hc : c ∈ cs)
    (hne : c.1 ≠ lastOr 0 cs) : c ∈ cs.dropLast := by
  rcases snoc_cases cs with rfl | ⟨xs, d, rfl⟩
  · simp at hc
  · rw [List.dropLast_concat]
    rw [lastOr_append] at hne
    rcases List.mem_append.1 hc with h | h
    · exact h
    · simp at h
      subst h
      exact absurd rfl hne

theorem mem_tail_of_ne {α : Type} (cs : List (Nat × α)) (c : Nat × α) (hc : c ∈ cs)
    (hne : c.1 ≠ firstOr 0 cs) : c ∈ cs.tail := by
  cases cs with
  | nil => simp at hc
  | cons d cs =>
    rcases List.mem_cons.1 hc with h | h
    · subst h
      exact absurd rfl hne
    · exact h

theorem walk_next_spec {α : Type} (h : Heap α) (xs : List (Nat × α)) :
    ∀ (prv nxt : Nat) (ys : List (Nat × α)), Seg h prv (xs ++ ys) nxt →
      (∀ c ∈ xs, c.1 ≠ 0) →
      walk_next h xs.length (firstOr nxt (xs ++ ys)) = .ok (firstOr nxt ys) := by
  induction xs with
  | nil =>
    intro prv nxt ys _ _
    rfl
  | cons x xs ih =>
    intro prv nxt ys hs h0
    have hx0 : x.1 ≠ 0 := h0 x (List.mem_cons_self _ _)
    have hcell : h x.1 = some ⟨x.2, prv, firstOr nxt (xs ++ ys)⟩ := hs.1
    have e := ih x.1 nxt ys hs.2 (fun c hc => h0 c (List.mem_cons_of_mem _ hc))
    simp [walk_next, firstOr_cons, Heap.read, hx0, hcell, e]

theorem walk_next_idx {α : Type} (h : Heap α) (cs : List (Nat × α)) :
    ∀ (prv nxt k q : Nat), Seg h prv cs nxt → (∀ c ∈ cs, c.1 ≠ 0) →
      (cs.map Prod.fst)[k]? = some q → walk_next h k (firstOr nxt cs) = .ok q := by
  induction cs with
  | nil =>
    intro prv nxt k q _ _ hk
    simp at hk
  | cons c cs ih =>
    intro prv nxt k q hs h0 hk
    cases k with
    | zero =>
      simp at hk
      simp [walk_next, firstOr_cons, hk]
    | succ k =>
      simp at hk
      have hc0 : c.1 ≠ 0 := h0 c (List.mem_cons_self _ _)
      have hcell : h c.1 = some ⟨c.2, prv, firstOr nxt cs⟩ := hs.1
      have e := ih c.1 nxt k q hs.2 (fun d hd => h0 d (List.mem_cons_of_mem _ hd))
        (by simpa using hk)
      simp [walk_next, firstOr_cons, Heap.read, hc0, hcell, e]

theorem walk_prev_spec {α : Type} (h : Heap α) (ys : List (Nat × α)) :
    ∀ (prv nxt : Nat) (xs : List (Nat × α)), Seg h prv (xs ++ ys) nxt →
      (∀ c ∈ ys, c.1 ≠ 0) →
      walk_prev h ys.length (lastOr prv (xs ++ ys)) = .ok (lastOr prv xs) := by
  induction ys using List.reverseRecOn with
  | nil =>
    intro prv nxt xs _ _
    simp [walk_prev]
  | append_singleton ys y ih =>
    intro prv nxt xs hs h0
    have hy0 : y.1 ≠ 0 := h0 y (by simp)
    rw [← List.append_assoc] at hs
    have hseg := (Seg_append h prv nxt (xs ++ ys) [y]).1 hs
    have hcell : h y.1 = some ⟨y.2, lastOr prv (xs ++ ys), nxt⟩ := hseg.2.1
    have e := ih prv _ xs hseg.1 (fun c hc => h0 c (by simp [hc]))
    have hl : lastOr prv (xs ++ (ys ++ [y])) = y.1 := by
      rw [← List.append_assoc, lastOr_append]
      rfl
    rw [hl]
    simp [walk_prev, Heap.read, hy0, hcell, e]

theorem walk_prev_idx {α : Type} (h : Heap α) (cs : List (Nat × α)) :
    ∀ (nxt k q : Nat), Seg h 0 cs nxt → (∀ c ∈ cs, c.1 ≠ 0) →
      (cs.map Prod.fst).reverse[k]? = some q → walk_prev h k (lastOr 0 cs) = .ok q := by
  induction cs using List.reverseRecOn with
  | nil =>
    intro nxt k q _ _ hk
    simp at hk
  | append_singleton cs c ih =>
    intro nxt k q hs h0 hk
    have hseg := (Seg_append h 0 nxt cs [c]).1 hs
    have hcell : h c.1 = some ⟨c.2, lastOr 0 cs, nxt⟩ := hseg.2.1
    have hc0 : c.1 ≠ 0 := h0 c (by simp)
    have hl : lastOr 0 (cs ++ [c]) = c.1 := by
      rw [lastOr_append]
      rfl
    rw [hl]
    rw [List.map_append, List.reverse_append] at hk
    cases k with
    | zero =>
      simp at hk
      simp [walk_prev, hk]
    | succ k =>
      simp at hk
      have e := ih _ k q hseg.1 (fun d hd => h0 d (by simp [hd])) (by simpa using hk)
      simp [walk_prev, Heap.read, hc0, hcell, e]

theorem rchain_spec {α : Type} (h : Heap α) (cs : List (Nat × α)) :
    ∀ (nxt fuel : Nat), Seg h 0 cs nxt → (∀ c ∈ cs, c.1 ≠ 0) → cs.length < fuel →
      rchain h fuel (lastOr 0 cs) = .ok (cs.map Prod.fst).reverse := by
  induction cs using List.reverseRecOn with
  | nil =>
    intro nxt fuel _ _ hf
    obtain ⟨f, rfl⟩ : ∃ f, fuel = f + 1 := ⟨fuel - 1, by simp at hf; omega⟩
    simp [rchain, lastOr]
  | append_singleton cs c ih =>
    intro nxt fuel hs h0 hf
    obtain ⟨f, rfl⟩ : ∃ f, fuel = f + 1 := ⟨fuel - 1, by simp at hf; omega⟩
    have hseg := (Seg_append h 0 nxt cs [c]).1 hs
    have hcell : h c.1 = some ⟨c.2, lastOr 0 cs, nxt⟩ := hseg.2.1
    have hc0 : c.1 ≠ 0 := h0 c (by simp)
    have hl : lastOr 0 (cs ++ [c]) = c.1 := by
      rw [lastOr_append]
      rfl
    have e := ih _ f hseg.1 (fun d hd => h0 d (by simp [hd])) (by simp at hf; omega)
    rw [hl]
    simp [rchain, Heap.read, hc0, hcell, e]

theorem Seg_links {α : Type} (h : Heap α) (cs : List (Nat × α)) (hs : Seg h 0 cs 0)
    (c : Nat × α) (hc : c ∈ cs) (node : Node α) (hn : h c.1 = some node) :
    (node.next ≠ 0 → ∃ m, h node.next = some m ∧ m.prev = c.1) ∧
    (node.prev ≠ 0 → ∃ m, h node.prev = some m ∧ m.next = c.1) := by
  obtain ⟨xs, ys, rfl⟩ := List.append_of_mem hc
  have hseg := (Seg_append h 0 0 xs (c :: ys)).1 hs
  have hcell : h c.1 = some ⟨c.2, lastOr 0 xs, firstOr 0 ys⟩ := hseg.2.1
  rw [hn] at hcell
  have hnode := Option.some.inj hcell
  subst hnode
  refine ⟨?_, ?_⟩
  · intro hnx
    cases ys with
    | nil => exact absurd rfl hnx
    | cons d ys => exact ⟨_, hseg.2.2.1, rfl⟩
  · intro hpv
    rcases snoc_cases xs with rfl | ⟨xs1, d, rfl⟩
    · exact absurd rfl hpv
    · have hseg1 := (Seg_append h 0 (firstOr 0 (c :: ys)) xs1 [d]).1 hseg.1
      have hl : lastOr 0 (xs1 ++ [d]) = d.1 := by
        rw [lastOr_append]
        rfl
      show ∃ m, h (lastOr 0 (xs1 ++ [d])) = some m ∧ m.next = c.1
      rw [hl]
      exact ⟨_, hseg1.2.1, rfl⟩

theorem fault_state_heap {α : Type} {w wf : World α} {R Rf : Nat → List (Nat × α)}
    {i : Nat} (hw : WInv w R) (hwf : WInv wf Rf)
    (hoth : ∀ j, j ≠ i → Rf j = R j ∧ wf.objs j = w.objs j) :
    (∀ q, q ∈ (R i).map Prod.fst → q ∉ (Rf i).map Prod.fst → wf.heap q = none) ∧
    (∀ q, q ∉ (R i).map Prod.fst → q ∉ (Rf i).map Prod.fst → wf.heap q = w.heap q) ∧
    (∀ j, j ≠ i → ∀ q ∈ (R j).map Prod.fst,
      wf.heap q = w.heap q ∧ q ∉ (Rf i).map Prod.fst) := by
  have h3 : ∀ j, j ≠ i → ∀ q ∈ (R j).map Prod.fst,
      wf.heap q = w.heap q ∧ q ∉ (Rf i).map Prod.fst := by
    intro j hj q hq
    refine ⟨?_, ?_⟩
    · cases hoj : w.objs j with
      | none =>
        rw [hw.unused j hoj] at hq
        simp at hq
      | some lj =>
        have hojf : wf.objs j = some lj := by rw [(hoth j hj).2]; exact hoj
        have hsf := (hwf.owns j lj hojf).seg
        rw [(hoth j hj).1] at hsf
        exact (Seg_cell_unique w.heap wf.heap (R j) 0 0 (hw.owns j lj hoj).seg hsf q hq).symm
    · apply hwf.disj j i hj q
      rw [(hoth j hj).1]
      exact hq
  refine ⟨?_, ?_, h3⟩
  · intro q hq hq1
    apply eq_none_of_not_isSome
    rw [hwf.alloc_iff q]
    rintro ⟨j, hj⟩
    by_cases hji : j = i
    · subst hji
      exact hq1 hj
    · rw [(hoth j hji).1] at hj
      exact hw.disj j i hji q hj hq
  · intro q hq hq1
    by_cases hex : ∃ j, j ≠ i ∧ q ∈ (R j).map Prod.fst
    · obtain ⟨j, hj, hqj⟩ := hex
      exact (h3 j hj q hqj).1
    · have e1 : w.heap q = none := by
        apply eq_none_of_not_isSome
        rw [hw.alloc_iff q]
        rintro ⟨j, hj⟩
        by_cases hji : j = i
        · subst hji
          exact hq hj
        · exact hex ⟨j, hji, hj⟩
      have e2 : wf.heap q = none := by
        apply eq_none_of_not_isSome
        rw [hwf.alloc_iff q]
        rintro ⟨j, hj⟩
        by_cases hji : j = i
        · subst hji
          exact hq1 hj
        · rw [(hoth j hji).1] at hj
          exact hex ⟨j, hji, hj⟩
      rw [e1, e2]

theorem inv_rnodes {α : Type} (w : World α) (R : Nat → List (Nat × α)) (i : Nat)
    (l : DbList) (hw : WInv w R) (hl : w.objs i = some l) :
    ∀ fuel, l.size < fuel → w.rnodes fuel i = .ok ((R i).map Prod.fst).reverse := by
  have ho := hw.owns i l hl
  intro fuel hf
  have hrc := rchain_spec w.heap (R i) 0 fuel ho.seg ho.ne_zero
    (by rw [← ho.size]; exact hf)
  simpa [World.rnodes, World.query, hl, ho.tail] using hrc

/-! ## Cursors -/

theorem position_cursor {α : Type} (h : Heap α) (cs : List (Nat × α)) :
    ∀ (prv i : Nat), Seg h prv cs 0 → (∀ c ∈ cs, c.1 ≠ 0) → i ≤ cs.length →
      Iterator.advance h i ⟨firstOr 0 cs⟩ = .ok ⟨((cs.map Prod.fst)[i]?).getD 0⟩ := by
  induction cs with
  | nil =>
    intro prv i _ _ hi
    have : i = 0 := by simpa using hi
    subst this
    rfl
  | cons c cs ih =>
    intro prv i hs h0 hi
    cases i with
    | zero => simp [Iterator.advance, firstOr_cons]
    | succ i =>
      have hc0 : c.1 ≠ 0 := h0 c (List.mem_cons_self _ _)
      have hcell : h c.1 = some ⟨c.2, prv, firstOr 0 cs⟩ := hs.1
      have e := ih c.1 i hs.2 (fun d hd => h0 d (List.mem_cons_of_mem _ hd))
        (by simp at hi; omega)
      simp [Iterator.advance, Iterator.inc, firstOr_cons, Heap.read, hc0, hcell, e]

theorem position_inj (ps : List Nat) (hn : ps.Nodup) (h0 : ∀ p ∈ ps, p ≠ 0) (i j : Nat)
    (hi : i ≤ ps.length) (hj : j ≤ ps.length) :
    ((ps[i]?).getD 0 = (ps[j]?).getD 0 ↔ i = j) ∧ ((ps[i]?).getD 0 = 0 ↔ i = ps.length) := by
  have key : ∀ k, k ≤ ps.length → ((ps[k]?).getD 0 = 0 ↔ k = ps.length) := by
    intro k hk
    by_cases hlt : k < ps.length
    · rw [List.getElem?_eq_getElem hlt]
      have := h0 _ (List.getElem_mem hlt)
      simp only [Option.getD_some]
      constructor
      · intro h
        exact absurd h this
      · intro h
        omega
    · have : k = ps.length := by omega
      rw [List.getElem?_eq_none (by omega)]
      simp [this]
  refine ⟨?_, key i hi⟩
  by_cases hil : i < ps.length
  · by_cases hjl : j < ps.length
    · rw [List.getElem?_eq_getElem hil, List.getElem?_eq_getElem hjl]
      simp only [Option.getD_some]
      exact hn.getElem_inj_iff
    · have hje : j = ps.length := by omega
      have e2 := (key j hj).2 hje
      rw [e2]
      constructor
      · intro h
        have := (key i hi).1 h
        omega
      · intro h
        omega
  · have hie : i = ps.length := by omega
    have e1 := (key i hi).2 hie
    rw [e1]
    constructor
    · intro h
      have := (key j hj).1 h.symm
      omega
    · intro h
      rw [← h]
      exact e1.symm

theorem Machine.set_cursor_same {α : Type} (m : Machine α) (c : Nat) (it : Iterator)
    (hc : m.cursors c = some it) : m.set_cursor c it = m := by
  cases m with
  | mk world cursors =>
    simp only [Machine.set_cursor, Machine.mk.injEq, true_and]
    funext d
    by_cases hd : d = c
    · subst hd
      simp [← hc]
    · simp [hd]

theorem Machine.set_cursor_idem {α : Type} (m : Machine α) (c : Nat) (a b : Iterator) :
    (m.set_cursor c a).set_cursor c b = m.set_cursor c b := by
  simp only [Machine.set_cursor, Machine.mk.injEq, true_and]
  funext d
  by_cases hd : d = c <;> simp [hd]

theorem Machine.traverse_yields {α : Type} (rest : List (Nat × α)) :
    ∀ (fuel : Nat) (m : Machine α) (c e prv : Nat), c ≠ e →
      Seg m.world.heap prv rest 0 → (∀ x ∈ rest, x.1 ≠ 0) →
      m.cursors c = some ⟨firstOr 0 rest⟩ → m.cursors e = some ⟨0⟩ → rest.length < fuel →
      Machine.traverse fuel m c e = .ok (rest.map Prod.snd, m.set_cursor c ⟨0⟩) := by
  induction rest with
  | nil =>
    intro fuel m c e prv _ _ _ hc he hf
    obtain ⟨f, rfl⟩ : ∃ f, fuel = f + 1 := ⟨fuel - 1, by simp at hf; omega⟩
    rw [firstOr_nil] at hc
    simp [Machine.traverse, Machine.ne, hc, he, Iterator.ne, Machine.set_cursor_same m c ⟨0⟩ hc]
  | cons x rest ih =>
    intro fuel m c e prv hce hs h0 hc he hf
    obtain ⟨f, rfl⟩ : ∃ f, fuel = f + 1 := ⟨fuel - 1, by simp at hf; omega⟩
    rw [firstOr_cons] at hc
    have hx0 : x.1 ≠ 0 := h0 x (List.mem_cons_self _ _)
    have hcell : m.world.heap x.1 = some ⟨x.2, prv, firstOr 0 rest⟩ := hs.1
    have hec : e ≠ c := fun h => hce h.symm
    have e1 := ih f (m.set_cursor c ⟨firstOr 0 rest⟩) c e x.1 hce hs.2
      (fun d hd => h0 d (List.mem_cons_of_mem _ hd))
      (by simp [Machine.set_cursor]) (by simp [Machine.set_cursor, hec, he])
      (by simp at hf; omega)
    rw [Machine.set_cursor_idem] at e1
    have hb : (x.1 != 0) = true := by simp [hx0]
    simp [Machine.traverse, Machine.ne, hc, he, Iterator.ne, hx0, hb, Machine.deref,
      Iterator.deref, Heap.read, hcell, Machine.inc, Iterator.inc, e1]

theorem Machine.restart_spec {α : Type} (fuel : Nat) (m : Machine α)
    (R : Nat → List (Nat × α)) (this b1 c e b2 : Nat) (l : DbList)
    (hw : WInv m.world R) (hl : m.world.objs this = some l) (hce : c ≠ e)
    (hf : l.size < fuel) :
    Machine.restart fuel m this b1 c e b2 =
      .ok ((R this).map Prod.snd,
        ((((m.set_cursor b1 l.begin).set_cursor c l.begin).set_cursor e l.end).set_cursor c
          ⟨0⟩).set_cursor b2 l.begin) := by
  have ho := hw.owns this l hl
  have hec : e ≠ c := fun h => hce h.symm
  have h1 : m.begin b1 this = .ok (m.set_cursor b1 l.begin) := by
    simp [Machine.begin, hl]
  have hl1 : (m.set_cursor b1 l.begin).world.objs this = some l := hl
  have h2 : (m.set_cursor b1 l.begin).begin c this =
      .ok ((m.set_cursor b1 l.begin).set_cursor c l.begin) := by
    simp [Machine.begin, hl1]
  have hl2 : ((m.set_cursor b1 l.begin).set_cursor c l.begin).world.objs this = some l := hl
  have h3 : Machine.end ((m.set_cursor b1 l.begin).set_cursor c l.begin) e this =
      .ok (((m.set_cursor b1 l.begin).set_cursor c l.begin).set_cursor e l.end) := by
    simp [Machine.end, hl2]
  have h4 := Machine.traverse_yields (R this) fuel
    (((m.set_cursor b1 l.begin).set_cursor c l.begin).set_cursor e l.end) c e 0 hce ho.seg
    ho.ne_zero
    (by simp [Machine.set_cursor, hce, DbList.begin, ho.head])
    (by simp [Machine.set_cursor, DbList.end])
    (by rw [← ho.size]; exact hf)
  have hl4 : ((((m.set_cursor b1 l.begin).set_cursor c l.begin).set_cursor e l.end).set_cursor
      c ⟨0⟩).world.objs this = some l := hl
  have h5 : ((((m.set_cursor b1 l.begin).set_cursor c l.begin).set_cursor e l.end).set_cursor
      c ⟨0⟩).begin b2 this = .ok (((((m.set_cursor b1 l.begin).set_cursor c l.begin).set_cursor
        e l.end).set_cursor c ⟨0⟩).set_cursor b2 l.begin) := by
    simp [Machine.begin, hl4]
  simp only [Machine.restart, h1, h2, h3, h4, h5]

/-! ## Claims, second part -/

theorem scenario6_reachable : Reachable (arena16 Nat) scenario6 :=
  Reachable.step scenario4 scenario6 scenario4_reachable (Step.move_assign 2 1 0 rfl)

/-- C11: in every reachable state, on a list for which `empty()` holds (its head and tail
are null and its size is 0), `pop_back()` and `pop_front()` return normally and leave the
whole state, and so the list, exactly as it was. -/
theorem pop_on_empty_is_noop {α : Type} (A : Allocator α) (w : World α) (this : Nat)
    (l : DbList) (hr : Reachable A w) (hl : w.objs this = some l)
    (he : l.empty = true) :
    l = ⟨0, 0, 0⟩ ∧ w.invoke this DbList.pop_back = .ok w ∧
      w.invoke this DbList.pop_front = .ok w := by
  obtain ⟨R, hw⟩ := reachable_inv A w hr
  have ho := hw.owns this l hl
  have hnil : R this = [] := (empty_spec w.heap l (R this) ho).1 he
  have hh : l.head_ = 0 := ho.head_eq_zero_iff.2 hnil
  have ht : l.tail_ = 0 := ho.tail_eq_zero_iff.2 hnil
  have hs : l.size_ = 0 := ho.size_eq_zero_iff.2 hnil
  refine ⟨?_, ?_, ?_⟩
  · cases l with
    | mk a b c =>
      simp only at hh ht hs
      rw [hh, ht, hs]
  · simp [World.invoke, hl, DbList.pop_back, ht, World.set_same w this l hl]
  · simp [World.invoke, hl, DbList.pop_front, hh, World.set_same w this l hl]

/-- C11 at a freshly default-constructed list. -/
theorem pop_on_empty_is_noop_witness :
    (Reachable (arena16 Nat) scenario0 ∧ scenario0.objs 0 = some ⟨0, 0, 0⟩ ∧
      DbList.empty ⟨0, 0, 0⟩ = true) ∧
    ((⟨0, 0, 0⟩ : DbList) = ⟨0, 0, 0⟩ ∧ scenario0.invoke 0 DbList.pop_back = .ok scenario0 ∧
      scenario0.invoke 0 DbList.pop_front = .ok scenario0) :=
  ⟨⟨scenario0_reachable, rfl, rfl⟩,
    pop_on_empty_is_noop (arena16 Nat) scenario0 0 ⟨0, 0, 0⟩ scenario0_reachable rfl rfl⟩

/-- C12: in every reachable state, `clear()` on any list returns normally (any loop budget
above `size()` is enough) and leaves head null, tail null and size 0; a `push_back(v)`
right after it either fails with `bad_alloc` or returns a list of size 1 whose head and
tail are one and the same node, not allocated before the push, holding `v` with `prev`
and `next` null. -/
theorem clear_then_push_back {α : Type} (A : Allocator α) (w : World α) (this : Nat)
    (l : DbList) (hr : Reachable A w) (hl : w.objs this = some l) :
    ∀ fuel, l.size < fuel →
      ∃ w1, w.invoke this (DbList.clear fuel) = .ok w1 ∧ w1.objs this = some ⟨0, 0, 0⟩ ∧
        ∀ v, (A.allocate w1.heap = none ∧
            w1.invoke this (DbList.push_back A v) = .error (.bad_alloc, w1)) ∨
          ∃ p w2, A.allocate w1.heap = some p ∧ p ≠ 0 ∧ w1.heap p = none ∧
            w1.invoke this (DbList.push_back A v) = .ok w2 ∧
            w2.objs this = some ⟨p, p, 1⟩ ∧ w2.heap p = some ⟨v, 0, 0⟩ ∧
            ∀ f, 1 < f → w2.to_list f this = .ok [v] := by
  obtain ⟨R, hw⟩ := reachable_inv A w hr
  intro fuel hf
  obtain ⟨w1, e1, hw1, hl1, -, -⟩ := world_clear fuel w R this l hw hl hf
  refine ⟨w1, e1, hl1, fun v => ?_⟩
  rcases world_push_back A w1 _ this _ v hw1 hl1 with herr | ⟨p, w2, l2, ha, e2, hw2, hl2, -⟩
  · exact Or.inl herr
  · right
    have hfr := A.fresh w1.heap p ha
    have ho2 := hw2.owns this l2 hl2
    rw [Function.update_same, Function.update_same] at ho2
    have hl2' : l2 = ⟨p, p, 1⟩ := by
      cases l2 with
      | mk a b c =>
        have h1 : a = p := ho2.head
        have h2 : b = p := ho2.tail
        have h3 : c = 1 := ho2.size
        rw [h1, h2, h3]
    subst hl2'
    refine ⟨p, w2, ha, Nat.pos_iff_ne_zero.1 hfr.1, hfr.2.2, e2, hl2, ho2.seg.1, ?_⟩
    intro f hf1
    have := (inv_to_list w2 _ this _ hw2 hl2).2 f hf1
    rw [Function.update_same, Function.update_same] at this
    exact this

/-- C12 at the scenario list `[0, 1, 2]`. -/
theorem clear_then_push_back_witness :
    (Reachable (arena16 Nat) scenario3 ∧ scenario3.objs 0 = some ⟨3, 2, 3⟩) ∧
    ∀ fuel, DbList.size ⟨3, 2, 3⟩ < fuel →
      ∃ w1, scenario3.invoke 0 (DbList.clear fuel) = .ok w1 ∧
        w1.objs 0 = some ⟨0, 0, 0⟩ ∧
        ∀ v, ((arena16 Nat).allocate w1.heap = none ∧
            w1.invoke 0 (DbList.push_back (arena16 Nat) v) = .error (.bad_alloc, w1)) ∨
          ∃ p w2, (arena16 Nat).allocate w1.heap = some p ∧ p ≠ 0 ∧ w1.heap p = none ∧
            w1.invoke 0 (DbList.push_back (arena16 Nat) v) = .ok w2 ∧
            w2.objs 0 = some ⟨p, p, 1⟩ ∧ w2.heap p = some ⟨v, 0, 0⟩ ∧
            ∀ f, 1 < f → w2.to_list f 0 = .ok [v] :=
  ⟨⟨scenario3_reachable, rfl⟩,
    clear_then_push_back (arena16 Nat) scenario3 0 ⟨3, 2, 3⟩ scenario3_reachable rfl⟩

theorem scenario3_clear_push :
    (World.after (scenario3.invoke 0 (DbList.clear 4))).objs 0 = some ⟨0, 0, 0⟩ ∧
    (World.after ((World.after (scenario3.invoke 0 (DbList.clear 4))).invoke 0
      (DbList.push_back (arena16 Nat) 9))).objs 0 = some ⟨1, 1, 1⟩ :=
  ⟨rfl, rfl⟩

/-- C16: in every reachable state (reached by constructors, destructor, copy and move
assignment, pushes, pops and `clear`), for every list, the moved-from ones included, head
is null iff tail is null iff size is 0. -/
theorem emptiness_invariant {α : Type} (A : Allocator α) (w : World α) (this : Nat)
    (l : DbList) (hr : Reachable A w) (hl : w.objs this = some l) :
    (l.head_ = 0 ↔ l.tail_ = 0) ∧ (l.tail_ = 0 ↔ l.size_ = 0) ∧
      (l.head_ = 0 ↔ l.size_ = 0) := by
  obtain ⟨R, hw⟩ := reachable_inv A w hr
  have ho := hw.owns this l hl
  refine ⟨?_, ?_, ?_⟩
  · rw [ho.head_eq_zero_iff, ho.tail_eq_zero_iff]
  · rw [ho.tail_eq_zero_iff, ho.size_eq_zero_iff]
  · rw [ho.head_eq_zero_iff, ho.size_eq_zero_iff]

/-- C16 at the moved-from source of a move assignment. -/
theorem emptiness_invariant_witness :
    (Reachable (arena16 Nat) scenario6 ∧ scenario6.objs 0 = some ⟨0, 0, 0⟩) ∧
    ((DbList.head_ ⟨0, 0, 0⟩ = 0 ↔ DbList.tail_ ⟨0, 0, 0⟩ = 0) ∧
      (DbList.tail_ ⟨0, 0, 0⟩ = 0 ↔ DbList.size_ ⟨0, 0, 0⟩ = 0) ∧
      (DbList.head_ ⟨0, 0, 0⟩ = 0 ↔ DbList.size_ ⟨0, 0, 0⟩ = 0)) :=
  ⟨⟨scenario6_reachable, rfl⟩,
    emptiness_invariant (arena16 Nat) scenario6 0 ⟨0, 0, 0⟩ scenario6_reachable rfl⟩

/-- C20: in every reachable state, for every list, `begin() == end()` holds iff `empty()`
holds; on a non-empty list dereferencing `begin()` returns normally the element that
`front()` returns. -/
theorem begin_is_end_iff_empty {α : Type} (A : Allocator α) (w : World α) (this : Nat)
    (l : DbList) (hr : Reachable A w) (hl : w.objs this = some l) :
    (l.begin.eq l.end = true ↔ l.empty = true) ∧
    (l.begin.ne l.end = true ↔ l.empty = false) ∧
    (l.empty = false →
      ∃ x, l.begin.deref w.heap = .ok x ∧ w.query this DbList.front = .ok x) := by
  obtain ⟨R, hw⟩ := reachable_inv A w hr
  have ho := hw.owns this l hl
  have h1 : l.begin.eq l.end = true ↔ l.empty = true := by
    simp only [Iterator.eq, DbList.begin, DbList.end, DbList.empty, beq_iff_eq]
    rw [ho.head_eq_zero_iff, ho.size_eq_zero_iff]
  refine ⟨h1, ?_, ?_⟩
  · have : l.begin.ne l.end = !(l.begin.eq l.end) := rfl
    rw [this]
    cases hb : l.begin.eq l.end <;> cases he : l.empty <;> simp_all
  · intro he
    have hnil : R this ≠ [] := by
      intro h
      have := (empty_spec w.heap l (R this) ho).2 h
      rw [he] at this
      cases this
    obtain ⟨c, cs, hc⟩ := List.exists_cons_of_ne_nil hnil
    have hf : DbList.front w.heap l = .ok c.2 := front_spec w.heap l c cs (hc ▸ ho)
    have hseg := ho.seg
    rw [hc] at hseg
    have hc0 := ho.ne_zero c (by rw [hc]; simp)
    have hh : l.head_ = c.1 := by rw [ho.head, hc]; rfl
    refine ⟨c.2, ?_, ?_⟩
    · simp [Iterator.deref, DbList.begin, hh, Heap.read, hc0, hseg.1]
    · simp [World.query, hl, hf]

/-- C20 at the scenario list `[0, 1, 2]`. -/
theorem begin_is_end_iff_empty_witness :
    (Reachable (arena16 Nat) scenario3 ∧ scenario3.objs 0 = some ⟨3, 2, 3⟩) ∧
    ((DbList.begin ⟨3, 2, 3⟩).eq (DbList.end ⟨3, 2, 3⟩) = true ↔
      DbList.empty ⟨3, 2, 3⟩ = true) ∧
    ((DbList.begin ⟨3, 2, 3⟩).ne (DbList.end ⟨3, 2, 3⟩) = true ↔
      DbList.empty ⟨3, 2, 3⟩ = false) ∧
    (DbList.empty ⟨3, 2, 3⟩ = false →
      ∃ x, (DbList.begin ⟨3, 2, 3⟩).deref scenario3.heap = .ok x ∧
        scenario3.query 0 DbList.front = .ok x) :=
  ⟨⟨scenario3_reachable, rfl⟩,
    begin_is_end_iff_empty (arena16 Nat) scenario3 0 ⟨3, 2, 3⟩ scenario3_reachable rfl⟩

theorem tight4_reachable : Reachable (arena4 Nat) tight4 :=
  Reachable.step tight3 tight4
    (Reachable.step tight2 tight3
      (Reachable.step tight1 tight2
        (Reachable.step tight0 tight1
          (Reachable.step (World.init.construct 0) tight0
            (Reachable.step World.init (World.init.construct 0) Reachable.init
              (Step.construct 0 rfl))
            (Step.construct 1 rfl))
          (Step.push_back 0 0 rfl))
        (Step.push_back 0 1 rfl))
      (Step.push_back 0 2 rfl))
    (Step.push_back 1 7 rfl)

/-- C13 fails for copy assignment: with the lists `[0, 1, 2]` (slot 0) and `[7]` (slot 1)
and an allocator that has all four of its nodes in use, copy-assigning slot 0 to slot 1
throws `bad_alloc` and leaves slot 1 holding `[0]` instead of `[7]`. -/
theorem copy_assign_failure_not_atomic :
    Reachable (arena4 Nat) tight4 ∧ tight4.to_list 5 0 = .ok [0, 1, 2] ∧
    tight4.to_list 5 1 = .ok [7] ∧
    ∃ wf, tight4.copy_assign (arena4 Nat) 5 1 0 = .error (.bad_alloc, wf) ∧
      wf.to_list 5 1 = .ok [0] :=
  ⟨tight4_reachable, rfl, rfl, _, rfl, rfl⟩

/-- C13, amended: in every reachable state, if the allocation fails in `push_back` or
`push_front`, `bad_alloc` propagates and the whole state, hence the list's head, tail,
size and traversal, is what it was before the call. A copy assignment to a distinct list
that does not return normally throws `bad_alloc` from a failed allocation. In the state it
leaves: the source list has its header, its chain `src` and every cell of it unchanged;
the target is a well-formed list (head null iff tail null iff size 0, a chain `new` of
`k` distinct allocated nodes whose `prev`-walk is its reverse) holding the first `k`
elements of the source, `k` smaller than the size of the source; every node of the
target's former chain `old` is freed unless it was allocated again for `new`; every other
cell is as before, so no node is leaked; and the state satisfies the invariant `WInv` of
reachable states. -/
theorem allocation_failure_effects {α : Type} (A : Allocator α) (w : World α)
    (this : Nat) (l : DbList) (hr : Reachable A w) (hl : w.objs this = some l) :
    (∀ v, A.allocate w.heap = none →
      w.invoke this (DbList.push_back A v) = .error (.bad_alloc, w) ∧
      w.invoke this (DbList.push_front A v) = .error (.bad_alloc, w)) ∧
    (∀ other lo fuel e wf, this ≠ other → w.objs other = some lo →
      l.size < fuel → lo.size < fuel →
      w.copy_assign A fuel this other = .error (e, wf) →
      e = .bad_alloc ∧ A.allocate wf.heap = none ∧ wf.objs other = some lo ∧
      (∃ Rf, WInv wf Rf) ∧
      ∃ (s : List α) (k : Nat) (lf : DbList) (old new src : List Nat), k < s.length ∧
        wf.objs this = some lf ∧ lf.size = k ∧
        (lf.head_ = 0 ↔ lf.tail_ = 0) ∧ (lf.tail_ = 0 ↔ lf.size_ = 0) ∧
        new.Nodup ∧ new.length = k ∧
        (∀ f, l.size < f → w.nodes f this = .ok old) ∧
        (∀ f, lo.size < f → w.nodes f other = .ok src ∧ wf.nodes f other = .ok src ∧
          wf.nodes f this = .ok new ∧ wf.rnodes f this = .ok new.reverse ∧
          w.to_list f other = .ok s ∧ wf.to_list f other = .ok s ∧
          wf.to_list f this = .ok (s.take k)) ∧
        (∀ q ∈ src, wf.heap q = w.heap q ∧ q ∉ new) ∧
        (∀ q ∈ new, (wf.heap q).isSome = true) ∧
        (∀ q ∈ old, q ∉ new → wf.heap q = none) ∧
        (∀ q, q ∉ old → q ∉ new → wf.heap q = w.heap q)) := by
  obtain ⟨R, hw⟩ := reachable_inv A w hr
  refine ⟨?_, ?_⟩
  · intro v ha
    refine ⟨?_, ?_⟩
    · rcases world_push_back A w R this l v hw hl with ⟨-, herr⟩ | ⟨p, -, -, hp, -⟩
      · exact herr
      · rw [ha] at hp
        cases hp
    · rcases world_push_front A w R this l v hw hl with ⟨-, herr⟩ | ⟨p, -, -, hp, -⟩
      · exact herr
      · rw [ha] at hp
        cases hp
  · intro other lo fuel e wf hne hlo hf1 hf2 hcopy
    obtain ⟨he, hal, Rf, lf, k, hwf, hlf, hoth, hk, hval⟩ :=
      copy_assign_fault A fuel w R this other l lo hw hne hl hlo hf1 hf2 e wf hcopy
    have heo : other ≠ this := fun e => hne e.symm
    have hlof : wf.objs other = some lo := by rw [(hoth other heo).2]; exact hlo
    have hRo : Rf other = R other := (hoth other heo).1
    obtain ⟨hsz, htl⟩ := inv_to_list w R other lo hw hlo
    obtain ⟨-, htlo⟩ := inv_to_list wf Rf other lo hwf hlof
    obtain ⟨hszf, htlf⟩ := inv_to_list wf Rf this lf hwf hlf
    have hof := hwf.owns this lf hlf
    have hlen : (Rf this).length = k := by
      have hc := congrArg List.length hval
      simp at hc
      omega
    have hkf : lf.size = k := by rw [hszf, hlen]
    obtain ⟨g1, g2, g3⟩ := fault_state_heap hw hwf hoth
    refine ⟨he, hal, hlof, ⟨Rf, hwf⟩, (R other).map Prod.snd, k, lf,
      (R this).map Prod.fst, (Rf this).map Prod.fst, (R other).map Prod.fst,
      by simpa using hk, hlf, hkf, ?_, ?_, hof.nodup, by rw [List.length_map, hlen],
      inv_nodes w R this l hw hl, ?_, g3 other heo, ?_, g1, g2⟩
    · rw [hof.head_eq_zero_iff, hof.tail_eq_zero_iff]
    · rw [hof.tail_eq_zero_iff, hof.size_eq_zero_iff]
    · intro f hf
      have hfk : lf.size < f := by
        rw [hkf]
        have : k < lo.size := by rw [hsz]; exact hk
        omega
      refine ⟨inv_nodes w R other lo hw hlo f hf, ?_, inv_nodes wf Rf this lf hwf hlf f hfk,
        inv_rnodes wf Rf this lf hwf hlf f hfk, htl f hf, ?_, ?_⟩
      · rw [← hRo]
        exact inv_nodes wf Rf other lo hwf hlof f hf
      · rw [← hRo]
        exact htlo f hf
      · rw [htlf f hfk, hval, List.map_take]
    · intro q hq
      exact (hwf.alloc_iff q).2 ⟨this, hq⟩

/-- C13, amended, at the list `[7]` of the nearly exhausted allocator scenario. -/
theorem allocation_failure_effects_witness :
    (Reachable (arena4 Nat) tight4 ∧ tight4.objs 1 = some ⟨4, 4, 1⟩) ∧
    (∀ v, (arena4 Nat).allocate tight4.heap = none →
      tight4.invoke 1 (DbList.push_back (arena4 Nat) v) = .error (.bad_alloc, tight4) ∧
      tight4.invoke 1 (DbList.push_front (arena4 Nat) v) = .error (.bad_alloc, tight4)) ∧
    (∀ other lo fuel e wf, 1 ≠ other → tight4.objs other = some lo →
      DbList.size ⟨4, 4, 1⟩ < fuel → lo.size < fuel →
      tight4.copy_assign (arena4 Nat) fuel 1 other = .error (e, wf) →
      e = .bad_alloc ∧ (arena4 Nat).allocate wf.heap = none ∧ wf.objs other = some lo ∧
      (∃ Rf, WInv wf Rf) ∧
      ∃ (s : List Nat) (k : Nat) (lf : DbList) (old new src : List Nat), k < s.length ∧
        wf.objs 1 = some lf ∧ lf.size = k ∧
        (lf.head_ = 0 ↔ lf.tail_ = 0) ∧ (lf.tail_ = 0 ↔ lf.size_ = 0) ∧
        new.Nodup ∧ new.length = k ∧
        (∀ f, DbList.size ⟨4, 4, 1⟩ < f → tight4.nodes f 1 = .ok old) ∧
        (∀ f, lo.size < f → tight4.nodes f other = .ok src ∧ wf.nodes f other = .ok src ∧
          wf.nodes f 1 = .ok new ∧ wf.rnodes f 1 = .ok new.reverse ∧
          tight4.to_list f other = .ok s ∧ wf.to_list f other = .ok s ∧
          wf.to_list f 1 = .ok (s.take k)) ∧
        (∀ q ∈ src, wf.heap q = tight4.heap q ∧ q ∉ new) ∧
        (∀ q ∈ new, (wf.heap q).isSome = true) ∧
        (∀ q ∈ old, q ∉ new → wf.heap q = none) ∧
        (∀ q, q ∉ old → q ∉ new → wf.heap q = tight4.heap q)) :=
  ⟨⟨tight4_reachable, rfl⟩,
    allocation_failure_effects (arena4 Nat) tight4 1 ⟨4, 4, 1⟩ tight4_reachable rfl⟩

theorem tight4_allocator_exhausted : (arena4 Nat).allocate tight4.heap = none := rfl

/-- C14: in every reachable state, for every list with chain `ps`: the chain has no
repeated node and `size()` nodes, every chain node is allocated, every allocated node is
on the chain of some list, and chains of different lists share no node. A `push_back` or
`push_front` that returns allocates exactly one node `p`, unallocated before, and puts it
on the chain; `pop_back` and `pop_front` free exactly the node they take off the chain,
which was allocated; `clear` (and the destructor) frees every chain node, each allocated
until then, and no other node. -/
theorem node_lifetime {α : Type} (A : Allocator α) (w : World α) (this : Nat)
    (l : DbList) (hr : Reachable A w) (hl : w.objs this = some l) :
    ∃ ps : List Nat, ps.Nodup ∧ ps.length = l.size ∧
      (∀ f, l.size < f → w.nodes f this = .ok ps) ∧
      (l.empty = false → ps = ps.dropLast ++ [l.tail_] ∧ ps = l.head_ :: ps.tail) ∧
      (∀ q ∈ ps, (w.heap q).isSome = true) ∧
      (∀ q, (w.heap q).isSome = true →
        ∃ i li qs, w.objs i = some li ∧ w.nodes (li.size + 1) i = .ok qs ∧ q ∈ qs) ∧
      (∀ j lj qs, j ≠ this → w.objs j = some lj → w.nodes (lj.size + 1) j = .ok qs →
        ∀ q ∈ ps, q ∉ qs) ∧
      (∀ v w1, w.invoke this (DbList.push_back A v) = .ok w1 →
        ∃ p, w.heap p = none ∧ (w1.heap p).isSome = true ∧
          (∀ q, q ≠ p → (w1.heap q).isSome = (w.heap q).isSome) ∧
          ∀ f, l.size + 1 < f → w1.nodes f this = .ok (ps ++ [p])) ∧
      (∀ v w1, w.invoke this (DbList.push_front A v) = .ok w1 →
        ∃ p, w.heap p = none ∧ (w1.heap p).isSome = true ∧
          (∀ q, q ≠ p → (w1.heap q).isSome = (w.heap q).isSome) ∧
          ∀ f, l.size + 1 < f → w1.nodes f this = .ok (p :: ps)) ∧
      (∃ w1, w.invoke this DbList.pop_back = .ok w1 ∧
        (∀ f, l.size < f → w1.nodes f this = .ok ps.dropLast) ∧
        (∀ q ∈ ps, q ∉ ps.dropLast → w1.heap q = none) ∧
        (∀ q, q ∉ ps ∨ q ∈ ps.dropLast → (w1.heap q).isSome = (w.heap q).isSome)) ∧
      (∃ w1, w.invoke this DbList.pop_front = .ok w1 ∧
        (∀ f, l.size < f → w1.nodes f this = .ok ps.tail) ∧
        (∀ q ∈ ps, q ∉ ps.tail → w1.heap q = none) ∧
        (∀ q, q ∉ ps ∨ q ∈ ps.tail → (w1.heap q).isSome = (w.heap q).isSome)) ∧
      (∀ fuel, l.size < fuel →
        ∃ w1 w2, w.invoke this (DbList.clear fuel) = .ok w1 ∧
          (∀ q ∈ ps, w1.heap q = none) ∧ (∀ q, q ∉ ps → w1.heap q = w.heap q) ∧
          w.destroy fuel this = .ok w2 ∧ w2.heap = w1.heap ∧ w2.objs this = none) := by
  obtain ⟨R, hw⟩ := reachable_inv A w hr
  have ho := hw.owns this l hl
  have hsz : l.size = (R this).length := ho.size
  refine ⟨(R this).map Prod.fst, ho.nodup, by rw [List.length_map, hsz],
    inv_nodes w R this l hw hl, ?_, ?_, ?_, ?_, ?_, ?_, ?_, ?_, ?_⟩
  · intro he
    apply ho.chain_ends
    intro h
    have := (empty_spec w.heap l (R this) ho).2 h
    rw [he] at this
    cases this
  · intro q hq
    exact (hw.alloc_iff q).2 ⟨this, hq⟩
  · intro q hq
    obtain ⟨i, hi⟩ := (hw.alloc_iff q).1 hq
    cases hoi : w.objs i with
    | none =>
      rw [hw.unused i hoi] at hi
      simp at hi
    | some li => exact ⟨i, li, _, hoi, inv_nodes w R i li hw hoi (li.size + 1) (by omega), hi⟩
  · intro j lj qs hj hlj hqs q hq
    rw [inv_nodes_eq w R j lj qs hw hlj hqs]
    exact hw.disj this j (fun e => hj e.symm) q hq
  · intro v w1 h1
    rcases world_push_back A w R this l v hw hl with ⟨-, herr⟩ | ⟨p, w2, l2, ha, e2, hw2, hl2, -⟩
    · rw [h1] at herr
      cases herr
    · rw [h1] at e2
      cases e2
      obtain ⟨g1, g2⟩ := grow_alloc (p := p) hw hw2 (by
        intro q
        rw [List.map_append, List.mem_append]
        simp
        tauto)
      refine ⟨p, (A.fresh w.heap p ha).2.2, g1, g2, fun f hf => ?_⟩
      have hs2 := (hw2.owns this l2 hl2).size
      have := inv_nodes w1 _ this l2 hw2 hl2 f (by
        show l2.size_ < f
        rw [hs2, Function.update_same]
        simp
        omega)
      rw [Function.update_same] at this
      rw [this]
      simp
  · intro v w1 h1
    rcases world_push_front A w R this l v hw hl with
      ⟨-, herr⟩ | ⟨p, w2, l2, ha, e2, hw2, hl2, -⟩
    · rw [h1] at herr
      cases herr
    · rw [h1] at e2
      cases e2
      obtain ⟨g1, g2⟩ := grow_alloc (p := p) hw hw2 (by
        intro q
        simp)
      refine ⟨p, (A.fresh w.heap p ha).2.2, g1, g2, fun f hf => ?_⟩
      have hs2 := (hw2.owns this l2 hl2).size
      have := inv_nodes w1 _ this l2 hw2 hl2 f (by
        show l2.size_ < f
        rw [hs2, Function.update_same]
        simp
        omega)
      rw [Function.update_same] at this
      rw [this]
      simp
  · obtain ⟨w1, l1, e1, hw1, hl1, -⟩ := world_pop_back w R this l hw hl
    obtain ⟨s1, s2⟩ := shrink_alloc hw hw1 (by
      intro q hq
      rw [List.map_dropLast] at hq
      exact List.mem_of_mem_dropLast hq)
    rw [List.map_dropLast] at s1 s2
    refine ⟨w1, e1, fun f hf => ?_, s1, s2⟩
    have hs1 := (hw1.owns this l1 hl1).size
    have := inv_nodes w1 _ this l1 hw1 hl1 f (by
      show l1.size_ < f
      rw [hs1, Function.update_same, List.length_dropLast]
      omega)
    rw [Function.update_same, List.map_dropLast] at this
    exact this
  · obtain ⟨w1, l1, e1, hw1, hl1, -⟩ := world_pop_front w R this l hw hl
    obtain ⟨s1, s2⟩ := shrink_alloc hw hw1 (by
      intro q hq
      rw [List.map_tail] at hq
      exact List.mem_of_mem_tail hq)
    rw [List.map_tail] at s1 s2
    refine ⟨w1, e1, fun f hf => ?_, s1, s2⟩
    have hs1 := (hw1.owns this l1 hl1).size
    have := inv_nodes w1 _ this l1 hw1 hl1 f (by
      show l1.size_ < f
      rw [hs1, Function.update_same, List.length_tail]
      omega)
    rw [Function.update_same, List.map_tail] at this
    exact this
  · intro fuel hf
    obtain ⟨w1, e1, hw1, -, -, hfr⟩ := world_clear fuel w R this l hw hl hf
    obtain ⟨s1, -⟩ := shrink_alloc hw hw1 (by
      intro q hq
      simp at hq)
    refine ⟨w1, w1.set_obj this none, e1, fun q hq => s1 q hq (by simp), hfr, ?_, rfl, ?_⟩
    · simp [World.destroy, e1]
    · simp [World.set_obj]

/-- C14 at the scenario list `[0, 1, 2]`. -/
theorem node_lifetime_witness :
    (Reachable (arena16 Nat) scenario3 ∧ scenario3.objs 0 = some ⟨3, 2, 3⟩) ∧
    ∃ ps : List Nat, ps.Nodup ∧ ps.length = DbList.size ⟨3, 2, 3⟩ ∧
      (∀ f, DbList.size ⟨3, 2, 3⟩ < f → scenario3.nodes f 0 = .ok ps) ∧
      (DbList.empty ⟨3, 2, 3⟩ = false →
        ps = ps.dropLast ++ [DbList.tail_ ⟨3, 2, 3⟩] ∧
        ps = DbList.head_ ⟨3, 2, 3⟩ :: ps.tail) ∧
      (∀ q ∈ ps, (scenario3.heap q).isSome = true) ∧
      (∀ q, (scenario3.heap q).isSome = true →
        ∃ i li qs, scenario3.objs i = some li ∧
          scenario3.nodes (li.size + 1) i = .ok qs ∧ q ∈ qs) ∧
      (∀ j lj qs, j ≠ 0 → scenario3.objs j = some lj →
        scenario3.nodes (lj.size + 1) j = .ok qs → ∀ q ∈ ps, q ∉ qs) ∧
      (∀ v w1, scenario3.invoke 0 (DbList.push_back (arena16 Nat) v) = .ok w1 →
        ∃ p, scenario3.heap p = none ∧ (w1.heap p).isSome = true ∧
          (∀ q, q ≠ p → (w1.heap q).isSome = (scenario3.heap q).isSome) ∧
          ∀ f, DbList.size ⟨3, 2, 3⟩ + 1 < f → w1.nodes f 0 = .ok (ps ++ [p])) ∧
      (∀ v w1, scenario3.invoke 0 (DbList.push_front (arena16 Nat) v) = .ok w1 →
        ∃ p, scenario3.heap p = none ∧ (w1.heap p).isSome = true ∧
          (∀ q, q ≠ p → (w1.heap q).isSome = (scenario3.heap q).isSome) ∧
          ∀ f, DbList.size ⟨3, 2, 3⟩ + 1 < f → w1.nodes f 0 = .ok (p :: ps)) ∧
      (∃ w1, scenario3.invoke 0 DbList.pop_back = .ok w1 ∧
        (∀ f, DbList.size ⟨3, 2, 3⟩ < f → w1.nodes f 0 = .ok ps.dropLast) ∧
        (∀ q ∈ ps, q ∉ ps.dropLast → w1.heap q = none) ∧
        (∀ q, q ∉ ps ∨ q ∈ ps.dropLast →
          (w1.heap q).isSome = (scenario3.heap q).isSome)) ∧
      (∃ w1, scenario3.invoke 0 DbList.pop_front = .ok w1 ∧
        (∀ f, DbList.size ⟨3, 2, 3⟩ < f → w1.nodes f 0 = .ok ps.tail) ∧
        (∀ q ∈ ps, q ∉ ps.tail → w1.heap q = none) ∧
        (∀ q, q ∉ ps ∨ q ∈ ps.tail →
          (w1.heap q).isSome = (scenario3.heap q).isSome)) ∧
      (∀ fuel, DbList.size ⟨3, 2, 3⟩ < fuel →
        ∃ w1 w2, scenario3.invoke 0 (DbList.clear fuel) = .ok w1 ∧
          (∀ q ∈ ps, w1.heap q = none) ∧ (∀ q, q ∉ ps → w1.heap q = scenario3.heap q) ∧
          scenario3.destroy fuel 0 = .ok w2 ∧ w2.heap = w1.heap ∧ w2.objs 0 = none) :=
  ⟨⟨scenario3_reachable, rfl⟩,
    node_lifetime (arena16 Nat) scenario3 0 ⟨3, 2, 3⟩ scenario3_reachable rfl⟩

/-- C15: in every reachable state, let `n` be a node on the chain of a list. The cursor on
`n` dereferences to an element `x`, and after a `push_back`, a `push_front`, a `pop_back`
when `n` is not the tail node, or a `pop_front` when `n` is not the head node, `n` is
still on the chain (hence allocated) and the cursor on `n` still dereferences to `x`. -/
theorem references_stay_valid {α : Type} (A : Allocator α) (w : World α) (this : Nat)
    (l : DbList) (ps : List Nat) (n : Nat) (hr : Reachable A w)
    (hl : w.objs this = some l) (hps : w.nodes (l.size + 1) this = .ok ps)
    (hn : n ∈ ps) :
    ∃ x : α, Iterator.deref w.heap ⟨n⟩ = .ok x ∧
      (∀ v w1, w.invoke this (DbList.push_back A v) = .ok w1 →
        Iterator.deref w1.heap ⟨n⟩ = .ok x ∧
        ∃ l1 ps1, w1.objs this = some l1 ∧ w1.nodes (l1.size + 1) this = .ok ps1 ∧
          n ∈ ps1) ∧
      (∀ v w1, w.invoke this (DbList.push_front A v) = .ok w1 →
        Iterator.deref w1.heap ⟨n⟩ = .ok x ∧
        ∃ l1 ps1, w1.objs this = some l1 ∧ w1.nodes (l1.size + 1) this = .ok ps1 ∧
          n ∈ ps1) ∧
      (∀ w1, w.invoke this DbList.pop_back = .ok w1 → n ≠ l.tail_ →
        Iterator.deref w1.heap ⟨n⟩ = .ok x ∧
        ∃ l1 ps1, w1.objs this = some l1 ∧ w1.nodes (l1.size + 1) this = .ok ps1 ∧
          n ∈ ps1) ∧
      (∀ w1, w.invoke this DbList.pop_front = .ok w1 → n ≠ l.head_ →
        Iterator.deref w1.heap ⟨n⟩ = .ok x ∧
        ∃ l1 ps1, w1.objs this = some l1 ∧ w1.nodes (l1.size + 1) this = .ok ps1 ∧
          n ∈ ps1) := by
  obtain ⟨R, hw⟩ := reachable_inv A w hr
  have ho := hw.owns this l hl
  rw [inv_nodes_eq w R this l ps hw hl hps] at hn
  obtain ⟨c, hc, rfl⟩ := List.mem_map.1 hn
  refine ⟨c.2, (stable_cell w R this l c hw hl hc).1, ?_, ?_, ?_, ?_⟩
  · intro v w1 h1
    rcases world_push_back A w R this l v hw hl with ⟨-, herr⟩ | ⟨p, w2, l2, -, e2, hw2, hl2, -⟩
    · rw [h1] at herr
      cases herr
    · rw [h1] at e2
      cases e2
      obtain ⟨g1, g2⟩ := stable_cell w1 _ this l2 c hw2 hl2 (by
        rw [Function.update_same]
        exact List.mem_append_left _ hc)
      obtain ⟨ps1, g3, g4⟩ := g2
      exact ⟨g1, l2, ps1, hl2, g3, g4⟩
  · intro v w1 h1
    rcases world_push_front A w R this l v hw hl with
      ⟨-, herr⟩ | ⟨p, w2, l2, -, e2, hw2, hl2, -⟩
    · rw [h1] at herr
      cases herr
    · rw [h1] at e2
      cases e2
      obtain ⟨g1, g2⟩ := stable_cell w1 _ this l2 c hw2 hl2 (by
        rw [Function.update_same]
        exact List.mem_cons_of_mem _ hc)
      obtain ⟨ps1, g3, g4⟩ := g2
      exact ⟨g1, l2, ps1, hl2, g3, g4⟩
  · intro w1 h1 hne
    obtain ⟨w2, l2, e2, hw2, hl2, -⟩ := world_pop_back w R this l hw hl
    rw [h1] at e2
    cases e2
    obtain ⟨g1, g2⟩ := stable_cell w1 _ this l2 c hw2 hl2 (by
      rw [Function.update_same]
      exact mem_dropLast_of_ne (R this) c hc (by rw [← ho.tail]; exact hne))
    obtain ⟨ps1, g3, g4⟩ := g2
    exact ⟨g1, l2, ps1, hl2, g3, g4⟩
  · intro w1 h1 hne
    obtain ⟨w2, l2, e2, hw2, hl2, -⟩ := world_pop_front w R this l hw hl
    rw [h1] at e2
    cases e2
    obtain ⟨g1, g2⟩ := stable_cell w1 _ this l2 c hw2 hl2 (by
      rw [Function.update_same]
      exact mem_tail_of_ne (R this) c hc (by rw [← ho.head]; exact hne))
    obtain ⟨ps1, g3, g4⟩ := g2
    exact ⟨g1, l2, ps1, hl2, g3, g4⟩

/-- C15 at node 1 (holding the element 1) of the scenario list `[0, 1, 2]`, whose chain
is the nodes 3, 1, 2. -/
theorem references_stay_valid_witness :
    (Reachable (arena16 Nat) scenario3 ∧ scenario3.objs 0 = some ⟨3, 2, 3⟩ ∧
      scenario3.nodes (DbList.size ⟨3, 2, 3⟩ + 1) 0 = .ok [3, 1, 2] ∧ 1 ∈ [3, 1, 2]) ∧
    ∃ x : Nat, Iterator.deref scenario3.heap ⟨1⟩ = .ok x ∧
      (∀ v w1, scenario3.invoke 0 (DbList.push_back (arena16 Nat) v) = .ok w1 →
        Iterator.deref w1.heap ⟨1⟩ = .ok x ∧
        ∃ l1 ps1, w1.objs 0 = some l1 ∧ w1.nodes (l1.size + 1) 0 = .ok ps1 ∧ 1 ∈ ps1) ∧
      (∀ v w1, scenario3.invoke 0 (DbList.push_front (arena16 Nat) v) = .ok w1 →
        Iterator.deref w1.heap ⟨1⟩ = .ok x ∧
        ∃ l1 ps1, w1.objs 0 = some l1 ∧ w1.nodes (l1.size + 1) 0 = .ok ps1 ∧ 1 ∈ ps1) ∧
      (∀ w1, scenario3.invoke 0 DbList.pop_back = .ok w1 → 1 ≠ DbList.tail_ ⟨3, 2, 3⟩ →
        Iterator.deref w1.heap ⟨1⟩ = .ok x ∧
        ∃ l1 ps1, w1.objs 0 = some l1 ∧ w1.nodes (l1.size + 1) 0 = .ok ps1 ∧ 1 ∈ ps1) ∧
      (∀ w1, scenario3.invoke 0 DbList.pop_front = .ok w1 → 1 ≠ DbList.head_ ⟨3, 2, 3⟩ →
        Iterator.deref w1.heap ⟨1⟩ = .ok x ∧
        ∃ l1 ps1, w1.objs 0 = some l1 ∧ w1.nodes (l1.size + 1) 0 = .ok ps1 ∧ 1 ∈ ps1) :=
  ⟨⟨scenario3_reachable, rfl, rfl, by decide⟩,
    references_stay_valid (arena16 Nat) scenario3 0 ⟨3, 2, 3⟩ [3, 1, 2] 1
      scenario3_reachable rfl rfl (by decide)⟩

/-- C19: in every reachable state, for every list and value `v`: `push_back(v)` either
throws `bad_alloc` leaving the state as it was, or returns, and a `pop_back()` right after
it returns the very state from before the push, so head, tail, size, every link, the
traversal and the set of allocated nodes are as before; likewise for `push_front(v)`
followed by `pop_front()`. -/
theorem push_pop_round_trip {α : Type} (A : Allocator α) (w : World α) (this : Nat)
    (l : DbList) (v : α) (hr : Reachable A w) (hl : w.objs this = some l) :
    ((A.allocate w.heap = none ∧
        w.invoke this (DbList.push_back A v) = .error (.bad_alloc, w)) ∨
      ∃ w1, w.invoke this (DbList.push_back A v) = .ok w1 ∧
        w1.invoke this DbList.pop_back = .ok w) ∧
    ((A.allocate w.heap = none ∧
        w.invoke this (DbList.push_front A v) = .error (.bad_alloc, w)) ∨
      ∃ w1, w.invoke this (DbList.push_front A v) = .ok w1 ∧
        w1.invoke this DbList.pop_front = .ok w) := by
  obtain ⟨R, hw⟩ := reachable_inv A w hr
  have hback : ∀ (w1 w2 : World α) (l1 l2 : DbList) (cs : List (Nat × α)),
      WInv w2 (Function.update (Function.update R this cs) this (R this)) →
      w1.objs this = some l1 → w2.objs this = some l2 →
      (∀ j, j ≠ this → w1.objs j = w.objs j) → (∀ j, j ≠ this → w2.objs j = w1.objs j) →
      w2 = w := by
    intro w1 w2 l1 l2 cs hw2 hl1 hl2 h1 h2
    rw [Function.update_idem, Function.update_eq_self] at hw2
    refine WInv.state_unique hw2 hw ?_
    intro j
    by_cases hj : j = this
    · subst hj
      rw [hl2, hl]
      rfl
    · rw [h2 j hj, h1 j hj]
  refine ⟨?_, ?_⟩
  · rcases world_push_back A w R this l v hw hl with herr | ⟨p, w1, l1, -, e1, hw1, hl1, hoth1⟩
    · exact Or.inl herr
    · right
      obtain ⟨w2, l2, e2, hw2, hl2, hoth2⟩ := world_pop_back w1 _ this l1 hw1 hl1
      rw [Function.update_same, List.dropLast_concat] at hw2
      rw [hback w1 w2 l1 l2 _ hw2 hl1 hl2 hoth1 hoth2] at e2
      exact ⟨w1, e1, e2⟩
  · rcases world_push_front A w R this l v hw hl with
      herr | ⟨p, w1, l1, -, e1, hw1, hl1, hoth1⟩
    · exact Or.inl herr
    · right
      obtain ⟨w2, l2, e2, hw2, hl2, hoth2⟩ := world_pop_front w1 _ this l1 hw1 hl1
      rw [Function.update_same, List.tail_cons] at hw2
      rw [hback w1 w2 l1 l2 _ hw2 hl1 hl2 hoth1 hoth2] at e2
      exact ⟨w1, e1, e2⟩

/-- C19 at the scenario list `[0, 1, 2]` with the value 5. -/
theorem push_pop_round_trip_witness :
    (Reachable (arena16 Nat) scenario3 ∧ scenario3.objs 0 = some ⟨3, 2, 3⟩) ∧
    (((arena16 Nat).allocate scenario3.heap = none ∧
        scenario3.invoke 0 (DbList.push_back (arena16 Nat) 5) =
          .error (.bad_alloc, scenario3)) ∨
      ∃ w1, scenario3.invoke 0 (DbList.push_back (arena16 Nat) 5) = .ok w1 ∧
        w1.invoke 0 DbList.pop_back = .ok scenario3) ∧
    (((arena16 Nat).allocate scenario3.heap = none ∧
        scenario3.invoke 0 (DbList.push_front (arena16 Nat) 5) =
          .error (.bad_alloc, scenario3)) ∨
      ∃ w1, scenario3.invoke 0 (DbList.push_front (arena16 Nat) 5) = .ok w1 ∧
        w1.invoke 0 DbList.pop_front = .ok scenario3) :=
  ⟨⟨scenario3_reachable, rfl⟩,
    push_pop_round_trip (arena16 Nat) scenario3 0 ⟨3, 2, 3⟩ 5 scenario3_reachable rfl⟩

/-- C17: in every reachable state, for every non-empty list: following `next` from head
reaches tail after `size - 1` steps and null after `size` steps; following `prev` from
tail reaches head after `size - 1` steps and null after `size` steps; `head->prev` and
`tail->next` are null; the chain `ps` has `size` nodes, none twice; the `k`-th step of the
`next`-walk is on the `k`-th node of `ps` and the `k`-th step of the `prev`-walk on the
`k`-th node of `ps` reversed, so the `prev`-walk visits the chain in reverse order; and
every chain node `n` with a successor has `n->next->prev == n`, with a predecessor
`n->prev->next == n`. -/
theorem chain_invariant {α : Type} (A : Allocator α) (w : World α) (this : Nat)
    (l : DbList) (hr : Reachable A w) (hl : w.objs this = some l)
    (hne : l.empty = false) :
    walk_next w.heap (l.size - 1) l.head_ = .ok l.tail_ ∧
    walk_next w.heap l.size l.head_ = .ok 0 ∧
    walk_prev w.heap (l.size - 1) l.tail_ = .ok l.head_ ∧
    walk_prev w.heap l.size l.tail_ = .ok 0 ∧
    (∃ nh nt, w.heap l.head_ = some nh ∧ nh.prev = 0 ∧
      w.heap l.tail_ = some nt ∧ nt.next = 0) ∧
    ∃ ps : List Nat, ps.Nodup ∧ ps.length = l.size ∧
      (∀ f, l.size < f → w.nodes f this = .ok ps ∧ w.rnodes f this = .ok ps.reverse) ∧
      (∀ k q, ps[k]? = some q → walk_next w.heap k l.head_ = .ok q) ∧
      (∀ k q, ps.reverse[k]? = some q → walk_prev w.heap k l.tail_ = .ok q) ∧
      (∀ n ∈ ps, ∃ node, w.heap n = some node ∧
        (node.next ≠ 0 → ∃ m, w.heap node.next = some m ∧ m.prev = n) ∧
        (node.prev ≠ 0 → ∃ m, w.heap node.prev = some m ∧ m.next = n)) := by
  obtain ⟨R, hw⟩ := reachable_inv A w hr
  have ho := hw.owns this l hl
  have hsz : l.size = (R this).length := ho.size
  have hnil : R this ≠ [] := by
    intro h
    have := (empty_spec w.heap l (R this) ho).2 h
    rw [hne] at this
    cases this
  have h0 := ho.ne_zero
  have hseg := ho.seg
  have hhead := ho.head
  have htail := ho.tail
  obtain ⟨cf, ys, hcons⟩ := List.exists_cons_of_ne_nil hnil
  rcases snoc_cases (R this) with hx | ⟨xs, cl, hsnoc⟩
  · exact absurd hx hnil
  have hlast : lastOr 0 (R this) = cl.1 := by
    rw [hsnoc, lastOr_append]
    rfl
  have hfirst : firstOr 0 (R this) = cf.1 := by
    rw [hcons]
    rfl
  refine ⟨?_, ?_, ?_, ?_, ?_, (R this).map Prod.fst, ho.nodup,
    by rw [List.length_map, hsz], ?_, ?_, ?_, ?_⟩
  · have hs1 : Seg w.heap 0 (xs ++ [cl]) 0 := by
      rw [← hsnoc]
      exact hseg
    have hwk := walk_next_spec w.heap xs 0 0 [cl] hs1
      (fun c hc => h0 c (by rw [hsnoc]; exact List.mem_append_left _ hc))
    rw [← hsnoc, ← hhead] at hwk
    have hlen : l.size - 1 = xs.length := by rw [hsz, hsnoc]; simp
    rw [hlen, hwk, htail, hlast]
    rfl
  · have hs1 : Seg w.heap 0 (R this ++ []) 0 := by rw [List.append_nil]; exact hseg
    have hwk := walk_next_spec w.heap (R this) 0 0 [] hs1 h0
    rw [List.append_nil, ← hhead, ← hsz] at hwk
    exact hwk
  · have hcc : [cf] ++ ys = R this := hcons.symm
    have hs1 : Seg w.heap 0 ([cf] ++ ys) 0 := by
      rw [hcc]
      exact hseg
    have hwk := walk_prev_spec w.heap ys 0 0 [cf] hs1
      (fun c hc => h0 c (by rw [hcons]; exact List.mem_cons_of_mem _ hc))
    rw [hcc, ← htail] at hwk
    have hlen : l.size - 1 = ys.length := by rw [hsz, hcons]; simp
    rw [hlen, hwk, hhead, hfirst]
    rfl
  · have hs1 : Seg w.heap 0 ([] ++ R this) 0 := hseg
    have hwk := walk_prev_spec w.heap (R this) 0 0 [] hs1 h0
    rw [List.nil_append, ← htail, ← hsz] at hwk
    exact hwk
  · have hs1 : Seg w.heap 0 (cf :: ys) 0 := by
      rw [← hcons]
      exact hseg
    have hs2 := (Seg_append w.heap 0 0 xs [cl]).1 (by rw [← hsnoc]; exact hseg)
    refine ⟨⟨cf.2, 0, firstOr 0 ys⟩, ⟨cl.2, lastOr 0 xs, 0⟩, ?_, rfl, ?_, rfl⟩
    · rw [hhead, hfirst]
      exact hs1.1
    · rw [htail, hlast]
      exact hs2.2.1
  · intro f hf
    refine ⟨inv_nodes w R this l hw hl f hf, ?_⟩
    have hrc := rchain_spec w.heap (R this) 0 f hseg h0 (by rw [← hsz]; exact hf)
    simpa [World.rnodes, World.query, hl, htail] using hrc
  · intro k q hk
    rw [hhead]
    exact walk_next_idx w.heap (R this) 0 0 k q hseg h0 hk
  · intro k q hk
    rw [htail]
    exact walk_prev_idx w.heap (R this) 0 k q hseg h0 hk
  · intro n hn
    obtain ⟨c, hc, rfl⟩ := List.mem_map.1 hn
    obtain ⟨node, hnode, -⟩ := Seg_data w.heap (R this) 0 0 hseg c hc
    exact ⟨node, hnode, Seg_links w.heap (R this) hseg c hc node hnode⟩

/-- C17 at the scenario list `[0, 1, 2]`. -/
theorem chain_invariant_witness :
    (Reachable (arena16 Nat) scenario3 ∧ scenario3.objs 0 = some ⟨3, 2, 3⟩ ∧
      DbList.empty ⟨3, 2, 3⟩ = false) ∧
    (walk_next scenario3.heap (DbList.size ⟨3, 2, 3⟩ - 1) (DbList.head_ ⟨3, 2, 3⟩) =
      .ok (DbList.tail_ ⟨3, 2, 3⟩) ∧
    walk_next scenario3.heap (DbList.size ⟨3, 2, 3⟩) (DbList.head_ ⟨3, 2, 3⟩) = .ok 0 ∧
    walk_prev scenario3.heap (DbList.size ⟨3, 2, 3⟩ - 1) (DbList.tail_ ⟨3, 2, 3⟩) =
      .ok (DbList.head_ ⟨3, 2, 3⟩) ∧
    walk_prev scenario3.heap (DbList.size ⟨3, 2, 3⟩) (DbList.tail_ ⟨3, 2, 3⟩) = .ok 0 ∧
    (∃ nh nt, scenario3.heap (DbList.head_ ⟨3, 2, 3⟩) = some nh ∧ nh.prev = 0 ∧
      scenario3.heap (DbList.tail_ ⟨3, 2, 3⟩) = some nt ∧ nt.next = 0) ∧
    ∃ ps : List Nat, ps.Nodup ∧ ps.length = DbList.size ⟨3, 2, 3⟩ ∧
      (∀ f, DbList.size ⟨3, 2, 3⟩ < f →
        scenario3.nodes f 0 = .ok ps ∧ scenario3.rnodes f 0 = .ok ps.reverse) ∧
      (∀ k q, ps[k]? = some q →
        walk_next scenario3.heap k (DbList.head_ ⟨3, 2, 3⟩) = .ok q) ∧
      (∀ k q, ps.reverse[k]? = some q →
        walk_prev scenario3.heap k (DbList.tail_ ⟨3, 2, 3⟩) = .ok q) ∧
      (∀ n ∈ ps, ∃ node, scenario3.heap n = some node ∧
        (node.next ≠ 0 → ∃ m, scenario3.heap node.next = some m ∧ m.prev = n) ∧
        (node.prev ≠ 0 → ∃ m, scenario3.heap node.prev = some m ∧ m.next = n))) :=
  ⟨⟨scenario3_reachable, rfl, rfl⟩,
    chain_invariant (arena16 Nat) scenario3 0 ⟨3, 2, 3⟩ scenario3_reachable rfl rfl⟩

theorem scenario3_walks :
    walk_next scenario3.heap 2 3 = .ok 2 ∧ walk_prev scenario3.heap 2 2 = .ok 3 ∧
      scenario3.nodes 4 0 = .ok [3, 1, 2] ∧ scenario3.rnodes 4 0 = .ok [2, 1, 3] :=
  ⟨rfl, rfl, rfl, rfl⟩

/-- C18: in every reachable state, for every list. (1) `operator==` holds exactly when the
two cursors hold the same pointer, `operator!=` is its negation, and `begin()` is the same
for lists with the same `head_`. (2) The cursors
reached from `begin()` by `i` and by `j` steps of `operator++` (at most `size()` each)
exist, the first is the end sentinel iff `i` is `size()`, and they compare equal iff
`i = j`, that is iff they are on the same node or are both the end sentinel. (3) The
client program `b1 = begin(); for (c = begin(), e = end(); c != e; ++c) yield *c;
b2 = begin();` returns normally, yields the forward traversal, leaves the lists and nodes
exactly as they were (the loop wrote only the cursor variable `c`), leaves every other
cursor variable as it was, ends with `b1 == b2`, and run once more yields the same
sequence. -/
theorem iterator_equality_and_restart {α : Type} (A : Allocator α) (m : Machine α)
    (this b1 c e b2 : Nat) (l : DbList) (hr : Reachable A m.world)
    (hl : m.world.objs this = some l)
    (hd : b1 ≠ c ∧ b1 ≠ e ∧ b1 ≠ b2 ∧ c ≠ e ∧ c ≠ b2 ∧ e ≠ b2) :
    (∀ a b : Iterator, (a.eq b = true ↔ a.current_ = b.current_) ∧ a.ne b = !(a.eq b)) ∧
    (∀ l1 : DbList, l.head_ = l1.head_ → l.begin = l1.begin) ∧
    (∀ i j, i ≤ l.size → j ≤ l.size →
      ∃ a b, Iterator.advance m.world.heap i l.begin = .ok a ∧
        Iterator.advance m.world.heap j l.begin = .ok b ∧
        (a.eq l.end = true ↔ i = l.size) ∧
        (a.eq b = true ↔ i = j) ∧ (a.ne b = true ↔ i ≠ j)) ∧
    ∃ s : List α, (∀ fuel, l.size < fuel → m.world.to_list fuel this = .ok s) ∧
      ∀ fuel, l.size < fuel →
        ∃ m1, Machine.restart fuel m this b1 c e b2 = .ok (s, m1) ∧
          m1.world = m.world ∧ m1.eq b1 b2 = .ok true ∧
          m1.cursors b1 = some l.begin ∧ m1.cursors b2 = some l.begin ∧
          m1.cursors c = some l.end ∧ m1.cursors e = some l.end ∧
          (∀ d, d ≠ b1 → d ≠ c → d ≠ e → d ≠ b2 → m1.cursors d = m.cursors d) ∧
          ∃ m2, Machine.restart fuel m1 this b1 c e b2 = .ok (s, m2) ∧
            m2.world = m.world := by
  obtain ⟨R, hw⟩ := reachable_inv A m.world hr
  have ho := hw.owns this l hl
  obtain ⟨hb1c, hb1e, hb1b2, hce, hcb2, heb2⟩ := hd
  refine ⟨?_, ?_, ?_, (R this).map Prod.snd, (inv_to_list m.world R this l hw hl).2, ?_⟩
  · intro a b
    exact ⟨by simp [Iterator.eq], rfl⟩
  · intro l1 h
    simp [DbList.begin, h]
  · intro i j hi hj
    have hlen : ((R this).map Prod.fst).length = l.size := by
      rw [List.length_map]
      exact ho.size.symm
    have hbeg : l.begin = ⟨firstOr 0 (R this)⟩ := by simp [DbList.begin, ho.head]
    have h0 : ∀ p ∈ (R this).map Prod.fst, p ≠ 0 := by
      intro p hp
      obtain ⟨x, hx, rfl⟩ := List.mem_map.1 hp
      exact ho.ne_zero x hx
    have ea := position_cursor m.world.heap (R this) 0 i ho.seg ho.ne_zero
      (by rw [← ho.size]; exact hi)
    have eb := position_cursor m.world.heap (R this) 0 j ho.seg ho.ne_zero
      (by rw [← ho.size]; exact hj)
    obtain ⟨p1, p2⟩ := position_inj ((R this).map Prod.fst) ho.nodup h0 i j
      (by rw [hlen]; exact hi) (by rw [hlen]; exact hj)
    rw [hlen] at p2
    refine ⟨_, _, by rw [hbeg]; exact ea, by rw [hbeg]; exact eb, ?_, ?_, ?_⟩
    · simp only [Iterator.eq, DbList.end, beq_iff_eq]
      exact p2
    · simp only [Iterator.eq, beq_iff_eq]
      exact p1
    · simp only [Iterator.ne, bne_iff_ne, ne_eq]
      exact not_congr p1
  · intro fuel hf
    have hrun := Machine.restart_spec fuel m R this b1 c e b2 l hw hl hce hf
    have hec : e ≠ c := fun h => hce h.symm
    refine ⟨_, hrun, rfl, ?_, ?_, ?_, ?_, ?_, ?_, ?_⟩
    · simp [Machine.eq, Machine.set_cursor, hb1b2, hb1c, hb1e, Iterator.eq]
    · simp [Machine.set_cursor, hb1b2, hb1c, hb1e]
    · simp [Machine.set_cursor]
    · simp [Machine.set_cursor, hcb2, DbList.end]
    · simp [Machine.set_cursor, heb2, hec]
    · intro d h1 h2 h3 h4
      simp [Machine.set_cursor, h1, h2, h3, h4]
    · exact ⟨_, Machine.restart_spec fuel _ R this b1 c e b2 l hw hl hce hf, rfl⟩

/-- C18 at the scenario list `[0, 1, 2]`, with no cursor variable set beforehand. -/
theorem iterator_equality_and_restart_witness :
    (Reachable (arena16 Nat) (Machine.world ⟨scenario3, fun _ => none⟩) ∧
      (Machine.world ⟨scenario3, fun _ => none⟩).objs 0 = some ⟨3, 2, 3⟩ ∧
      ((0 : Nat) ≠ 1 ∧ (0 : Nat) ≠ 2 ∧ (0 : Nat) ≠ 3 ∧ (1 : Nat) ≠ 2 ∧ (1 : Nat) ≠ 3 ∧
        (2 : Nat) ≠ 3)) ∧
    ((∀ a b : Iterator, (a.eq b = true ↔ a.current_ = b.current_) ∧ a.ne b = !(a.eq b)) ∧
    (∀ l1 : DbList, DbList.head_ ⟨3, 2, 3⟩ = l1.head_ → DbList.begin ⟨3, 2, 3⟩ = l1.begin) ∧
    (∀ i j, i ≤ DbList.size ⟨3, 2, 3⟩ → j ≤ DbList.size ⟨3, 2, 3⟩ →
      ∃ a b, Iterator.advance scenario3.heap i (DbList.begin ⟨3, 2, 3⟩) = .ok a ∧
        Iterator.advance scenario3.heap j (DbList.begin ⟨3, 2, 3⟩) = .ok b ∧
        (a.eq (DbList.end ⟨3, 2, 3⟩) = true ↔ i = DbList.size ⟨3, 2, 3⟩) ∧
        (a.eq b = true ↔ i = j) ∧ (a.ne b = true ↔ i ≠ j)) ∧
    ∃ s : List Nat,
      (∀ fuel, DbList.size ⟨3, 2, 3⟩ < fuel → scenario3.to_list fuel 0 = .ok s) ∧
      ∀ fuel, DbList.size ⟨3, 2, 3⟩ < fuel →
        ∃ m1, Machine.restart fuel ⟨scenario3, fun _ => none⟩ 0 0 1 2 3 = .ok (s, m1) ∧
          m1.world = scenario3 ∧ m1.eq 0 3 = .ok true ∧
          m1.cursors 0 = some (DbList.begin ⟨3, 2, 3⟩) ∧
          m1.cursors 3 = some (DbList.begin ⟨3, 2, 3⟩) ∧
          m1.cursors 1 = some (DbList.end ⟨3, 2, 3⟩) ∧
          m1.cursors 2 = some (DbList.end ⟨3, 2, 3⟩) ∧
          (∀ d, d ≠ 0 → d ≠ 1 → d ≠ 2 → d ≠ 3 →
            m1.cursors d = (fun _ => (none : Option Iterator)) d) ∧
          ∃ m2, Machine.restart fuel m1 0 0 1 2 3 = .ok (s, m2) ∧ m2.world = scenario3) :=
  ⟨⟨scenario3_reachable, rfl, by decide⟩,
    iterator_equality_and_restart (arena16 Nat) ⟨scenario3, fun _ => none⟩ 0 0 1 2 3
      ⟨3, 2, 3⟩ scenario3_reachable rfl (by decide)⟩

theorem scenario3_restart :
    (match Machine.restart 4 ⟨scenario3, fun _ => none⟩ 0 0 1 2 3 with
      | .ok (s, m1) => some (s, m1.cursors 0, m1.cursors 1, m1.cursors 3, m1.eq 0 3)
      | .error _ => none) =
    some ([0, 1, 2], some ⟨3⟩, some ⟨0⟩, some ⟨3⟩, .ok true) := rfl

end DbListModel
